import Mathlib

/-!
Verification development for the multidimalgorithm repository (mdds).

The source parts embedded here:
* `src/include/mdds/rtree_def.inl` — R-tree geometry, choose-subtree,
  R* split selection, insert, erase, point search, integrity check.
* `src/inc/segmenttree.hpp` — segment tree build/mark/search/remove.
* Flat segment tree and multi-type vector bodies are not present under
  `src/`; they are modelled from the specification where needed, with the
  doc comments saying so explicitly.

Keys are embedded as `Int` (the C++ templates instantiate a totally
ordered arithmetic key type); value payloads and data handles are
embedded as `Nat` identifiers, since the code only relies on identity.
-/

namespace Rt

/-- One dimension of a bounding box: the pair of the `start` and `end`
coordinates of that dimension (`bounding_box` stores two points; we store
the per-dimension pairs, which carries the same data). -/
abbrev Dim := Int × Int

/-- A bounding box, one `(start, end)` coordinate pair per dimension. -/
abbrev Box := List Dim

/-- Body of `detail::rtree::calc_linear_intersection` after the swap that
ensures `start1 <= start2` (lines 61-81 of rtree_def.inl). -/
def linIntersectCore (_s1 e1 s2 e2 : Int) : Int :=
  if e1 < s2 then 0
  else if e1 < e2 then e1 - s2
  else e2 - s2

/-- Translation of `detail::rtree::calc_linear_intersection`: length of the
intersection of the two boxes along one dimension. -/
def calc_linear_intersection (d1 d2 : Dim) : Int :=
  if d1.1 > d2.1 then linIntersectCore d2.1 d2.2 d1.1 d1.2
  else linIntersectCore d1.1 d1.2 d2.1 d2.2

/-- Loop of `detail::rtree::calc_intersection` over dimensions 1 and up:
multiplies the accumulated volume by each linear intersection, returning
zero as soon as one dimension does not intersect. -/
def calcIntersectionAux : List (Dim × Dim) → Int → Int
  | [], acc => acc
  | d :: rest, acc =>
    let seg := calc_linear_intersection d.1 d.2
    if seg = 0 then 0 else calcIntersectionAux rest (acc * seg)

/-- Translation of `detail::rtree::calc_intersection`: the volume of the
intersection of two boxes, zero when they do not intersect in some
dimension. -/
def calc_intersection (b1 b2 : Box) : Int :=
  match b1.zip b2 with
  | [] => 0
  | d :: rest =>
    let v := calc_linear_intersection d.1 d.2
    if v = 0 then 0 else calcIntersectionAux rest v

/-- One dimension of `detail::rtree::enlarge_box_to_fit`: grow the parent
dimension to cover the child dimension, reporting whether it grew. -/
def enlargeDim (p c : Dim) : Dim × Bool :=
  let s := if c.1 < p.1 then (c.1, true) else (p.1, false)
  let e := if p.2 < c.2 then (c.2, true) else (p.2, false)
  ((s.1, e.1), s.2 || e.2)

/-- Translation of `detail::rtree::enlarge_box_to_fit`: enlarge `parent`
to cover `child`; the boolean records whether any dimension changed. -/
def enlarge_box_to_fit (parent child : Box) : Box × Bool :=
  (parent.zip child).foldr
    (fun pc acc =>
      let r := enlargeDim pc.1 pc.2
      (r.1 :: acc.1, r.2 || acc.2))
    ([], false)

/-- Translation of `detail::rtree::calc_area`: product of the edge
lengths of a box over all dimensions. -/
def calc_area : Box → Int
  | [] => 0
  | d :: rest => rest.foldl (fun a d2 => a * (d2.2 - d2.1)) (d.2 - d.1)

/-- Translation of `detail::rtree::calc_half_margin`: sum of one edge
length per dimension. -/
def calc_half_margin : Box → Int
  | [] => 0
  | d :: rest => rest.foldl (fun a d2 => a + (d2.2 - d2.1)) (d.2 - d.1)

/-- Translation of `detail::rtree::calc_area_enlargement`: area of the
host box enlarged to fit the guest, minus the original area; zero when no
enlargement takes place. -/
def calc_area_enlargement (host guest : Box) : Int :=
  let original := calc_area host
  let r := enlarge_box_to_fit host guest
  if r.2 = false then 0 else calc_area r.1 - original

/-- Translation of `detail::rtree::calc_bounding_box` on a list of boxes:
start from the first and enlarge over the rest.  The empty case never
occurs in the source (the iterator range is nonempty); it yields the
empty box here. -/
def calc_bounding_box : List Box → Box
  | [] => []
  | b :: rest => rest.foldl (fun acc x => (enlarge_box_to_fit acc x).1) b

/-- Translation of `detail::rtree::min_value_pos`: running minimum with
its position; ties keep the earlier position (strict `<` in `assign`). -/
structure MinPos where
  value : Int
  pos : Nat
  count : Nat

/-- Translation of `min_value_pos::assign`. -/
def MinPos.assign (m : MinPos) (v : Int) (p : Nat) : MinPos :=
  if m.count ≠ 0 then
    if v < m.value then ⟨v, p, m.count + 1⟩
    else ⟨m.value, m.pos, m.count + 1⟩
  else ⟨v, p, m.count + 1⟩

/-- Run `min_value_pos::assign` over a list of (value, position) pairs,
as the source loops do. -/
def runMin (vs : List (Int × Nat)) : MinPos :=
  vs.foldl (fun a vp => a.assign vp.1 vp.2) ⟨0, 0, 0⟩

/-- Stable insertion of `x` into `l`, placing `x` before the first
element `y` with `lt x y`.  Used to model `std::sort` with a strict
comparator (a valid `std::sort` outcome; `std::sort` leaves the order of
tied elements unspecified). -/
def insertLt {α : Type} (lt : α → α → Bool) (x : α) : List α → List α
  | [] => [x]
  | y :: ys => if lt x y then x :: y :: ys else y :: insertLt lt x ys

/-- Stable sort by a strict comparator, modelling `std::sort`. -/
def sortLt {α : Type} (lt : α → α → Bool) (l : List α) : List α :=
  l.foldr (insertLt lt) []

/-- The comparator of `rtree::sort_dir_store_by_dimension`: order by the
start coordinate of dimension `dim`, then by the end coordinate. -/
def ltByDim (dim : Nat) (a b : Box) : Bool :=
  let da := a.getD dim (0, 0)
  let db := b.getD dim (0, 0)
  if da.1 ≠ db.1 then decide (da.1 < db.1) else decide (da.2 < db.2)

/-- Translation of `rtree::sort_dir_store_by_dimension` (on the child
bounding boxes). -/
def sort_dir_store_by_dimension (dim : Nat) (children : List Box) : List Box :=
  sortLt (ltByDim dim) children

/-- Modelled from the spec: `max_dist_size` is declared in `rtree.hpp`,
which is not under `src/`; the spec fixes the distributions as
`k = 1 ... max - 2*min + 2`. -/
def maxDistSize (minsz maxsz : Nat) : Nat := maxsz - 2 * minsz + 2

/-- The half-margin sum of one distribution `dist`: group 1 holds the
first `min - 1 + dist` children, group 2 the rest (split_node loop body,
rtree_def.inl lines 1177-1200). -/
def distMargins (minsz : Nat) (children : List Box) (dist : Nat) : Int :=
  let cut := minsz - 1 + dist
  let bb1 := calc_bounding_box (children.take cut)
  let bb2 := calc_bounding_box (children.drop cut)
  calc_half_margin bb1 + calc_half_margin bb2

/-- Sum of half-margins over all distributions for one dimension, with
the children sorted by that dimension first, as in
`rtree::sort_dir_store_by_split_dimension`. -/
def marginSumForDim (minsz maxsz dim : Nat) (children : List Box) : Int :=
  let sorted := sort_dir_store_by_dimension dim children
  ((List.range (maxDistSize minsz maxsz)).map
    (fun k => distMargins minsz sorted (k + 1))).foldl (· + ·) 0

/-- Translation of `rtree::sort_dir_store_by_split_dimension`: pick the
dimension with the least sum of half-margins (first minimum wins, per
`min_value_pos::assign`), and return the children sorted by it together
with the chosen dimension. -/
def sort_dir_store_by_split_dimension (dims minsz maxsz : Nat) (children : List Box) :
    List Box × Nat :=
  let m := runMin ((List.range dims).map
    (fun dim => (marginSumForDim minsz maxsz dim children, dim)))
  (sort_dir_store_by_dimension m.pos children, m.pos)

/-- The intersection volume of the two groups of distribution `dist`
(pick_optimal_distribution loop body). -/
def distOverlap (minsz : Nat) (children : List Box) (dist : Nat) : Int :=
  let cut := minsz - 1 + dist
  let bb1 := calc_bounding_box (children.take cut)
  let bb2 := calc_bounding_box (children.drop cut)
  calc_intersection bb1 bb2

/-- Combined area of the two groups of distribution `dist`; this is the
quantity the specification claims is used to break ties. -/
def distCombinedArea (minsz : Nat) (children : List Box) (dist : Nat) : Int :=
  let cut := minsz - 1 + dist
  calc_area (calc_bounding_box (children.take cut)) +
    calc_area (calc_bounding_box (children.drop cut))

/-- Translation of `rtree::pick_optimal_distribution`: over
`dist = 1 ... max_dist_size`, pick the distribution with the least
group-intersection volume; `min_value_pos::assign` keeps the first
minimum. -/
def pick_optimal_distribution (minsz maxsz : Nat) (children : List Box) : Nat :=
  (runMin ((List.range (maxDistSize minsz maxsz)).map
    (fun k => (distOverlap minsz children (k + 1), k + 1)))).pos

/-- Translation of `rtree::calc_overlap_cost`: sum over the children of
the candidate directory of their intersection volume with the inserted
box. -/
def calc_overlap_cost (bb : Box) (kids : List Box) : Int :=
  kids.foldl (fun acc k => acc + calc_intersection k bb) 0

/-- A candidate child of a non-leaf directory during choose-subtree: its
bounding box and the boxes of its own children (used by
`calc_overlap_cost`). -/
structure DirEnt where
  box : Box
  kids : List Box

/-- State of the pick loops of `rtree::find_node_for_insertion`: the
three recorded minima and the currently picked index. -/
structure PickSt where
  minO : Int
  minE : Int
  minA : Int
  dst : Option Nat

/-- One step of the leaf-directory pick loop of
`find_node_for_insertion` (rtree_def.inl lines 1294-1323): a candidate is
picked when there is no pick yet, or its overlap cost is below the
recorded minimum overlap, or its area enlargement is below the recorded
minimum enlargement, or its area is below the recorded minimum area.
The three minima are all overwritten on a pick. -/
def pickStepLeaf (bb : Box) (st : PickSt) (ie : Nat × DirEnt) : PickSt :=
  let overlap := calc_overlap_cost bb ie.2.kids
  let enl := calc_area_enlargement ie.2.box bb
  let ar := calc_area ie.2.box
  let doPick := st.dst.isNone || decide (overlap < st.minO) ||
    decide (enl < st.minE) || decide (ar < st.minA)
  if doPick then ⟨overlap, enl, ar, some ie.1⟩ else st

/-- The choose-subtree rule of `find_node_for_insertion` when at least
one child is a leaf directory: scan the children with `pickStepLeaf`. -/
def chooseByOverlap (bb : Box) (children : List DirEnt) : Option Nat :=
  ((children.enum).foldl (fun st e => pickStepLeaf bb st e)
    ⟨0, 0, 0, none⟩).dst

/-- One step of the all-non-leaf pick loop of `find_node_for_insertion`
(rtree_def.inl lines 1329-1356): area enlargement, then area, with the
same non-nested conditional structure. -/
def pickStepNonleaf (bb : Box) (st : PickSt) (ie : Nat × Box) : PickSt :=
  let cost := calc_area_enlargement ie.2 bb
  let ar := calc_area ie.2
  let doPick := st.dst.isNone || decide (cost < st.minE) || decide (ar < st.minA)
  if doPick then ⟨0, cost, ar, some ie.1⟩ else st

/-- The choose-subtree rule of `find_node_for_insertion` when every
child is a non-leaf directory. -/
def chooseByEnlargement (bb : Box) (children : List Box) : Option Nat :=
  ((children.enum).foldl (fun st e => pickStepNonleaf bb st e)
    ⟨0, 0, 0, none⟩).dst

/-- The quantity named by the specification for choose-subtree: the sum
of pairwise intersections with the siblings after hypothetically
enlarging candidate `i` to fit the inserted box.  Written from the
spec's words for comparison with the code's `calc_overlap_cost`. -/
def specOverlapAfterInsertion (bb : Box) (boxes : List Box) (i : Nat) : Int :=
  let grown := (enlarge_box_to_fit (boxes.getD i []) bb).1
  ((boxes.enum).filter (fun e => e.1 ≠ i)).foldl
    (fun acc e => acc + calc_intersection grown e.2) 0

end Rt

namespace Rt

/-- Folding `min_value_pos::assign` over a list of (value, position)
pairs from a given record. -/
def minFold (vs : List (Int × Nat)) (m : MinPos) : MinPos :=
  vs.foldl (fun a vp => a.assign vp.1 vp.2) m

theorem runMin_eq_minFold (vs : List (Int × Nat)) : runMin vs = minFold vs ⟨0, 0, 0⟩ := rfl

theorem minFold_cons (x : Int × Nat) (vs : List (Int × Nat)) (m : MinPos) :
    minFold (x :: vs) m = minFold vs (m.assign x.1 x.2) := rfl

/-- Folding `MinPos.assign` from a state with nonzero count keeps the
record when no strictly smaller value appears. -/
theorem minpos_fold_keep (vs : List (Int × Nat)) (v0 : Int) (p0 : Nat) (c0 : Nat)
    (h : ∀ x ∈ vs, v0 ≤ x.1) :
    (minFold vs ⟨v0, p0, c0 + 1⟩).value = v0 ∧ (minFold vs ⟨v0, p0, c0 + 1⟩).pos = p0 := by
  induction vs generalizing c0 with
  | nil => exact ⟨rfl, rfl⟩
  | cons x xs ih =>
    have hx : v0 ≤ x.1 := h x (List.mem_cons_self x xs)
    have hs : (MinPos.assign ⟨v0, p0, c0 + 1⟩ x.1 x.2) = ⟨v0, p0, c0 + 1 + 1⟩ := by
      simp [MinPos.assign, not_lt.mpr hx]
    rw [minFold_cons, hs]
    exact ih (c0 + 1) (fun y hy => h y (List.mem_cons_of_mem x hy))

/-- The fold of `MinPos.assign` from a recorded state: either nothing
beats the record, or the result is the first element attaining the list
minimum (which also beats the record). -/
theorem minpos_fold_spec (vs : List (Int × Nat)) (v0 : Int) (p0 : Nat) (c0 : Nat) :
    (∀ x ∈ vs, v0 ≤ x.1) ∨
    (∃ k, ∃ hk : k < vs.length,
      (minFold vs ⟨v0, p0, c0 + 1⟩).value = (vs.get ⟨k, hk⟩).1 ∧
      (minFold vs ⟨v0, p0, c0 + 1⟩).pos = (vs.get ⟨k, hk⟩).2 ∧
      (vs.get ⟨k, hk⟩).1 < v0 ∧
      (∀ i (hi : i < vs.length), (vs.get ⟨k, hk⟩).1 ≤ (vs.get ⟨i, hi⟩).1) ∧
      (∀ i (hi : i < vs.length), i < k → (vs.get ⟨k, hk⟩).1 < (vs.get ⟨i, hi⟩).1)) := by
  induction vs generalizing v0 p0 c0 with
  | nil => exact Or.inl (by simp)
  | cons x xs ih =>
    by_cases hx : x.1 < v0
    · right
      have hs : (MinPos.assign ⟨v0, p0, c0 + 1⟩ x.1 x.2) = ⟨x.1, x.2, c0 + 1 + 1⟩ := by
        simp [MinPos.assign, hx]
      have hfold : minFold (x :: xs) ⟨v0, p0, c0 + 1⟩ = minFold xs ⟨x.1, x.2, c0 + 1 + 1⟩ := by
        rw [minFold_cons, hs]
      rcases ih x.1 x.2 (c0 + 1) with hkeep | ⟨k, hk, hv, hp, hlt, hmin, hfirst⟩
      · refine ⟨0, by simp, ?_, ?_, hx, ?_, ?_⟩
        · rw [hfold]; exact (minpos_fold_keep xs x.1 x.2 (c0 + 1) hkeep).1
        · rw [hfold]; exact (minpos_fold_keep xs x.1 x.2 (c0 + 1) hkeep).2
        · intro i hi
          cases i with
          | zero => simp
          | succ i' =>
            have hi' : i' < xs.length := by simpa using hi
            have := hkeep (xs.get ⟨i', hi'⟩) (xs.get_mem _ _)
            simpa using this
        · intro i hi hlt0; omega
      · refine ⟨k + 1, by simpa using Nat.succ_lt_succ hk, ?_, ?_, ?_, ?_, ?_⟩
        · rw [hfold]; simpa using hv
        · rw [hfold]; simpa using hp
        · simpa using lt_trans hlt hx
        · intro i hi
          cases i with
          | zero => simpa using le_of_lt hlt
          | succ i' =>
            have hi' : i' < xs.length := by simpa using hi
            simpa using hmin i' hi'
        · intro i hi hik
          cases i with
          | zero => simpa using hlt
          | succ i' =>
            have hi' : i' < xs.length := by simpa using hi
            simpa using hfirst i' hi' (by omega)
    · have hs : (MinPos.assign ⟨v0, p0, c0 + 1⟩ x.1 x.2) = ⟨v0, p0, c0 + 1 + 1⟩ := by
        simp [MinPos.assign, hx]
      have hfold : minFold (x :: xs) ⟨v0, p0, c0 + 1⟩ = minFold xs ⟨v0, p0, c0 + 1 + 1⟩ := by
        rw [minFold_cons, hs]
      rcases ih v0 p0 (c0 + 1) with hkeep | ⟨k, hk, hv, hp, hlt, hmin, hfirst⟩
      · left
        intro y hy
        rcases List.mem_cons.mp hy with rfl | hy'
        · exact not_lt.mp hx
        · exact hkeep y hy'
      · right
        refine ⟨k + 1, by simpa using Nat.succ_lt_succ hk, ?_, ?_, by simpa using hlt, ?_, ?_⟩
        · rw [hfold]; simpa using hv
        · rw [hfold]; simpa using hp
        · intro i hi
          cases i with
          | zero => simpa using le_of_lt (lt_of_lt_of_le hlt (not_lt.mp hx))
          | succ i' =>
            have hi' : i' < xs.length := by simpa using hi
            simpa using hmin i' hi'
        · intro i hi hik
          cases i with
          | zero => simpa using lt_of_lt_of_le hlt (not_lt.mp hx)
          | succ i' =>
            have hi' : i' < xs.length := by simpa using hi
            simpa using hfirst i' hi' (by omega)

/-- Specification of `runMin` over an indexed family: it returns the
value and tag of the first index attaining the minimum. -/
theorem runMin_spec (f : Nat → Int) (g : Nat → Nat) (n : Nat) (hn : 0 < n) :
    ∃ k, k < n ∧ (runMin ((List.range n).map (fun i => (f i, g i)))).value = f k ∧
      (runMin ((List.range n).map (fun i => (f i, g i)))).pos = g k ∧
      (∀ i, i < n → f k ≤ f i) ∧ (∀ i, i < k → f k < f i) := by
  obtain ⟨n', rfl⟩ : ∃ n', n = n' + 1 := ⟨n - 1, by omega⟩
  have hrange : List.range (n' + 1) = 0 :: (List.range n').map Nat.succ := List.range_succ_eq_map n'
  have hmap : (List.range (n' + 1)).map (fun i => (f i, g i)) =
      (f 0, g 0) :: (List.range n').map (fun i => (f (i + 1), g (i + 1))) := by
    rw [hrange]; simp [List.map_map, Function.comp]
  rw [runMin_eq_minFold, hmap]
  have hinit : (MinPos.assign ⟨0, 0, 0⟩ (f 0) (g 0)) = ⟨f 0, g 0, 0 + 1⟩ := by
    simp [MinPos.assign]
  have hfold : minFold ((f 0, g 0) :: (List.range n').map (fun i => (f (i + 1), g (i + 1))))
      (⟨0, 0, 0⟩ : MinPos) =
      minFold ((List.range n').map (fun i => (f (i + 1), g (i + 1)))) ⟨f 0, g 0, 0 + 1⟩ := by
    rw [minFold_cons, hinit]
  rw [hfold]
  set vs := (List.range n').map (fun i => (f (i + 1), g (i + 1))) with hvs
  have hget : ∀ k (hk : k < vs.length), vs.get ⟨k, hk⟩ = (f (k + 1), g (k + 1)) := by
    intro k hk
    simp [hvs]
  have hlen : vs.length = n' := by simp [hvs]
  rcases minpos_fold_spec vs (f 0) (g 0) 0 with hkeep | ⟨k, hk, hv, hp, hlt, hmin, hfirst⟩
  · refine ⟨0, by omega, ?_, ?_, ?_, ?_⟩
    · exact (minpos_fold_keep vs (f 0) (g 0) 0 hkeep).1
    · exact (minpos_fold_keep vs (f 0) (g 0) 0 hkeep).2
    · intro i hi
      cases i with
      | zero => exact le_refl _
      | succ i' =>
        have hi' : i' < vs.length := by omega
        have := hkeep (vs.get ⟨i', hi'⟩) (vs.get_mem _ _)
        rwa [hget i' hi'] at this
    · intro i hi; omega
  · refine ⟨k + 1, by omega, ?_, ?_, ?_, ?_⟩
    · rw [hv, hget k hk]
    · rw [hp, hget k hk]
    · intro i hi
      cases i with
      | zero =>
        have := le_of_lt hlt; rwa [hget k hk] at this
      | succ i' =>
        have hi' : i' < vs.length := by omega
        have := hmin i' hi'
        rwa [hget k hk, hget i' hi'] at this
    · intro i hik
      cases i with
      | zero =>
        have := hlt; rwa [hget k hk] at this
      | succ i' =>
        have hi' : i' < vs.length := by omega
        have := hfirst i' hi' (by omega)
        rwa [hget k hk, hget i' hi'] at this

end Rt

namespace Rt

/-- Overlap cost of a candidate entry, as the leaf-mode pick loop
computes it. -/
def leafO (bb : Box) (x : DirEnt) : Int := calc_overlap_cost bb x.kids

/-- Area enlargement of a candidate entry. -/
def leafE (bb : Box) (x : DirEnt) : Int := calc_area_enlargement x.box bb

/-- Current area of a candidate entry. -/
def leafA (x : DirEnt) : Int := calc_area x.box

/-- Once the pick loop holds a record strictly below every remaining
candidate in all three criteria, the record survives. -/
theorem pickLeaf_absorb (bb : Box) (l : List DirEnt) (s0 : Nat) (o e a : Int) (j : Nat)
    (h : ∀ x ∈ l, o < leafO bb x ∧ e < leafE bb x ∧ a < leafA x) :
    (List.enumFrom s0 l).foldl (fun st x => pickStepLeaf bb st x) ⟨o, e, a, some j⟩ =
      ⟨o, e, a, some j⟩ := by
  induction l generalizing s0 with
  | nil => rfl
  | cons x xs ih =>
    obtain ⟨h1, h2, h3⟩ := h x (List.mem_cons_self x xs)
    have hstep : pickStepLeaf bb ⟨o, e, a, some j⟩ (s0, x) = ⟨o, e, a, some j⟩ := by
      simp [pickStepLeaf, leafO, leafE, leafA, not_lt.mpr (le_of_lt h1),
        not_lt.mpr (le_of_lt h2), not_lt.mpr (le_of_lt h3)] at *
      omega
    rw [List.enumFrom_cons, List.foldl_cons, hstep]
    exact ih (s0 + 1) (fun y hy => h y (List.mem_cons_of_mem x hy))

/-- If candidate `j` is strictly below every other candidate in all
three criteria, the leaf-mode pick loop ends on `j`. -/
theorem pickLeaf_reach (bb : Box) (l : List DirEnt) (j : Nat) (hj : j < l.length)
    (s0 : Nat) (st : PickSt)
    (hdom : ∀ k (hk : k < l.length), k ≠ j →
      leafO bb (l.get ⟨j, hj⟩) < leafO bb (l.get ⟨k, hk⟩) ∧
      leafE bb (l.get ⟨j, hj⟩) < leafE bb (l.get ⟨k, hk⟩) ∧
      leafA (l.get ⟨j, hj⟩) < leafA (l.get ⟨k, hk⟩))
    (hst : st.dst = none ∨
      (leafO bb (l.get ⟨j, hj⟩) < st.minO ∧ leafE bb (l.get ⟨j, hj⟩) < st.minE ∧
        leafA (l.get ⟨j, hj⟩) < st.minA)) :
    (List.enumFrom s0 l).foldl (fun st2 x => pickStepLeaf bb st2 x) st =
      ⟨leafO bb (l.get ⟨j, hj⟩), leafE bb (l.get ⟨j, hj⟩), leafA (l.get ⟨j, hj⟩),
        some (s0 + j)⟩ := by
  induction l generalizing s0 st j with
  | nil => exact absurd hj (by simp)
  | cons x xs ih =>
    cases j with
    | zero =>
      have hstep : pickStepLeaf bb st (s0, x) =
          ⟨leafO bb x, leafE bb x, leafA x, some s0⟩ := by
        rcases hst with hnone | ⟨h1, h2, h3⟩
        · simp [pickStepLeaf, hnone, leafO, leafE, leafA]
        · simp only [List.get] at h1
          simp [pickStepLeaf, leafO, leafE, leafA] at *
          omega
      rw [List.enumFrom_cons, List.foldl_cons, hstep]
      have habs := pickLeaf_absorb bb xs (s0 + 1) (leafO bb x) (leafE bb x) (leafA x) s0
        (fun y hy => by
          obtain ⟨i, hi, rfl⟩ := List.mem_iff_get.mp hy
          have := hdom (i + 1) (by simpa using Nat.succ_lt_succ hi.isLt) (by omega)
          simpa using this)
      simpa using habs
    | succ j' =>
      have hj' : j' < xs.length := by simpa using hj
      have hget : (x :: xs).get ⟨j' + 1, hj⟩ = xs.get ⟨j', hj'⟩ := rfl
      rw [List.enumFrom_cons, List.foldl_cons]
      have hdom' : ∀ k (hk : k < xs.length), k ≠ j' →
          leafO bb (xs.get ⟨j', hj'⟩) < leafO bb (xs.get ⟨k, hk⟩) ∧
          leafE bb (xs.get ⟨j', hj'⟩) < leafE bb (xs.get ⟨k, hk⟩) ∧
          leafA (xs.get ⟨j', hj'⟩) < leafA (xs.get ⟨k, hk⟩) := by
        intro k hk hkj
        have := hdom (k + 1) (by simpa using Nat.succ_lt_succ hk) (by omega)
        simpa using this
      have hdomx := hdom 0 (by simp) (by omega)
      rw [hget] at hdomx
      have hst' : (pickStepLeaf bb st (s0, x)).dst = none ∨
          (leafO bb (xs.get ⟨j', hj'⟩) < (pickStepLeaf bb st (s0, x)).minO ∧
            leafE bb (xs.get ⟨j', hj'⟩) < (pickStepLeaf bb st (s0, x)).minE ∧
            leafA (xs.get ⟨j', hj'⟩) < (pickStepLeaf bb st (s0, x)).minA) := by
        simp only [pickStepLeaf]
        split
        · right
          exact ⟨hdomx.1, hdomx.2.1, hdomx.2.2⟩
        · exact hst
      have := ih j' hj' (s0 + 1) (pickStepLeaf bb st (s0, x)) hdom' hst'
      rw [hget]
      rw [this]
      have : s0 + 1 + j' = s0 + (j' + 1) := by omega
      rw [this]

/-- Once the non-leaf pick loop holds a strictly dominant record, it
survives. -/
theorem pickNL_absorb (bb : Box) (l : List Box) (s0 : Nat) (e a : Int) (o : Int) (j : Nat)
    (h : ∀ x ∈ l, e < calc_area_enlargement x bb ∧ a < calc_area x) :
    (List.enumFrom s0 l).foldl (fun st x => pickStepNonleaf bb st x) ⟨o, e, a, some j⟩ =
      ⟨o, e, a, some j⟩ := by
  induction l generalizing s0 with
  | nil => rfl
  | cons x xs ih =>
    obtain ⟨h1, h2⟩ := h x (List.mem_cons_self x xs)
    have hstep : pickStepNonleaf bb ⟨o, e, a, some j⟩ (s0, x) = ⟨o, e, a, some j⟩ := by
      simp [pickStepNonleaf, not_lt.mpr (le_of_lt h1), not_lt.mpr (le_of_lt h2)]
    rw [List.enumFrom_cons, List.foldl_cons, hstep]
    exact ih (s0 + 1) (fun y hy => h y (List.mem_cons_of_mem x hy))

/-- If candidate `j` is strictly below every other candidate in both
criteria, the non-leaf pick loop ends on `j`. -/
theorem pickNL_reach (bb : Box) (l : List Box) (j : Nat) (hj : j < l.length)
    (s0 : Nat) (st : PickSt)
    (hdom : ∀ k (hk : k < l.length), k ≠ j →
      calc_area_enlargement (l.get ⟨j, hj⟩) bb < calc_area_enlargement (l.get ⟨k, hk⟩) bb ∧
      calc_area (l.get ⟨j, hj⟩) < calc_area (l.get ⟨k, hk⟩))
    (hst : st.dst = none ∨
      (calc_area_enlargement (l.get ⟨j, hj⟩) bb < st.minE ∧
        calc_area (l.get ⟨j, hj⟩) < st.minA)) :
    (List.enumFrom s0 l).foldl (fun st2 x => pickStepNonleaf bb st2 x) st =
      ⟨0, calc_area_enlargement (l.get ⟨j, hj⟩) bb, calc_area (l.get ⟨j, hj⟩),
        some (s0 + j)⟩ := by
  induction l generalizing s0 st j with
  | nil => exact absurd hj (by simp)
  | cons x xs ih =>
    cases j with
    | zero =>
      have hstep : pickStepNonleaf bb st (s0, x) =
          ⟨0, calc_area_enlargement x bb, calc_area x, some s0⟩ := by
        rcases hst with hnone | ⟨h1, h2⟩
        · simp [pickStepNonleaf, hnone]
        · simp only [List.get] at h1
          simp [pickStepNonleaf] at *
          omega
      rw [List.enumFrom_cons, List.foldl_cons, hstep]
      have habs := pickNL_absorb bb xs (s0 + 1) (calc_area_enlargement x bb) (calc_area x) 0 s0
        (fun y hy => by
          obtain ⟨i, hi, rfl⟩ := List.mem_iff_get.mp hy
          have := hdom (i + 1) (by simpa using Nat.succ_lt_succ hi.isLt) (by omega)
          simpa using this)
      simpa using habs
    | succ j' =>
      have hj' : j' < xs.length := by simpa using hj
      have hget : (x :: xs).get ⟨j' + 1, hj⟩ = xs.get ⟨j', hj'⟩ := rfl
      rw [List.enumFrom_cons, List.foldl_cons]
      have hdom' : ∀ k (hk : k < xs.length), k ≠ j' →
          calc_area_enlargement (xs.get ⟨j', hj'⟩) bb <
            calc_area_enlargement (xs.get ⟨k, hk⟩) bb ∧
          calc_area (xs.get ⟨j', hj'⟩) < calc_area (xs.get ⟨k, hk⟩) := by
        intro k hk hkj
        have := hdom (k + 1) (by simpa using Nat.succ_lt_succ hk) (by omega)
        simpa using this
      have hdomx := hdom 0 (by simp) (by omega)
      rw [hget] at hdomx
      have hst' : (pickStepNonleaf bb st (s0, x)).dst = none ∨
          (calc_area_enlargement (xs.get ⟨j', hj'⟩) bb < (pickStepNonleaf bb st (s0, x)).minE ∧
            calc_area (xs.get ⟨j', hj'⟩) < (pickStepNonleaf bb st (s0, x)).minA) := by
        simp only [pickStepNonleaf]
        split
        · right
          exact ⟨hdomx.1, hdomx.2⟩
        · exact hst
      have := ih j' hj' (s0 + 1) (pickStepNonleaf bb st (s0, x)) hdom' hst'
      rw [hget, this]
      have : s0 + 1 + j' = s0 + (j' + 1) := by omega
      rw [this]

end Rt

namespace Rt

/-- Claim C5 counterexample input: the box being inserted. -/
def c5bb : Box := [(0, 1)]

/-- Claim C5 counterexample input: two leaf-directory children of a
non-leaf directory, with their bounding boxes and value-child boxes. -/
def c5ents : List DirEnt := [⟨[(0, 1)], [[(0, 1)]]⟩, ⟨[(100, 101)], [[(100, 101)]]⟩]

/-- Claim C5 is false as stated, in two independent ways.  First:
inserting the box (0,1), the code picks child 1 (the far-away box
(100,101)), although child 0 has strictly smaller overlap enlargement in
the claim's sense (sum of pairwise intersections with siblings after
hypothetical insertion): 0 versus 1.  The code's first criterion
measures the intersection of the inserted box with the candidate's own
children instead.  Second: even against the code's own overlap measure
the pick is not a minimum and the chain is not lexicographic: inserting
(0,1) with children boxed (10,12) and (0,2), the first child has
strictly smaller overlap cost (0 versus 1), yet the second, later child
is picked because its area enlargement fires the independent
`else if pv.area_enlargement < min_area_enlargement` branch, which
overwrites all three minima. -/
theorem claim_C5_counterexample :
    (chooseByOverlap c5bb c5ents = some 1 ∧
      specOverlapAfterInsertion c5bb (c5ents.map DirEnt.box) 0 <
        specOverlapAfterInsertion c5bb (c5ents.map DirEnt.box) 1) ∧
    (chooseByOverlap [(0, 1)] [⟨[(10, 12)], [[(10, 12)]]⟩, ⟨[(0, 2)], [[(0, 2)]]⟩]
        = some 1 ∧
      leafO [(0, 1)] ⟨[(10, 12)], [[(10, 12)]]⟩ <
        leafO [(0, 1)] ⟨[(0, 2)], [[(0, 2)]]⟩) := by
  refine ⟨⟨rfl, by decide⟩, by decide, by decide⟩

/-- Claim C5 amended: the pick loops of `find_node_for_insertion` test
their criteria with independent `else if`s against minima that are all
overwritten on every pick, so the choice rule of the claim holds only
for a simultaneous strict minimizer.  When a child strictly minimizes,
over all children, the overlap cost against its own children, the area
enlargement, and the current area at once, the leaf-mode scan picks it;
when a child strictly minimizes both area enlargement and current area,
the non-leaf scan picks it. -/
theorem claim_C5_amended :
    (∀ (bb : Box) (children : List DirEnt) (j : Nat) (hj : j < children.length),
      (∀ k (hk : k < children.length), k ≠ j →
        leafO bb (children.get ⟨j, hj⟩) < leafO bb (children.get ⟨k, hk⟩) ∧
        leafE bb (children.get ⟨j, hj⟩) < leafE bb (children.get ⟨k, hk⟩) ∧
        leafA (children.get ⟨j, hj⟩) < leafA (children.get ⟨k, hk⟩)) →
      chooseByOverlap bb children = some j) ∧
    (∀ (bb : Box) (boxes : List Box) (j : Nat) (hj : j < boxes.length),
      (∀ k (hk : k < boxes.length), k ≠ j →
        calc_area_enlargement (boxes.get ⟨j, hj⟩) bb <
          calc_area_enlargement (boxes.get ⟨k, hk⟩) bb ∧
        calc_area (boxes.get ⟨j, hj⟩) < calc_area (boxes.get ⟨k, hk⟩)) →
      chooseByEnlargement bb boxes = some j) := by
  constructor
  · intro bb children j hj hdom
    have h := pickLeaf_reach bb children j hj 0 ⟨0, 0, 0, none⟩ hdom (Or.inl rfl)
    unfold chooseByOverlap
    rw [List.enum]
    rw [h]
    simp
  · intro bb boxes j hj hdom
    have h := pickNL_reach bb boxes j hj 0 ⟨0, 0, 0, none⟩ hdom (Or.inl rfl)
    unfold chooseByEnlargement
    rw [List.enum]
    rw [h]
    simp

/-- Claim C5 witness: a concrete configuration with a simultaneous
strict minimizer, picked by both scans. -/
theorem claim_C5_witness :
    chooseByOverlap [(5, 6)] [⟨[(5, 7)], [[(6, 7)]]⟩, ⟨[(7, 30)], [[(4, 30)]]⟩] = some 0 ∧
    chooseByEnlargement [(5, 6)] [[(5, 7)], [(7, 30)]] = some 0 := by
  constructor
  · exact claim_C5_amended.1 [(5, 6)] [⟨[(5, 7)], [[(6, 7)]]⟩, ⟨[(7, 30)], [[(4, 30)]]⟩]
      0 (by decide) (by decide)
  · exact claim_C5_amended.2 [(5, 6)] [[(5, 7)], [(7, 30)]] 0 (by decide) (by decide)

/-- Claim C6 counterexample input: five 1-dimensional boxes of an
overflowing directory (max_node_size 4, min_node_size 2), already in
sorted order for dimension 0. -/
def c6kids : List Box := [[(0, 10)], [(1, 2)], [(20, 21)], [(40, 41)], [(40, 45)]]

/-- Claim C6 is false as stated on the tie-break: distributions 1 and 2
tie with group intersection 0, distribution 2 has the strictly smaller
combined area (26 versus 35), yet `pick_optimal_distribution` returns
distribution 1 because `min_value_pos::assign` keeps the first minimum
and no combined-area comparison exists in the code. -/
theorem claim_C6_counterexample :
    (sort_dir_store_by_split_dimension 1 2 4 c6kids).2 = 0 ∧
    (sort_dir_store_by_split_dimension 1 2 4 c6kids).1 = c6kids ∧
    pick_optimal_distribution 2 4 c6kids = 1 ∧
    distOverlap 2 c6kids 1 = distOverlap 2 c6kids 2 ∧
    distCombinedArea 2 c6kids 2 < distCombinedArea 2 c6kids 1 := by
  refine ⟨rfl, rfl, rfl, rfl, by decide⟩

/-- Claim C6 amended: the split axis is the first dimension minimizing
the sum of half-margins over the distributions `k = 1 ... max-2*min+2`
with groups `[0, min-1+k)` and `[min-1+k, n)`, and the split index on
that axis is the first distribution minimizing the intersection area of
the two groups' bounding boxes — ties are broken towards the smaller
dimension index and the smaller distribution number, not by combined
area. -/
theorem claim_C6_amended (dims minsz maxsz : Nat) (children sorted : List Box)
    (hd : 0 < dims) (_hsz : 2 * minsz ≤ maxsz) :
    ((sort_dir_store_by_split_dimension dims minsz maxsz children).2 < dims ∧
      (sort_dir_store_by_split_dimension dims minsz maxsz children).1 =
        sort_dir_store_by_dimension
          (sort_dir_store_by_split_dimension dims minsz maxsz children).2 children ∧
      (∀ d, d < dims →
        marginSumForDim minsz maxsz
            (sort_dir_store_by_split_dimension dims minsz maxsz children).2 children ≤
          marginSumForDim minsz maxsz d children) ∧
      (∀ d, d < (sort_dir_store_by_split_dimension dims minsz maxsz children).2 →
        marginSumForDim minsz maxsz
            (sort_dir_store_by_split_dimension dims minsz maxsz children).2 children <
          marginSumForDim minsz maxsz d children)) ∧
    (1 ≤ pick_optimal_distribution minsz maxsz sorted ∧
      pick_optimal_distribution minsz maxsz sorted ≤ maxDistSize minsz maxsz ∧
      (∀ k, 1 ≤ k → k ≤ maxDistSize minsz maxsz →
        distOverlap minsz sorted (pick_optimal_distribution minsz maxsz sorted) ≤
          distOverlap minsz sorted k) ∧
      (∀ k, 1 ≤ k → k < pick_optimal_distribution minsz maxsz sorted →
        distOverlap minsz sorted (pick_optimal_distribution minsz maxsz sorted) <
          distOverlap minsz sorted k)) := by
  constructor
  · obtain ⟨k, hk, hv, hp, hmin, hfirst⟩ :=
      runMin_spec (fun d => marginSumForDim minsz maxsz d children) (fun d => d) dims hd
    have hpos : (sort_dir_store_by_split_dimension dims minsz maxsz children).2 = k := hp
    have h1 : (sort_dir_store_by_split_dimension dims minsz maxsz children).1 =
        sort_dir_store_by_dimension
          (sort_dir_store_by_split_dimension dims minsz maxsz children).2 children := rfl
    rw [hpos] at h1 ⊢
    exact ⟨hk, h1, fun d hd2 => hmin d hd2, fun d hd2 => hfirst d hd2⟩
  · have hmd : 0 < maxDistSize minsz maxsz := by
      unfold maxDistSize
      omega
    obtain ⟨k, hk, hv, hp, hmin, hfirst⟩ :=
      runMin_spec (fun i => distOverlap minsz sorted (i + 1)) (fun i => i + 1)
        (maxDistSize minsz maxsz) hmd
    have hpos : pick_optimal_distribution minsz maxsz sorted = k + 1 := hp
    rw [hpos]
    refine ⟨by omega, by omega, ?_, ?_⟩
    · intro k2 h1 h2
      have := hmin (k2 - 1) (by omega)
      have hk2 : k2 - 1 + 1 = k2 := by omega
      rwa [hk2] at this
    · intro k2 h1 h2
      have := hfirst (k2 - 1) (by omega)
      have hk2 : k2 - 1 + 1 = k2 := by omega
      rwa [hk2] at this

/-- Claim C6 witness: the amended argmin properties instantiated on the
counterexample children with one dimension, min 2, max 4. -/
theorem claim_C6_witness :
    (0 : Nat) < 1 ∧ 2 * 2 ≤ 4 ∧
    (((sort_dir_store_by_split_dimension 1 2 4 c6kids).2 < 1 ∧
      (sort_dir_store_by_split_dimension 1 2 4 c6kids).1 =
        sort_dir_store_by_dimension
          (sort_dir_store_by_split_dimension 1 2 4 c6kids).2 c6kids ∧
      (∀ d, d < 1 →
        marginSumForDim 2 4
            (sort_dir_store_by_split_dimension 1 2 4 c6kids).2 c6kids ≤
          marginSumForDim 2 4 d c6kids) ∧
      (∀ d, d < (sort_dir_store_by_split_dimension 1 2 4 c6kids).2 →
        marginSumForDim 2 4
            (sort_dir_store_by_split_dimension 1 2 4 c6kids).2 c6kids <
          marginSumForDim 2 4 d c6kids)) ∧
    (1 ≤ pick_optimal_distribution 2 4 c6kids ∧
      pick_optimal_distribution 2 4 c6kids ≤ maxDistSize 2 4 ∧
      (∀ k, 1 ≤ k → k ≤ maxDistSize 2 4 →
        distOverlap 2 c6kids (pick_optimal_distribution 2 4 c6kids) ≤
          distOverlap 2 c6kids k) ∧
      (∀ k, 1 ≤ k → k < pick_optimal_distribution 2 4 c6kids →
        distOverlap 2 c6kids (pick_optimal_distribution 2 4 c6kids) <
          distOverlap 2 c6kids k))) :=
  ⟨by decide, by decide, claim_C6_amended 1 2 4 c6kids c6kids (by decide) (by decide)⟩

end Rt

namespace Rt

/-- Configuration of an `rtree` instantiation: the trait constants
`dimensions`, `min_node_size`, `max_node_size`, `max_tree_depth`. -/
structure RCfg where
  dims : Nat
  minsz : Nat
  maxsz : Nat
  depth : Nat

/-- A default-constructed bounding box: every coordinate is the key
type's default value (zero). -/
def defaultBox (d : Nat) : Box := List.replicate d (0, 0)

/-- An `rtree` node: either a value node (`node_type::value`) or a
directory node (`node_type::directory_leaf` when `leaf` is true,
`node_type::directory_nonleaf` otherwise).  The `count` field of
`node_store` always equals the length of the child vector (checked by
`check_integrity`), so it is not duplicated here; `parent` back-links
and the `valid_pointer` flag are memory artifacts with no observable
effect and are dropped. -/
inductive RNode where
  | rval (bx : Box) (v : Nat)
  | rdir (leaf : Bool) (bx : Box) (kids : List RNode)

/-- The bounding box of a node (`node_store::box`). -/
def RNode.nbox : RNode → Box
  | .rval b _ => b
  | .rdir _ b _ => b

/-- Translation of `bounding_box::contains(const point&)`: the closed
box contains the point in every dimension. -/
def containsPt (b : Box) (pt : List Int) : Bool :=
  (b.zip pt).all (fun dp => !(decide (dp.2 < dp.1.1) || decide (dp.1.2 < dp.2)))

/-- Translation of `bounding_box::contains(const bounding_box&)`. -/
def containsBox (b c : Box) : Bool :=
  (b.zip c).all (fun pc => !(decide (pc.2.1 < pc.1.1) || decide (pc.1.2 < pc.2.2)))

/-- Translation of `bounding_box::contains_at_boundary`. -/
def contains_at_boundary (b c : Box) : Bool :=
  (b.zip c).any (fun pc => decide (pc.1.1 = pc.2.1) || decide (pc.2.2 = pc.1.2))

mutual

/-- Translation of `rtree::search_descend` for point queries: skip any
subtree whose box does not contain the point, emit value nodes,
otherwise descend into every child. -/

def search_descend (pt : List Int) : RNode → List (Box × Nat)
  | .rval bx v => if containsPt bx pt then [(bx, v)] else []
  | .rdir _ bx kids =>
    if containsPt bx pt then searchKids pt kids else []

/-- Child loop of `search_descend`. -/
def searchKids (pt : List Int) : List RNode → List (Box × Nat)
  | [] => []
  | c :: rest => search_descend pt c ++ searchKids pt rest

end

mutual

/-- All stored values of a subtree with their boxes, in the order
`search_descend` would visit them. -/

def nodeValues : RNode → List (Box × Nat)
  | .rval bx v => [(bx, v)]
  | .rdir _ _ kids => kidsValues kids

/-- Child loop of `nodeValues`. -/
def kidsValues : List RNode → List (Box × Nat)
  | [] => []
  | c :: rest => nodeValues c ++ kidsValues rest

end

mutual

/-- Every directory box contains the boxes of its children (the
containment part of what `check_integrity` verifies); the key
structural fact behind search exactness. -/

def nestedB : RNode → Bool
  | .rval _ _ => true
  | .rdir _ bx kids => nestedKids bx kids

/-- Child loop of `nestedB`. -/
def nestedKids (bx : Box) : List RNode → Bool
  | [] => true
  | c :: rest => containsBox bx c.nbox && nestedB c && nestedKids bx rest

end

mutual

/-- Every box in the subtree has exactly `d` dimensions (the C++ points
are fixed-size arrays of `trait_type::dimensions` keys). -/

def wfDims (d : Nat) : RNode → Bool
  | .rval bx _ => decide (bx.length = d)
  | .rdir _ bx kids => decide (bx.length = d) && wfDimsKids d kids

/-- Child loop of `wfDims`. -/
def wfDimsKids (d : Nat) : List RNode → Bool
  | [] => true
  | c :: rest => wfDims d c && wfDimsKids d rest

end

mutual

/-- The structural checks of `rtree::check_integrity` that are
observable in this embedding: parent-type rules (children of a leaf
directory are value nodes, children of a non-leaf directory are
directory nodes), child boxes contained in the parent box, and
tightness (a directory box equals `calc_extent()` of its children; the
source never evaluates `calc_extent` on an empty directory, so empty
directories pass).  The parent-pointer and count checks compare memory
bookkeeping that this embedding represents exactly, so they always
hold. -/

def integNode : RNode → Bool
  | .rval _ _ => true
  | .rdir lf bx kids =>
    integKids lf bx kids &&
      (kids.isEmpty || decide (bx = calc_bounding_box (kids.map RNode.nbox)))

/-- Child loop of `integNode`. -/
def integKids (lf : Bool) (bx : Box) : List RNode → Bool
  | [] => true
  | c :: rest =>
    (match lf, c with
      | true, .rval _ _ => true
      | false, .rdir _ _ _ => true
      | _, _ => false) &&
    containsBox bx c.nbox && integNode c && integKids lf bx rest

end

/-- Translation of `rtree::check_integrity` (mode `none`): the root must
be a directory and the recursive node checks must pass. -/
def check_integrity_ok : RNode → Bool
  | .rval _ _ => false
  | t => integNode t

mutual

/-- Modelled from the spec: invariant (e) of section 3 — every non-root
directory holds between `min_node_size` and `max_node_size` children;
the root is exempt from the lower bound.  `check_integrity` in the
source does not verify fan-out, so this is stated from the data-model
section of the specification. -/

def fanNode (cfg : RCfg) : RNode → Bool
  | .rval _ _ => true
  | .rdir _ _ kids =>
    decide (cfg.minsz ≤ kids.length) && decide (kids.length ≤ cfg.maxsz) &&
      fanKids cfg kids

/-- Child loop of `fanNode`. -/
def fanKids (cfg : RCfg) : List RNode → Bool
  | [] => true
  | c :: rest => fanNode cfg c && fanKids cfg rest

end

/-- Modelled from the spec: fan-out invariant (e) at the root — the
root itself is only bounded above. -/
def fanout_ok (cfg : RCfg) : RNode → Bool
  | .rval _ _ => false
  | .rdir _ _ kids => decide (kids.length ≤ cfg.maxsz) && fanKids cfg kids

/-- Is this node a leaf directory? -/
def RNode.isLeafDir : RNode → Bool
  | .rdir true _ _ => true
  | _ => false

/-- A directory child as a choose-subtree candidate: its box plus its
own children's boxes (`calc_overlap_cost` iterates the candidate's
children). -/
def RNode.toEnt : RNode → DirEnt
  | .rval bx _ => ⟨bx, []⟩
  | .rdir _ bx kids => ⟨bx, kids.map RNode.nbox⟩

/-- Translation of `node_store::pack` at the box level: the recomputed
box of a directory (default-constructed box when it has no children). -/
def packOf (cfg : RCfg) (kids : List RNode) : Box :=
  match kids with
  | [] => defaultBox cfg.dims
  | _ => calc_bounding_box (kids.map RNode.nbox)

/-- Translation of `rtree::split_node`'s distribution step: sort the
overflowing children by the chosen split dimension, pick the optimal
distribution, and materialize the two sibling directories, each packed.
The original node keeps group 1; group 2 moves to a fresh node of the
same type. -/
def splitNode (cfg : RCfg) (leafFlag : Bool) (kids2 : List RNode) : RNode × RNode :=
  let dim := (sort_dir_store_by_split_dimension cfg.dims cfg.minsz cfg.maxsz
    (kids2.map RNode.nbox)).2
  let sorted := sortLt (fun a b => ltByDim dim a.nbox b.nbox) kids2
  let dist := pick_optimal_distribution cfg.minsz cfg.maxsz (sorted.map RNode.nbox)
  let cut := cfg.minsz - 1 + dist
  let g1 := sorted.take cut
  let g2 := sorted.drop cut
  (.rdir leafFlag (packOf cfg g1) g1, .rdir leafFlag (packOf cfg g2) g2)

/-- Signal passed up the insertion recursion, mirroring what
`rtree::insert` and `rtree::split_node` do along the ancestor chain:
`nosplit` carries the updated leaf box that every ancestor enlarges its
own box with; `split` carries the new sibling the parent adopts;
`packChanged`/`packStop` mirror `pack_upward`'s early-stopping packing
after a split. -/
inductive InsSig where
  | nosplit (leafBox : Box)
  | split (g2 : RNode)
  | packChanged
  | packStop

/-- Default junk node for out-of-range child access; never reached on
the inputs the theorems quantify over. -/
def junkNode : RNode := .rval [] 0

/-- Recursive insertion: the descent of `find_node_for_insertion`
(bounded by `max_tree_depth` as fuel, throwing when exhausted —
modelled as `none`), the append at the leaf directory, and the
split/enlarge propagation of `insert` and `split_node`. -/
def insertAux (cfg : RCfg) (nb : Box) (v : Nat) : Nat → RNode → Option (RNode × InsSig)
  | 0, _ => none
  | _ + 1, .rdir true bx kids =>
    let kids2 := kids ++ [.rval nb v]
    if cfg.maxsz < kids2.length then
      let g := splitNode cfg true kids2
      some (g.1, .split g.2)
    else
      let bx2 := if kids2.length = 1 then nb else (enlarge_box_to_fit bx nb).1
      some (.rdir true bx2 kids2, .nosplit bx2)
  | fuel + 1, .rdir false bx kids =>
    let pickIdx :=
      if kids.any RNode.isLeafDir then chooseByOverlap nb (kids.map RNode.toEnt)
      else chooseByEnlargement nb (kids.map RNode.nbox)
    match pickIdx with
    | none => none
    | some i =>
      match insertAux cfg nb v fuel (kids.getD i junkNode) with
      | none => none
      | some (c2, sig) =>
        match sig with
        | .nosplit lb =>
          some (.rdir false (enlarge_box_to_fit bx lb).1 (kids.set i c2), .nosplit lb)
        | .split g2 =>
          let kids2 := kids.set i c2 ++ [g2]
          if cfg.maxsz < kids2.length then
            let g := splitNode cfg false kids2
            some (g.1, .split g.2)
          else
            let nbx := packOf cfg kids2
            some (.rdir false nbx kids2,
              if nbx = bx then .packStop else .packChanged)
        | .packChanged =>
          let kids2 := kids.set i c2
          let nbx := packOf cfg kids2
          some (.rdir false nbx kids2,
            if nbx = bx then .packStop else .packChanged)
        | .packStop =>
          some (.rdir false bx (kids.set i c2), .packStop)
  | _ + 1, .rval _ _ => none

/-- Translation of the public `rtree::insert`: run the recursion from
the root; if the root itself splits, create a new non-leaf root over
the two halves and pack it.  `none` models the
"Maximum tree depth has been reached" exception (the tree is unchanged
when it is thrown, since `find_node_for_insertion` mutates nothing). -/
def rinsert (cfg : RCfg) (t : RNode) (nb : Box) (v : Nat) : Option RNode :=
  match insertAux cfg nb v cfg.depth t with
  | none => none
  | some (t2, .split g2) =>
    some (.rdir false (packOf cfg [t2, g2]) [t2, g2])
  | some (t2, _) => some t2

/-- Signal passed up the erase recursion: `shrinkCont` continues
`shrink_tree_upward` with the original box of the node just packed;
`dissolve` asks the parent to drop the underflowed leaf directory and
carries its orphaned entries; `reinsert` propagates the orphans to the
root insertion loop; `todoErr` is the thrown
`runtime_error("TODO: reduce tree and perform re-insertion.")`;
`bad` marks an invalid iterator (undefined behavior in the source). -/
inductive ESig where
  | done
  | shrinkCont (orig : Box)
  | dissolve (orphans : List RNode)
  | reinsert (orphans : List RNode)
  | todoErr
  | bad

/-- Result of a public `erase` call: `ok` on success, `errTodo` when
the un-implemented reduce-and-reinsert path throws (the tree is left in
the mutated state it had at the throw), `errDepth` when a reinsertion
hits the depth limit, `badPath` for an invalid iterator. -/
inductive EraseOut where
  | ok (t : RNode)
  | errTodo (t : RNode)
  | errDepth (t : RNode)
  | badPath

/-- The `shrink_tree_upward` step applied at one node, given the box
that was just erased or shrunk below it: do nothing unless the box
touches the node's boundary; otherwise pack and report the original box
upward when the extent changed. -/
def shrinkStep (cfg : RCfg) (leafFlag : Bool) (bx : Box) (kids : List RNode)
    (bb : Box) : RNode × ESig :=
  if contains_at_boundary bx bb = false then (.rdir leafFlag bx kids, .done)
  else
    let nbx := packOf cfg kids
    if nbx = bx then (.rdir leafFlag bx kids, .done)
    else (.rdir leafFlag nbx kids, .shrinkCont bx)

/-- Recursive part of `rtree::erase`, navigating to the value node by
its path of child indices (the iterator identifies the entry), then
propagating removal, shrink, dissolution, and the error of the
unimplemented reduction path. -/
def eraseAux (cfg : RCfg) : RNode → List Nat → RNode × ESig
  | .rdir true bx kids, [vi] =>
    (match kids.get? vi with
    | some (.rval vb _) =>
      let kids1 := kids.eraseIdx vi
      if cfg.minsz ≤ kids1.length then shrinkStep cfg true bx kids1 vb
      else (.rdir true bx kids1, .dissolve kids1)
    | _ => (.rdir true bx kids, .bad))
  | .rdir false bx kids, i :: rest =>
    (if rest.isEmpty then (.rdir false bx kids, .bad)
    else
      match eraseAux cfg (kids.getD i junkNode) rest with
      | (c2, .done) => (.rdir false bx (kids.set i c2), .done)
      | (c2, .shrinkCont orig) => shrinkStep cfg false bx (kids.set i c2) orig
      | (_, .dissolve orphans) =>
        let kids2 := kids.eraseIdx i
        let n2 : RNode := .rdir false (packOf cfg kids2) kids2
        if kids2.length < cfg.minsz then (n2, .todoErr)
        else (n2, .reinsert orphans)
      | (c2, .reinsert o) => (.rdir false bx (kids.set i c2), .reinsert o)
      | (c2, .todoErr) => (.rdir false bx (kids.set i c2), .todoErr)
      | (c2, .bad) => (.rdir false bx (kids.set i c2), .bad))
  | t, _ => (t, .bad)

/-- Orphan reinsertion loop at the end of `erase`: the orphans are
reinserted back-to-front through the normal insertion path. -/
def reinsertAll (cfg : RCfg) (t : RNode) : List RNode → EraseOut
  | [] => .ok t
  | .rval vb vv :: rest =>
    (match rinsert cfg t vb vv with
    | some t2 => reinsertAll cfg t2 rest
    | none => .errDepth t)
  | _ :: _ => .badPath

/-- Translation of the public `rtree::erase(const_iterator)`.  When the
leaf directory holding the value is the root, the entry is removed and
the extent shrunk, with no minimum-size handling. -/
def erase (cfg : RCfg) (t : RNode) (vpath : List Nat) : EraseOut :=
  match t, vpath with
  | .rdir true bx kids, [vi] =>
    (match kids.get? vi with
    | some (.rval vb _) =>
      let kids1 := kids.eraseIdx vi
      .ok (shrinkStep cfg true bx kids1 vb).1
    | _ => .badPath)
  | t, vpath =>
    match eraseAux cfg t vpath with
    | (t2, .done) => .ok t2
    | (t2, .shrinkCont _) => .ok t2
    | (t2, .reinsert orphans) => reinsertAll cfg t2 orphans.reverse
    | (t2, .todoErr) => .errTodo t2
    | (_, .dissolve _) => .badPath
    | (_, .bad) => .badPath

/-- The tree a default-constructed `rtree` holds: an empty leaf
directory root with a default box. -/
def emptyTree (cfg : RCfg) : RNode := .rdir true (defaultBox cfg.dims) []

/-- States reachable through the public interface: the fresh tree,
successful inserts (of boxes with the configured dimension count), and
any state an `erase` call leaves behind — including the mutated state
at the `errTodo` throw, which is the state the program continues with. -/
inductive Reach (cfg : RCfg) : RNode → Prop where
  | init : Reach cfg (emptyTree cfg)
  | ins (t : RNode) (nb : Box) (v : Nat) (t2 : RNode) : Reach cfg t →
      nb.length = cfg.dims → rinsert cfg t nb v = some t2 → Reach cfg t2
  | erOk (t : RNode) (vpath : List Nat) (t2 : RNode) : Reach cfg t →
      erase cfg t vpath = .ok t2 → Reach cfg t2
  | erTodo (t : RNode) (vpath : List Nat) (t2 : RNode) : Reach cfg t →
      erase cfg t vpath = .errTodo t2 → Reach cfg t2
  | erDepth (t : RNode) (vpath : List Nat) (t2 : RNode) : Reach cfg t →
      erase cfg t vpath = .errDepth t2 → Reach cfg t2

end Rt

namespace Rt

theorem containsBox_cons (x y : Dim) (a b : Box) :
    containsBox (x :: a) (y :: b) =
      (!(decide (y.1 < x.1) || decide (x.2 < y.2)) && containsBox a b) := by
  simp [containsBox]

theorem containsPt_cons (x : Dim) (p : Int) (a : Box) (pt : List Int) :
    containsPt (x :: a) (p :: pt) =
      (!(decide (p < x.1) || decide (x.2 < p)) && containsPt a pt) := by
  simp [containsPt]

theorem containsBox_refl (b : Box) : containsBox b b = true := by
  induction b with
  | nil => rfl
  | cons x a ih =>
    rw [containsBox_cons, ih]
    simp

theorem containsBox_trans (a b c : Box) (hab : containsBox a b = true)
    (hbc : containsBox b c = true) (h1 : a.length = b.length) :
    containsBox a c = true := by
  induction a generalizing b c with
  | nil =>
    have : b = [] := List.eq_nil_of_length_eq_zero h1.symm
    subst this
    cases c with
    | nil => rfl
    | cons y c2 => rfl
  | cons x a2 ih =>
    cases b with
    | nil => simp at h1
    | cons y b2 =>
      cases c with
      | nil => rfl
      | cons z c2 =>
        rw [containsBox_cons] at hab hbc ⊢
        simp only [Bool.and_eq_true] at hab hbc ⊢
        refine ⟨?_, ih b2 c2 hab.2 hbc.2 (by simpa using h1)⟩
        simp only [Bool.not_eq_true', Bool.or_eq_false_iff, decide_eq_false_iff_not] at *
        omega

theorem containsPt_of_containsBox (a b : Box) (pt : List Int)
    (hab : containsBox a b = true) (hpt : containsPt b pt = true)
    (h1 : a.length = b.length) : containsPt a pt = true := by
  induction a generalizing b pt with
  | nil =>
    cases pt with
    | nil => rfl
    | cons p pt2 => rfl
  | cons x a2 ih =>
    cases b with
    | nil => simp at h1
    | cons y b2 =>
      cases pt with
      | nil => rfl
      | cons p pt2 =>
        rw [containsBox_cons] at hab
        rw [containsPt_cons] at hpt ⊢
        simp only [Bool.and_eq_true] at hab hpt ⊢
        refine ⟨?_, ih b2 pt2 hab.2 hpt.2 (by simpa using h1)⟩
        simp only [Bool.not_eq_true', Bool.or_eq_false_iff, decide_eq_false_iff_not] at *
        omega

theorem enlarge_cons (x y : Dim) (a b : Box) :
    enlarge_box_to_fit (x :: a) (y :: b) =
      (((if y.1 < x.1 then y.1 else x.1), (if x.2 < y.2 then y.2 else x.2)) ::
          (enlarge_box_to_fit a b).1,
        ((decide (y.1 < x.1) || decide (x.2 < y.2)) || (enlarge_box_to_fit a b).2)) := by
  simp only [enlarge_box_to_fit, List.zip_cons_cons, List.foldr_cons, enlargeDim]
  by_cases h1 : y.1 < x.1 <;> by_cases h2 : x.2 < y.2 <;> simp [h1, h2]

theorem enlarge_fst_length (p c : Box) :
    (enlarge_box_to_fit p c).1.length = min p.length c.length := by
  induction p generalizing c with
  | nil => cases c <;> simp [enlarge_box_to_fit]
  | cons x a ih =>
    cases c with
    | nil => simp [enlarge_box_to_fit]
    | cons y b =>
      rw [enlarge_cons]
      simp [ih b]
      omega

theorem enlarge_contains_fst (p c : Box) :
    containsBox (enlarge_box_to_fit p c).1 p = true := by
  induction p generalizing c with
  | nil => rfl
  | cons x a ih =>
    cases c with
    | nil => rfl
    | cons y b =>
      rw [enlarge_cons, containsBox_cons, ih b]
      simp only [Bool.and_true]
      by_cases h1 : y.1 < x.1 <;> by_cases h2 : x.2 < y.2 <;> simp [h1, h2] <;> omega

theorem enlarge_contains_snd (p c : Box) (h : p.length = c.length) :
    containsBox (enlarge_box_to_fit p c).1 c = true := by
  induction p generalizing c with
  | nil =>
    have : c = [] := List.eq_nil_of_length_eq_zero h.symm
    subst this
    rfl
  | cons x a ih =>
    cases c with
    | nil => simp at h
    | cons y b =>
      rw [enlarge_cons, containsBox_cons, ih b (by simpa using h)]
      simp only [Bool.and_true]
      by_cases h1 : y.1 < x.1 <;> by_cases h2 : x.2 < y.2 <;> simp [h1, h2] <;> omega

theorem enlarge_mono (P C g : Box) (h : containsBox P C = true)
    (h1 : P.length = C.length) :
    containsBox (enlarge_box_to_fit P g).1 (enlarge_box_to_fit C g).1 = true := by
  induction P generalizing C g with
  | nil =>
    have : C = [] := List.eq_nil_of_length_eq_zero h1.symm
    subst this
    cases g <;> rfl
  | cons x a ih =>
    cases C with
    | nil => simp at h1
    | cons y b =>
      cases g with
      | nil => rfl
      | cons z gs =>
        rw [containsBox_cons] at h
        simp only [Bool.and_eq_true] at h
        rw [enlarge_cons, enlarge_cons, containsBox_cons,
          ih b gs h.2 (by simpa using h1)]
        simp only [Bool.and_true]
        simp only [Bool.not_eq_true', Bool.or_eq_false_iff, decide_eq_false_iff_not] at *
        constructor
        · split <;> split <;> omega
        · split <;> split <;> omega

theorem enlarge_sub (B p c : Box) (hp : containsBox B p = true)
    (hc : containsBox B c = true) (h1 : B.length = p.length) (h2 : p.length = c.length) :
    containsBox B (enlarge_box_to_fit p c).1 = true := by
  induction B generalizing p c with
  | nil =>
    have : p = [] := List.eq_nil_of_length_eq_zero h1.symm
    subst this
    have : c = [] := List.eq_nil_of_length_eq_zero h2.symm
    subst this
    rfl
  | cons x a ih =>
    cases p with
    | nil => simp at h1
    | cons y b =>
      cases c with
      | nil => simp at h2
      | cons z cs =>
        rw [containsBox_cons] at hp hc
        simp only [Bool.and_eq_true] at hp hc
        rw [enlarge_cons, containsBox_cons,
          ih b cs hp.2 hc.2 (by simpa using h1) (by simpa using h2)]
        simp only [Bool.and_true]
        simp only [Bool.not_eq_true', Bool.or_eq_false_iff, decide_eq_false_iff_not] at *
        constructor <;> [skip; skip] <;> first
          | (split <;> omega)
          | omega

theorem foldl_enlarge_length (ys : List Box) (acc : Box) (d : Nat)
    (hacc : acc.length = d) (hys : ∀ b ∈ ys, b.length = d) :
    (ys.foldl (fun a x => (enlarge_box_to_fit a x).1) acc).length = d := by
  induction ys generalizing acc with
  | nil => exact hacc
  | cons y ys2 ih =>
    refine ih _ ?_ (fun b hb => hys b (by simp [hb]))
    rw [enlarge_fst_length, hacc, hys y (by simp)]
    simp

theorem foldl_enlarge_contains_acc (ys : List Box) (acc : Box) (d : Nat)
    (hacc : acc.length = d) (hys : ∀ b ∈ ys, b.length = d) :
    containsBox (ys.foldl (fun a x => (enlarge_box_to_fit a x).1) acc) acc = true := by
  induction ys generalizing acc with
  | nil => exact containsBox_refl _
  | cons y ys2 ih =>
    have hlen : (enlarge_box_to_fit acc y).1.length = d := by
      rw [enlarge_fst_length, hacc, hys y (by simp)]; simp
    have h1 := ih (enlarge_box_to_fit acc y).1 hlen (fun b hb => hys b (by simp [hb]))
    exact containsBox_trans _ _ _ h1 (enlarge_contains_fst acc y)
      (by simp only [List.foldl_cons]
          rw [foldl_enlarge_length ys2 _ d hlen (fun b hb => hys b (by simp [hb])), hlen])

theorem foldl_enlarge_contains_mem (ys : List Box) (acc : Box) (d : Nat) (x : Box)
    (hacc : acc.length = d) (hys : ∀ b ∈ ys, b.length = d) (hx : x ∈ ys) :
    containsBox (ys.foldl (fun a x2 => (enlarge_box_to_fit a x2).1) acc) x = true := by
  induction ys generalizing acc with
  | nil => simp at hx
  | cons y ys2 ih =>
    have hlen : (enlarge_box_to_fit acc y).1.length = d := by
      rw [enlarge_fst_length, hacc, hys y (by simp)]; simp
    rcases List.mem_cons.mp hx with rfl | hx2
    · have h1 := foldl_enlarge_contains_acc ys2 (enlarge_box_to_fit acc x).1 d
        (by rw [enlarge_fst_length, hacc, hys x (by simp)]; simp)
        (fun b hb => hys b (by simp [hb]))
      exact containsBox_trans _ _ _ h1
        (enlarge_contains_snd acc x (by rw [hacc, hys x (by simp)]))
        (by simp only [List.foldl_cons]
            rw [foldl_enlarge_length ys2 _ d
              (by rw [enlarge_fst_length, hacc, hys x (by simp)]; simp)
              (fun b hb => hys b (by simp [hb]))]
            rw [enlarge_fst_length, hacc, hys x (by simp)]
            simp)
    · exact ih _ hlen (fun b hb => hys b (by simp [hb])) hx2

theorem foldl_enlarge_sub (B : Box) (ys : List Box) (acc : Box) (d : Nat)
    (hB : B.length = d) (hacc : acc.length = d) (hys : ∀ b ∈ ys, b.length = d)
    (hcacc : containsBox B acc = true) (hall : ∀ b ∈ ys, containsBox B b = true) :
    containsBox B (ys.foldl (fun a x => (enlarge_box_to_fit a x).1) acc) = true := by
  induction ys generalizing acc with
  | nil => exact hcacc
  | cons y ys2 ih =>
    refine ih _ ?_ (fun b hb => hys b (by simp [hb])) ?_ (fun b hb => hall b (by simp [hb]))
    · rw [enlarge_fst_length, hacc, hys y (by simp)]; simp
    · exact enlarge_sub B acc y hcacc (hall y (by simp)) (by omega)
        (by rw [hacc, hys y (by simp)])

theorem cbb_length (boxes : List Box) (d : Nat) (h : ∀ b ∈ boxes, b.length = d)
    (hne : boxes ≠ []) : (calc_bounding_box boxes).length = d := by
  cases boxes with
  | nil => exact absurd rfl hne
  | cons b rest =>
    exact foldl_enlarge_length rest b d (h b (by simp)) (fun x hx => h x (by simp [hx]))

theorem cbb_contains (boxes : List Box) (d : Nat) (x : Box)
    (h : ∀ b ∈ boxes, b.length = d) (hx : x ∈ boxes) :
    containsBox (calc_bounding_box boxes) x = true := by
  cases boxes with
  | nil => simp at hx
  | cons b rest =>
    rcases List.mem_cons.mp hx with rfl | hx2
    · exact foldl_enlarge_contains_acc rest x d (h x (by simp))
        (fun y hy => h y (by simp [hy]))
    · exact foldl_enlarge_contains_mem rest b d x (h b (by simp))
        (fun y hy => h y (by simp [hy])) hx2

theorem cbb_sub (B : Box) (boxes : List Box) (d : Nat) (hB : B.length = d)
    (h : ∀ b ∈ boxes, b.length = d) (hall : ∀ b ∈ boxes, containsBox B b = true)
    (hne : boxes ≠ []) : containsBox B (calc_bounding_box boxes) = true := by
  cases boxes with
  | nil => exact absurd rfl hne
  | cons b rest =>
    exact foldl_enlarge_sub B rest b d hB (h b (by simp))
      (fun x hx => h x (by simp [hx])) (hall b (by simp))
      (fun x hx => hall x (by simp [hx]))

end Rt


namespace Rt

/-- The `rtree` configuration used for the claim C3 refutation: one
dimension, `min_node_size = 1`, `max_node_size = 3` (a legal trait set,
since `2 min <= max`), `max_tree_depth = 100`. -/
def rcfgC3 : RCfg := ⟨1, 1, 3, 100⟩

/-- A one-dimensional point box. -/
def c3p (x : Int) : Box := [(x, x)]

/-- States of the claim C3 trace.  Each `c3sN` is the literal tree that
the N-th public operation of the trace leaves behind, as certified by
the step equations inside `claim_C3_counterexample`: steps 1-9 insert
the points 2010, 2040, 2050, 2060, 2030, 2070, 2100, 1000, 9000 (values
1-9), step 10 erases the scaffold value 1, steps 11-12 insert 9100 and
9200 (values 10-11) pushing the tree to depth five, steps 13-18 insert
2043 four times, 2045 and 2044 (values 12-17) growing the middle
subtree, step 19 erases value 14, step 20 erases value 2 and hits the
unimplemented reduce-and-reinsert path of `erase` — the thrown
runtime error leaves an empty non-leaf directory with a default
origin box — step 21 erases value 16, whose shrink chain packs the
damaged directory (absorbing the origin into its box) and stops below
the stale ancestor box `[2030, 9200]`, and step 22 erases value 15. -/
def c3s1 : RNode :=
  (.rdir true [(2010, 2010)] [(.rval [(2010, 2010)] 1)])

def c3s2 : RNode :=
  (.rdir true [(2010, 2040)] [(.rval [(2010, 2010)] 1), (.rval [(2040, 2040)] 2)])

def c3s3 : RNode :=
  (.rdir true [(2010, 2050)] [(.rval [(2010, 2010)] 1), (.rval [(2040, 2040)] 2), (.rval [(2050, 2050)] 3)])

def c3s4 : RNode :=
  (.rdir false [(2010, 2060)] [(.rdir true [(2010, 2010)] [(.rval [(2010, 2010)] 1)]), (.rdir true [(2040, 2060)] [(.rval [(2040, 2040)] 2), (.rval [(2050, 2050)] 3), (.rval [(2060, 2060)] 4)])])

def c3s5 : RNode :=
  (.rdir false [(2010, 2060)] [(.rdir true [(2010, 2010)] [(.rval [(2010, 2010)] 1)]), (.rdir true [(2030, 2030)] [(.rval [(2030, 2030)] 5)]), (.rdir true [(2040, 2060)] [(.rval [(2040, 2040)] 2), (.rval [(2050, 2050)] 3), (.rval [(2060, 2060)] 4)])])

def c3s6 : RNode :=
  (.rdir false [(2010, 2070)] [(.rdir false [(2010, 2010)] [(.rdir true [(2010, 2010)] [(.rval [(2010, 2010)] 1)])]), (.rdir false [(2030, 2070)] [(.rdir true [(2030, 2030)] [(.rval [(2030, 2030)] 5)]), (.rdir true [(2040, 2040)] [(.rval [(2040, 2040)] 2)]), (.rdir true [(2050, 2070)] [(.rval [(2050, 2050)] 3), (.rval [(2060, 2060)] 4), (.rval [(2070, 2070)] 6)])])])

def c3s7 : RNode :=
  (.rdir false [(2010, 2100)] [(.rdir false [(2010, 2010)] [(.rdir true [(2010, 2010)] [(.rval [(2010, 2010)] 1)])]), (.rdir false [(2030, 2030)] [(.rdir true [(2030, 2030)] [(.rval [(2030, 2030)] 5)])]), (.rdir false [(2040, 2100)] [(.rdir true [(2040, 2040)] [(.rval [(2040, 2040)] 2)]), (.rdir true [(2050, 2050)] [(.rval [(2050, 2050)] 3)]), (.rdir true [(2060, 2100)] [(.rval [(2060, 2060)] 4), (.rval [(2070, 2070)] 6), (.rval [(2100, 2100)] 7)])])])

def c3s8 : RNode :=
  (.rdir false [(1000, 2100)] [(.rdir false [(1000, 2010)] [(.rdir true [(1000, 2010)] [(.rval [(2010, 2010)] 1), (.rval [(1000, 1000)] 8)])]), (.rdir false [(2030, 2030)] [(.rdir true [(2030, 2030)] [(.rval [(2030, 2030)] 5)])]), (.rdir false [(2040, 2100)] [(.rdir true [(2040, 2040)] [(.rval [(2040, 2040)] 2)]), (.rdir true [(2050, 2050)] [(.rval [(2050, 2050)] 3)]), (.rdir true [(2060, 2100)] [(.rval [(2060, 2060)] 4), (.rval [(2070, 2070)] 6), (.rval [(2100, 2100)] 7)])])])

def c3s9 : RNode :=
  (.rdir false [(1000, 9000)] [(.rdir false [(1000, 2010)] [(.rdir false [(1000, 2010)] [(.rdir true [(1000, 2010)] [(.rval [(2010, 2010)] 1), (.rval [(1000, 1000)] 8)])])]), (.rdir false [(2030, 9000)] [(.rdir false [(2030, 2030)] [(.rdir true [(2030, 2030)] [(.rval [(2030, 2030)] 5)])]), (.rdir false [(2040, 2040)] [(.rdir true [(2040, 2040)] [(.rval [(2040, 2040)] 2)])]), (.rdir false [(2050, 9000)] [(.rdir true [(2050, 2050)] [(.rval [(2050, 2050)] 3)]), (.rdir true [(2060, 2060)] [(.rval [(2060, 2060)] 4)]), (.rdir true [(2070, 9000)] [(.rval [(2070, 2070)] 6), (.rval [(2100, 2100)] 7), (.rval [(9000, 9000)] 9)])])])])

def c3s10 : RNode :=
  (.rdir false [(1000, 9000)] [(.rdir false [(1000, 1000)] [(.rdir false [(1000, 1000)] [(.rdir true [(1000, 1000)] [(.rval [(1000, 1000)] 8)])])]), (.rdir false [(2030, 9000)] [(.rdir false [(2030, 2030)] [(.rdir true [(2030, 2030)] [(.rval [(2030, 2030)] 5)])]), (.rdir false [(2040, 2040)] [(.rdir true [(2040, 2040)] [(.rval [(2040, 2040)] 2)])]), (.rdir false [(2050, 9000)] [(.rdir true [(2050, 2050)] [(.rval [(2050, 2050)] 3)]), (.rdir true [(2060, 2060)] [(.rval [(2060, 2060)] 4)]), (.rdir true [(2070, 9000)] [(.rval [(2070, 2070)] 6), (.rval [(2100, 2100)] 7), (.rval [(9000, 9000)] 9)])])])])

def c3s11 : RNode :=
  (.rdir false [(1000, 9100)] [(.rdir false [(1000, 1000)] [(.rdir false [(1000, 1000)] [(.rdir true [(1000, 1000)] [(.rval [(1000, 1000)] 8)])])]), (.rdir false [(2030, 2030)] [(.rdir false [(2030, 2030)] [(.rdir true [(2030, 2030)] [(.rval [(2030, 2030)] 5)])])]), (.rdir false [(2040, 9100)] [(.rdir false [(2040, 2040)] [(.rdir true [(2040, 2040)] [(.rval [(2040, 2040)] 2)])]), (.rdir false [(2050, 2050)] [(.rdir true [(2050, 2050)] [(.rval [(2050, 2050)] 3)])]), (.rdir false [(2060, 9100)] [(.rdir true [(2060, 2060)] [(.rval [(2060, 2060)] 4)]), (.rdir true [(2070, 2070)] [(.rval [(2070, 2070)] 6)]), (.rdir true [(2100, 9100)] [(.rval [(2100, 2100)] 7), (.rval [(9000, 9000)] 9), (.rval [(9100, 9100)] 10)])])])])

def c3s12 : RNode :=
  (.rdir false [(1000, 9200)] [(.rdir false [(1000, 1000)] [(.rdir false [(1000, 1000)] [(.rdir false [(1000, 1000)] [(.rdir true [(1000, 1000)] [(.rval [(1000, 1000)] 8)])])])]), (.rdir false [(2030, 9200)] [(.rdir false [(2030, 2030)] [(.rdir false [(2030, 2030)] [(.rdir true [(2030, 2030)] [(.rval [(2030, 2030)] 5)])])]), (.rdir false [(2040, 2040)] [(.rdir false [(2040, 2040)] [(.rdir true [(2040, 2040)] [(.rval [(2040, 2040)] 2)])])]), (.rdir false [(2050, 9200)] [(.rdir false [(2050, 2050)] [(.rdir true [(2050, 2050)] [(.rval [(2050, 2050)] 3)])]), (.rdir false [(2060, 2060)] [(.rdir true [(2060, 2060)] [(.rval [(2060, 2060)] 4)])]), (.rdir false [(2070, 9200)] [(.rdir true [(2070, 2070)] [(.rval [(2070, 2070)] 6)]), (.rdir true [(2100, 2100)] [(.rval [(2100, 2100)] 7)]), (.rdir true [(9000, 9200)] [(.rval [(9000, 9000)] 9), (.rval [(9100, 9100)] 10), (.rval [(9200, 9200)] 11)])])])])])

def c3s13 : RNode :=
  (.rdir false [(1000, 9200)] [(.rdir false [(1000, 1000)] [(.rdir false [(1000, 1000)] [(.rdir false [(1000, 1000)] [(.rdir true [(1000, 1000)] [(.rval [(1000, 1000)] 8)])])])]), (.rdir false [(2030, 9200)] [(.rdir false [(2030, 2030)] [(.rdir false [(2030, 2030)] [(.rdir true [(2030, 2030)] [(.rval [(2030, 2030)] 5)])])]), (.rdir false [(2040, 2043)] [(.rdir false [(2040, 2043)] [(.rdir true [(2040, 2043)] [(.rval [(2040, 2040)] 2), (.rval [(2043, 2043)] 12)])])]), (.rdir false [(2050, 9200)] [(.rdir false [(2050, 2050)] [(.rdir true [(2050, 2050)] [(.rval [(2050, 2050)] 3)])]), (.rdir false [(2060, 2060)] [(.rdir true [(2060, 2060)] [(.rval [(2060, 2060)] 4)])]), (.rdir false [(2070, 9200)] [(.rdir true [(2070, 2070)] [(.rval [(2070, 2070)] 6)]), (.rdir true [(2100, 2100)] [(.rval [(2100, 2100)] 7)]), (.rdir true [(9000, 9200)] [(.rval [(9000, 9000)] 9), (.rval [(9100, 9100)] 10), (.rval [(9200, 9200)] 11)])])])])])

def c3s14 : RNode :=
  (.rdir false [(1000, 9200)] [(.rdir false [(1000, 1000)] [(.rdir false [(1000, 1000)] [(.rdir false [(1000, 1000)] [(.rdir true [(1000, 1000)] [(.rval [(1000, 1000)] 8)])])])]), (.rdir false [(2030, 9200)] [(.rdir false [(2030, 2030)] [(.rdir false [(2030, 2030)] [(.rdir true [(2030, 2030)] [(.rval [(2030, 2030)] 5)])])]), (.rdir false [(2040, 2043)] [(.rdir false [(2040, 2043)] [(.rdir true [(2040, 2043)] [(.rval [(2040, 2040)] 2), (.rval [(2043, 2043)] 12), (.rval [(2043, 2043)] 13)])])]), (.rdir false [(2050, 9200)] [(.rdir false [(2050, 2050)] [(.rdir true [(2050, 2050)] [(.rval [(2050, 2050)] 3)])]), (.rdir false [(2060, 2060)] [(.rdir true [(2060, 2060)] [(.rval [(2060, 2060)] 4)])]), (.rdir false [(2070, 9200)] [(.rdir true [(2070, 2070)] [(.rval [(2070, 2070)] 6)]), (.rdir true [(2100, 2100)] [(.rval [(2100, 2100)] 7)]), (.rdir true [(9000, 9200)] [(.rval [(9000, 9000)] 9), (.rval [(9100, 9100)] 10), (.rval [(9200, 9200)] 11)])])])])])

def c3s15 : RNode :=
  (.rdir false [(1000, 9200)] [(.rdir false [(1000, 1000)] [(.rdir false [(1000, 1000)] [(.rdir false [(1000, 1000)] [(.rdir true [(1000, 1000)] [(.rval [(1000, 1000)] 8)])])])]), (.rdir false [(2030, 9200)] [(.rdir false [(2030, 2030)] [(.rdir false [(2030, 2030)] [(.rdir true [(2030, 2030)] [(.rval [(2030, 2030)] 5)])])]), (.rdir false [(2040, 2043)] [(.rdir false [(2040, 2043)] [(.rdir true [(2040, 2040)] [(.rval [(2040, 2040)] 2)]), (.rdir true [(2043, 2043)] [(.rval [(2043, 2043)] 14), (.rval [(2043, 2043)] 13), (.rval [(2043, 2043)] 12)])])]), (.rdir false [(2050, 9200)] [(.rdir false [(2050, 2050)] [(.rdir true [(2050, 2050)] [(.rval [(2050, 2050)] 3)])]), (.rdir false [(2060, 2060)] [(.rdir true [(2060, 2060)] [(.rval [(2060, 2060)] 4)])]), (.rdir false [(2070, 9200)] [(.rdir true [(2070, 2070)] [(.rval [(2070, 2070)] 6)]), (.rdir true [(2100, 2100)] [(.rval [(2100, 2100)] 7)]), (.rdir true [(9000, 9200)] [(.rval [(9000, 9000)] 9), (.rval [(9100, 9100)] 10), (.rval [(9200, 9200)] 11)])])])])])

def c3s16 : RNode :=
  (.rdir false [(1000, 9200)] [(.rdir false [(1000, 1000)] [(.rdir false [(1000, 1000)] [(.rdir false [(1000, 1000)] [(.rdir true [(1000, 1000)] [(.rval [(1000, 1000)] 8)])])])]), (.rdir false [(2030, 9200)] [(.rdir false [(2030, 2030)] [(.rdir false [(2030, 2030)] [(.rdir true [(2030, 2030)] [(.rval [(2030, 2030)] 5)])])]), (.rdir false [(2040, 2043)] [(.rdir false [(2040, 2043)] [(.rdir true [(2040, 2040)] [(.rval [(2040, 2040)] 2)]), (.rdir true [(2043, 2043)] [(.rval [(2043, 2043)] 15)]), (.rdir true [(2043, 2043)] [(.rval [(2043, 2043)] 12), (.rval [(2043, 2043)] 13), (.rval [(2043, 2043)] 14)])])]), (.rdir false [(2050, 9200)] [(.rdir false [(2050, 2050)] [(.rdir true [(2050, 2050)] [(.rval [(2050, 2050)] 3)])]), (.rdir false [(2060, 2060)] [(.rdir true [(2060, 2060)] [(.rval [(2060, 2060)] 4)])]), (.rdir false [(2070, 9200)] [(.rdir true [(2070, 2070)] [(.rval [(2070, 2070)] 6)]), (.rdir true [(2100, 2100)] [(.rval [(2100, 2100)] 7)]), (.rdir true [(9000, 9200)] [(.rval [(9000, 9000)] 9), (.rval [(9100, 9100)] 10), (.rval [(9200, 9200)] 11)])])])])])

def c3s17 : RNode :=
  (.rdir false [(1000, 9200)] [(.rdir false [(1000, 1000)] [(.rdir false [(1000, 1000)] [(.rdir false [(1000, 1000)] [(.rdir true [(1000, 1000)] [(.rval [(1000, 1000)] 8)])])])]), (.rdir false [(2030, 9200)] [(.rdir false [(2030, 2030)] [(.rdir false [(2030, 2030)] [(.rdir true [(2030, 2030)] [(.rval [(2030, 2030)] 5)])])]), (.rdir false [(2040, 2045)] [(.rdir false [(2040, 2045)] [(.rdir true [(2040, 2040)] [(.rval [(2040, 2040)] 2)]), (.rdir true [(2043, 2045)] [(.rval [(2043, 2043)] 15), (.rval [(2045, 2045)] 16)]), (.rdir true [(2043, 2043)] [(.rval [(2043, 2043)] 12), (.rval [(2043, 2043)] 13), (.rval [(2043, 2043)] 14)])])]), (.rdir false [(2050, 9200)] [(.rdir false [(2050, 2050)] [(.rdir true [(2050, 2050)] [(.rval [(2050, 2050)] 3)])]), (.rdir false [(2060, 2060)] [(.rdir true [(2060, 2060)] [(.rval [(2060, 2060)] 4)])]), (.rdir false [(2070, 9200)] [(.rdir true [(2070, 2070)] [(.rval [(2070, 2070)] 6)]), (.rdir true [(2100, 2100)] [(.rval [(2100, 2100)] 7)]), (.rdir true [(9000, 9200)] [(.rval [(9000, 9000)] 9), (.rval [(9100, 9100)] 10), (.rval [(9200, 9200)] 11)])])])])])

def c3s18 : RNode :=
  (.rdir false [(1000, 9200)] [(.rdir false [(1000, 1000)] [(.rdir false [(1000, 1000)] [(.rdir false [(1000, 1000)] [(.rdir true [(1000, 1000)] [(.rval [(1000, 1000)] 8)])])])]), (.rdir false [(2030, 9200)] [(.rdir false [(2030, 2030)] [(.rdir false [(2030, 2030)] [(.rdir true [(2030, 2030)] [(.rval [(2030, 2030)] 5)])])]), (.rdir false [(2040, 2045)] [(.rdir false [(2040, 2040)] [(.rdir true [(2040, 2040)] [(.rval [(2040, 2040)] 2)])]), (.rdir false [(2043, 2045)] [(.rdir true [(2043, 2043)] [(.rval [(2043, 2043)] 14)]), (.rdir true [(2043, 2044)] [(.rval [(2043, 2043)] 13), (.rval [(2043, 2043)] 12), (.rval [(2044, 2044)] 17)]), (.rdir true [(2043, 2045)] [(.rval [(2043, 2043)] 15), (.rval [(2045, 2045)] 16)])])]), (.rdir false [(2050, 9200)] [(.rdir false [(2050, 2050)] [(.rdir true [(2050, 2050)] [(.rval [(2050, 2050)] 3)])]), (.rdir false [(2060, 2060)] [(.rdir true [(2060, 2060)] [(.rval [(2060, 2060)] 4)])]), (.rdir false [(2070, 9200)] [(.rdir true [(2070, 2070)] [(.rval [(2070, 2070)] 6)]), (.rdir true [(2100, 2100)] [(.rval [(2100, 2100)] 7)]), (.rdir true [(9000, 9200)] [(.rval [(9000, 9000)] 9), (.rval [(9100, 9100)] 10), (.rval [(9200, 9200)] 11)])])])])])

def c3s19 : RNode :=
  (.rdir false [(1000, 9200)] [(.rdir false [(1000, 1000)] [(.rdir false [(1000, 1000)] [(.rdir false [(1000, 1000)] [(.rdir true [(1000, 1000)] [(.rval [(1000, 1000)] 8)])])])]), (.rdir false [(2030, 9200)] [(.rdir false [(2030, 2030)] [(.rdir false [(2030, 2030)] [(.rdir true [(2030, 2030)] [(.rval [(2030, 2030)] 5)])])]), (.rdir false [(2040, 2045)] [(.rdir false [(2040, 2040)] [(.rdir true [(2040, 2040)] [(.rval [(2040, 2040)] 2)])]), (.rdir false [(2043, 2045)] [(.rdir true [(2043, 2044)] [(.rval [(2043, 2043)] 13), (.rval [(2043, 2043)] 12), (.rval [(2044, 2044)] 17)]), (.rdir true [(2043, 2045)] [(.rval [(2043, 2043)] 15), (.rval [(2045, 2045)] 16)])])]), (.rdir false [(2050, 9200)] [(.rdir false [(2050, 2050)] [(.rdir true [(2050, 2050)] [(.rval [(2050, 2050)] 3)])]), (.rdir false [(2060, 2060)] [(.rdir true [(2060, 2060)] [(.rval [(2060, 2060)] 4)])]), (.rdir false [(2070, 9200)] [(.rdir true [(2070, 2070)] [(.rval [(2070, 2070)] 6)]), (.rdir true [(2100, 2100)] [(.rval [(2100, 2100)] 7)]), (.rdir true [(9000, 9200)] [(.rval [(9000, 9000)] 9), (.rval [(9100, 9100)] 10), (.rval [(9200, 9200)] 11)])])])])])

def c3s20 : RNode :=
  (.rdir false [(1000, 9200)] [(.rdir false [(1000, 1000)] [(.rdir false [(1000, 1000)] [(.rdir false [(1000, 1000)] [(.rdir true [(1000, 1000)] [(.rval [(1000, 1000)] 8)])])])]), (.rdir false [(2030, 9200)] [(.rdir false [(2030, 2030)] [(.rdir false [(2030, 2030)] [(.rdir true [(2030, 2030)] [(.rval [(2030, 2030)] 5)])])]), (.rdir false [(2040, 2045)] [(.rdir false [(0, 0)] []), (.rdir false [(2043, 2045)] [(.rdir true [(2043, 2044)] [(.rval [(2043, 2043)] 13), (.rval [(2043, 2043)] 12), (.rval [(2044, 2044)] 17)]), (.rdir true [(2043, 2045)] [(.rval [(2043, 2043)] 15), (.rval [(2045, 2045)] 16)])])]), (.rdir false [(2050, 9200)] [(.rdir false [(2050, 2050)] [(.rdir true [(2050, 2050)] [(.rval [(2050, 2050)] 3)])]), (.rdir false [(2060, 2060)] [(.rdir true [(2060, 2060)] [(.rval [(2060, 2060)] 4)])]), (.rdir false [(2070, 9200)] [(.rdir true [(2070, 2070)] [(.rval [(2070, 2070)] 6)]), (.rdir true [(2100, 2100)] [(.rval [(2100, 2100)] 7)]), (.rdir true [(9000, 9200)] [(.rval [(9000, 9000)] 9), (.rval [(9100, 9100)] 10), (.rval [(9200, 9200)] 11)])])])])])

def c3s21 : RNode :=
  (.rdir false [(1000, 9200)] [(.rdir false [(1000, 1000)] [(.rdir false [(1000, 1000)] [(.rdir false [(1000, 1000)] [(.rdir true [(1000, 1000)] [(.rval [(1000, 1000)] 8)])])])]), (.rdir false [(2030, 9200)] [(.rdir false [(2030, 2030)] [(.rdir false [(2030, 2030)] [(.rdir true [(2030, 2030)] [(.rval [(2030, 2030)] 5)])])]), (.rdir false [(0, 2044)] [(.rdir false [(0, 0)] []), (.rdir false [(2043, 2044)] [(.rdir true [(2043, 2044)] [(.rval [(2043, 2043)] 13), (.rval [(2043, 2043)] 12), (.rval [(2044, 2044)] 17)]), (.rdir true [(2043, 2043)] [(.rval [(2043, 2043)] 15)])])]), (.rdir false [(2050, 9200)] [(.rdir false [(2050, 2050)] [(.rdir true [(2050, 2050)] [(.rval [(2050, 2050)] 3)])]), (.rdir false [(2060, 2060)] [(.rdir true [(2060, 2060)] [(.rval [(2060, 2060)] 4)])]), (.rdir false [(2070, 9200)] [(.rdir true [(2070, 2070)] [(.rval [(2070, 2070)] 6)]), (.rdir true [(2100, 2100)] [(.rval [(2100, 2100)] 7)]), (.rdir true [(9000, 9200)] [(.rval [(9000, 9000)] 9), (.rval [(9100, 9100)] 10), (.rval [(9200, 9200)] 11)])])])])])

def c3s22 : RNode :=
  (.rdir false [(1000, 9200)] [(.rdir false [(1000, 1000)] [(.rdir false [(1000, 1000)] [(.rdir false [(1000, 1000)] [(.rdir true [(1000, 1000)] [(.rval [(1000, 1000)] 8)])])])]), (.rdir false [(2030, 9200)] [(.rdir false [(2030, 2030)] [(.rdir false [(2030, 2030)] [(.rdir true [(2030, 2030)] [(.rval [(2030, 2030)] 5)])])]), (.rdir false [(0, 2044)] [(.rdir false [(0, 0)] []), (.rdir false [(2043, 2044)] [(.rdir true [(2043, 2044)] [(.rval [(2043, 2043)] 13), (.rval [(2043, 2043)] 12), (.rval [(2044, 2044)] 17)])])]), (.rdir false [(2050, 9200)] [(.rdir false [(2050, 2050)] [(.rdir true [(2050, 2050)] [(.rval [(2050, 2050)] 3)])]), (.rdir false [(2060, 2060)] [(.rdir true [(2060, 2060)] [(.rval [(2060, 2060)] 4)])]), (.rdir false [(2070, 9200)] [(.rdir true [(2070, 2070)] [(.rval [(2070, 2070)] 6)]), (.rdir true [(2100, 2100)] [(.rval [(2100, 2100)] 7)]), (.rdir true [(9000, 9200)] [(.rval [(9000, 9000)] 9), (.rval [(9100, 9100)] 10), (.rval [(9200, 9200)] 11)])])])])])

def c3bad : RNode :=
  (.rdir false [(1000, 9200)] [(.rdir false [(1000, 1000)] [(.rdir false [(1000, 1000)] [(.rdir false [(1000, 1000)] [(.rdir true [(1000, 1000)] [(.rval [(1000, 1000)] 8)])])])]), (.rdir false [(2030, 9200)] [(.rdir false [(2030, 2030)] [(.rdir false [(2030, 2030)] [(.rdir true [(2030, 2030)] [(.rval [(2030, 2030)] 5)])])]), (.rdir false [(0, 2044)] [(.rdir false [(0, 0)] []), (.rdir false [(1600, 2044)] [(.rdir true [(1600, 1600)] [(.rval [(1600, 1600)] 99)]), (.rdir true [(2043, 2044)] [(.rval [(2043, 2043)] 12), (.rval [(2043, 2043)] 13), (.rval [(2044, 2044)] 17)])])]), (.rdir false [(2050, 9200)] [(.rdir false [(2050, 2050)] [(.rdir true [(2050, 2050)] [(.rval [(2050, 2050)] 3)])]), (.rdir false [(2060, 2060)] [(.rdir true [(2060, 2060)] [(.rval [(2060, 2060)] 4)])]), (.rdir false [(2070, 9200)] [(.rdir true [(2070, 2070)] [(.rval [(2070, 2070)] 6)]), (.rdir true [(2100, 2100)] [(.rval [(2100, 2100)] 7)]), (.rdir true [(9000, 9200)] [(.rval [(9000, 9000)] 9), (.rval [(9100, 9100)] 10), (.rval [(9200, 9200)] 11)])])])])])

set_option maxRecDepth 2000 in
set_option maxHeartbeats 1000000 in
/-- Claim C3 is false as stated: `c3bad` is reachable from a fresh tree
through public inserts and erases (including the mutated state the
`erase` TODO-exception leaves behind), it stores value 99 with box
`[1600, 1600]`, that box contains the query point 1600, and yet
`search_descend` returns nothing at 1600 — the search misses a stored
value because a stale ancestor bounding box prunes the subtree. -/
theorem claim_C3_counterexample :
    Reach rcfgC3 c3bad ∧ ([(1600, 1600)], 99) ∈ nodeValues c3bad ∧
      containsPt [(1600, 1600)] [1600] = true ∧
      search_descend [1600] c3bad = [] := by
  refine ⟨?_, by decide, by decide, by rfl⟩
  have h1 : Reach rcfgC3 c3s1 := .ins _ (c3p 2010) 1 _ .init rfl rfl
  have h2 : Reach rcfgC3 c3s2 := .ins _ (c3p 2040) 2 _ h1 rfl rfl
  have h3 : Reach rcfgC3 c3s3 := .ins _ (c3p 2050) 3 _ h2 rfl rfl
  have h4 : Reach rcfgC3 c3s4 := .ins _ (c3p 2060) 4 _ h3 rfl rfl
  have h5 : Reach rcfgC3 c3s5 := .ins _ (c3p 2030) 5 _ h4 rfl rfl
  have h6 : Reach rcfgC3 c3s6 := .ins _ (c3p 2070) 6 _ h5 rfl rfl
  have h7 : Reach rcfgC3 c3s7 := .ins _ (c3p 2100) 7 _ h6 rfl rfl
  have h8 : Reach rcfgC3 c3s8 := .ins _ (c3p 1000) 8 _ h7 rfl rfl
  have h9 : Reach rcfgC3 c3s9 := .ins _ (c3p 9000) 9 _ h8 rfl rfl
  have h10 : Reach rcfgC3 c3s10 := .erOk _ [0, 0, 0, 0] _ h9 rfl
  have h11 : Reach rcfgC3 c3s11 := .ins _ (c3p 9100) 10 _ h10 rfl rfl
  have h12 : Reach rcfgC3 c3s12 := .ins _ (c3p 9200) 11 _ h11 rfl rfl
  have h13 : Reach rcfgC3 c3s13 := .ins _ (c3p 2043) 12 _ h12 rfl rfl
  have h14 : Reach rcfgC3 c3s14 := .ins _ (c3p 2043) 13 _ h13 rfl rfl
  have h15 : Reach rcfgC3 c3s15 := .ins _ (c3p 2043) 14 _ h14 rfl rfl
  have h16 : Reach rcfgC3 c3s16 := .ins _ (c3p 2043) 15 _ h15 rfl rfl
  have h17 : Reach rcfgC3 c3s17 := .ins _ (c3p 2045) 16 _ h16 rfl rfl
  have h18 : Reach rcfgC3 c3s18 := .ins _ (c3p 2044) 17 _ h17 rfl rfl
  have h19 : Reach rcfgC3 c3s19 := .erOk _ [1, 1, 1, 0, 0] _ h18 rfl
  have h20 : Reach rcfgC3 c3s20 := .erTodo _ [1, 1, 0, 0, 0] _ h19 rfl
  have h21 : Reach rcfgC3 c3s21 := .erOk _ [1, 1, 1, 1, 1] _ h20 rfl
  have h22 : Reach rcfgC3 c3s22 := .erOk _ [1, 1, 1, 1, 0] _ h21 rfl
  exact .ins _ (c3p 1600) 99 _ h22 rfl rfl


/-- Length of a node box under `wfDims`. -/
theorem wfDims_nbox (d : Nat) (t : RNode) (h : wfDims d t = true) :
    t.nbox.length = d := by
  cases t with
  | rval bx v => simpa [wfDims, RNode.nbox] using h
  | rdir lf bx kids =>
    simp only [wfDims, Bool.and_eq_true, decide_eq_true_eq] at h
    simpa [RNode.nbox] using h.1

mutual

/-- Search soundness on any tree: everything `search_descend` emits is
a stored value whose box contains the query point. -/

theorem searchSound (pt : List Int) (t : RNode) (bv : Box × Nat)
    (h : bv ∈ search_descend pt t) :
    bv ∈ nodeValues t ∧ containsPt bv.1 pt = true := by
  cases t with
  | rval bx v =>
    simp only [search_descend] at h
    split at h
    · rcases List.mem_singleton.mp h with rfl
      exact ⟨by simp [nodeValues], by assumption⟩
    · simp at h
  | rdir lf bx kids =>
    simp only [search_descend] at h
    split at h
    · exact searchSoundKids pt kids bv h
    · simp at h

theorem searchSoundKids (pt : List Int) (ks : List RNode) (bv : Box × Nat)
    (h : bv ∈ searchKids pt ks) :
    bv ∈ kidsValues ks ∧ containsPt bv.1 pt = true := by
  cases ks with
  | nil => simp [searchKids] at h
  | cons c rest =>
    simp only [searchKids, List.mem_append] at h
    rcases h with h | h
    · have := searchSound pt c bv h
      exact ⟨by simp [kidsValues, List.mem_append, this.1], this.2⟩
    · have := searchSoundKids pt rest bv h
      exact ⟨by simp [kidsValues, List.mem_append, this.2, this.1], this.2⟩

end

mutual

/-- Search completeness under the `check_integrity` box-containment
discipline: a stored value whose box contains the point is found, and
the node box itself contains the point. -/

theorem searchComplete (d : Nat) (pt : List Int) (t : RNode)
    (hw : wfDims d t = true) (hi : integNode t = true) (bv : Box × Nat)
    (hm : bv ∈ nodeValues t) (hc : containsPt bv.1 pt = true) :
    containsPt t.nbox pt = true ∧ bv ∈ search_descend pt t := by
  cases t with
  | rval bx v =>
    simp only [nodeValues, List.mem_singleton] at hm
    subst hm
    exact ⟨hc, by simp [search_descend, hc]⟩
  | rdir lf bx kids =>
    simp only [wfDims, Bool.and_eq_true, decide_eq_true_eq] at hw
    simp only [integNode, Bool.and_eq_true] at hi
    have hk := searchCompleteKids d pt lf bx kids hw.1 hw.2 hi.1 bv hm hc
    exact ⟨hk.1, by simpa [search_descend, RNode.nbox, hk.1] using hk.2⟩

theorem searchCompleteKids (d : Nat) (pt : List Int) (lf : Bool) (bx : Box)
    (ks : List RNode) (hbx : bx.length = d) (hw : wfDimsKids d ks = true)
    (hi : integKids lf bx ks = true) (bv : Box × Nat)
    (hm : bv ∈ kidsValues ks) (hc : containsPt bv.1 pt = true) :
    containsPt bx pt = true ∧ bv ∈ searchKids pt ks := by
  cases ks with
  | nil => simp [kidsValues] at hm
  | cons c rest =>
    simp only [wfDimsKids, Bool.and_eq_true] at hw
    simp only [integKids, Bool.and_eq_true] at hi
    simp only [kidsValues, List.mem_append] at hm
    rcases hm with hm | hm
    · have hrec := searchComplete d pt c hw.1 hi.1.2 bv hm hc
      refine ⟨?_, by simp [searchKids, List.mem_append, hrec.2]⟩
      exact containsPt_of_containsBox bx c.nbox pt hi.1.1.2 hrec.1
        (by rw [hbx, wfDims_nbox d c hw.1])
    · have hrec := searchCompleteKids d pt lf bx rest hbx hw.2 hi.2 bv hm hc
      exact ⟨hrec.1, by simp [searchKids, List.mem_append, hrec.2]⟩

end

/-- Claim C3 amended: on any tree whose boxes all have the configured
dimension count and that passes the structural checks of
`check_integrity` (in particular after damage-free operation), a point
search is exact — it returns a stored value if and only if the value's
bounding box contains the point.  On reachable damaged states only the
left-to-right direction survives (`claim_C3_counterexample`). -/
theorem claim_C3_amended (d : Nat) (pt : List Int) (t : RNode)
    (hw : wfDims d t = true) (hi : check_integrity_ok t = true) :
    (∀ bv : Box × Nat, bv ∈ search_descend pt t →
      bv ∈ nodeValues t ∧ containsPt bv.1 pt = true) ∧
    (∀ bv : Box × Nat, bv ∈ nodeValues t → containsPt bv.1 pt = true →
      bv ∈ search_descend pt t) := by
  refine ⟨fun bv h => searchSound pt t bv h, fun bv hm hc => ?_⟩
  cases t with
  | rval bx v => simp [check_integrity_ok] at hi
  | rdir lf bx kids =>
    exact (searchComplete d pt _ hw (by simpa [check_integrity_ok] using hi) bv hm hc).2

/-- Claim C3 amended, witness: the exactness equivalence applied to a
concrete two-value integrity-passing tree and the point 5, recovering
the stored value whose box contains 5. -/
theorem claim_C3_amended_witness :
    ([(0, 10)], 1) ∈ search_descend [5]
      (.rdir true [(0, 20)] [.rval [(0, 10)] 1, .rval [(12, 20)] 2]) :=
  (claim_C3_amended 1 [5]
      (.rdir true [(0, 20)] [.rval [(0, 10)] 1, .rval [(12, 20)] 2])
      (by decide) (by decide)).2 ([(0, 10)], 1) (by decide) (by decide)


/-- Configuration for the claim C4 and C10 analyses: one dimension,
`min_node_size = 2`, `max_node_size = 4`. -/
def rcfgC4 : RCfg := ⟨1, 2, 4, 100⟩

/-- A one-dimensional value node. -/
def vL (a b : Int) (v : Nat) : RNode := .rval [(a, b)] v

/-- An invariant-satisfying depth-3 tree: two non-leaf directories of
two leaf directories each, every directory box the exact extent of its
children and every fan-out within `[min_node_size, max_node_size]`. -/
def rtT4 : RNode :=
  .rdir false [(0, 8)]
    [.rdir false [(0, 3)]
      [.rdir true [(0, 1)] [vL 0 0 1, vL 1 1 2],
       .rdir true [(2, 3)] [vL 2 2 3, vL 3 3 4]],
     .rdir false [(4, 8)]
      [.rdir true [(4, 5)] [vL 4 4 5, vL 5 5 6],
       .rdir true [(6, 8)] [vL 6 6 7, vL 7 8 8]]]

/-- The tree the `erase` TODO-exception leaves behind on `rtT4`. -/
def rtT4after : RNode :=
  .rdir false [(0, 8)]
    [.rdir false [(2, 3)]
      [.rdir true [(2, 3)] [.rval [(2, 2)] 3, .rval [(3, 3)] 4]],
     .rdir false [(4, 8)]
      [.rdir true [(4, 5)] [.rval [(4, 4)] 5, .rval [(5, 5)] 6],
       .rdir true [(6, 8)] [.rval [(6, 6)] 7, .rval [(7, 8)] 8]]]

/-- Claim C4 is false of the code: `rtT4` satisfies every invariant the
claim lists (`check_integrity` structural checks, fan-out, dimension
counts), yet the single public call `erase` on the value at path
`[0,0,0]` leaves the mutated tree `rtT4after`, which fails
`check_integrity` (a one-child directory whose parent box is no longer
tight) and the fan-out invariant — the unimplemented
reduce-and-reinsert branch throws after the tree has been changed. -/
theorem claim_C4 :
    check_integrity_ok rtT4 = true ∧ fanout_ok rcfgC4 rtT4 = true ∧
      wfDims 1 rtT4 = true ∧
      erase rcfgC4 rtT4 [0, 0, 0] = .errTodo rtT4after ∧
      check_integrity_ok rtT4after = false ∧
      fanout_ok rcfgC4 rtT4after = false :=
  ⟨by decide, by decide, by decide, by rfl, by decide, by decide⟩

/-- Navigation to the node addressed by a path of child indices, the
way `eraseAux` descends: only through non-leaf directories. -/
def nodeAt : RNode → List Nat → Option RNode
  | t, [] => some t
  | .rdir false _ kids, i :: rest =>
    (match kids.get? i with
    | some c => nodeAt c rest
    | none => none)
  | _, _ => none

/-- Replacing the `i`-th child splits the concatenated value list of a
directory at that child. -/
theorem kidsValues_set (ks : List RNode) (i : Nat) (c c2 : RNode)
    (h : ks.get? i = some c) :
    ∃ A B, kidsValues ks = A ++ (nodeValues c ++ B) ∧
      kidsValues (ks.set i c2) = A ++ (nodeValues c2 ++ B) := by
  induction ks generalizing i with
  | nil => simp at h
  | cons k rest ih =>
    cases i with
    | zero =>
      obtain rfl : k = c := by simpa using h
      exact ⟨[], kidsValues rest, by simp [kidsValues], by simp [kidsValues]⟩
    | succ n =>
      obtain ⟨A, B, h1, h2⟩ := ih n (by simpa using h)
      exact ⟨nodeValues k ++ A, B, by simp [kidsValues, h1],
        by simp [kidsValues, h2]⟩

/-- Removing the `i`-th child removes exactly its block from the
concatenated value list. -/
theorem kidsValues_eraseIdx (ks : List RNode) (i : Nat) (c : RNode)
    (h : ks.get? i = some c) :
    ∃ A B, kidsValues ks = A ++ (nodeValues c ++ B) ∧
      kidsValues (ks.eraseIdx i) = A ++ B := by
  induction ks generalizing i with
  | nil => simp at h
  | cons k rest ih =>
    cases i with
    | zero =>
      obtain rfl : k = c := by simpa using h
      exact ⟨[], kidsValues rest, by simp [kidsValues], by simp [kidsValues]⟩
    | succ n =>
      obtain ⟨A, B, h1, h2⟩ := ih n (by simpa using h)
      exact ⟨nodeValues k ++ A, B, by simp [kidsValues, h1],
        by simp [kidsValues, h2]⟩

/-- The value node at a leaf index is among the leaf directory values. -/
theorem kidsValues_mem_of_get (lk : List RNode) (vi : Nat) (vb : Box) (vv : Nat)
    (h : lk.get? vi = some (.rval vb vv)) : (vb, vv) ∈ kidsValues lk := by
  induction lk generalizing vi with
  | nil => simp at h
  | cons k rest ih =>
    cases vi with
    | zero =>
      obtain rfl : k = .rval vb vv := by simpa using h
      simp [kidsValues, nodeValues]
    | succ n => simp [kidsValues, ih n (by simpa using h)]

/-- The double-underflow erase recursion: navigating along `dpp` to a
non-leaf directory whose `li`-th child is a leaf directory that
underflows when its `vi`-th value is removed, and that itself
underflows when that leaf is dissolved, `eraseAux` reports the
unimplemented-reduction error with the whole leaf (erased value and
orphaned siblings alike) removed from the stored values. -/
theorem eraseAux_todoAt (cfg : RCfg) (dpp : List Nat) (t : RNode)
    (bxD : Box) (dk : List RNode) (li vi : Nat) (lbx vb : Box)
    (lk : List RNode) (vv : Nat)
    (hD : nodeAt t dpp = some (.rdir false bxD dk))
    (hL : dk.get? li = some (.rdir true lbx lk))
    (hV : lk.get? vi = some (.rval vb vv))
    (h1 : (lk.eraseIdx vi).length < cfg.minsz)
    (h2 : (dk.eraseIdx li).length < cfg.minsz) :
    ∃ t2 A B, eraseAux cfg t (dpp ++ [li, vi]) = (t2, .todoErr) ∧
      nodeValues t = A ++ (kidsValues lk ++ B) ∧ nodeValues t2 = A ++ B := by
  induction dpp generalizing t with
  | nil =>
    obtain rfl : t = .rdir false bxD dk := by simpa [nodeAt] using hD
    obtain ⟨A, B, hv1, hv2⟩ := kidsValues_eraseIdx dk li _ hL
    refine ⟨.rdir false (packOf cfg (dk.eraseIdx li)) (dk.eraseIdx li), A, B, ?_, ?_, ?_⟩
    · have hgd : dk.getD li junkNode = .rdir true lbx lk := by
        simp [List.getD, ← List.get?_eq_getElem?, hL]
      simp only [List.nil_append, eraseAux, List.isEmpty_cons, hgd, hV]
      rw [if_neg (show ¬ cfg.minsz ≤ (lk.eraseIdx vi).length from by omega)]
      exact if_pos h2
    · simpa [nodeValues] using hv1
    · simpa [nodeValues] using hv2
  | cons i rest ih =>
    cases t with
    | rval bx v => simp [nodeAt] at hD
    | rdir lf bx kids =>
      cases lf with
      | true => simp [nodeAt] at hD
      | false =>
        simp only [nodeAt] at hD
        rcases hg : kids.get? i with _ | c
        · rw [hg] at hD; simp at hD
        · rw [hg] at hD
          obtain ⟨t2, A, B, he, hval1, hval2⟩ := ih c hD
          obtain ⟨Ao, Bo, ho1, ho2⟩ := kidsValues_set kids i c t2 hg
          refine ⟨.rdir false bx (kids.set i t2), Ao ++ A, B ++ Bo, ?_, ?_, ?_⟩
          · have hgd : kids.getD i junkNode = c := by
              simp [List.getD, ← List.get?_eq_getElem?, hg]
            have hne : (rest ++ [li, vi]).isEmpty = false := by
              cases rest <;> rfl
            simp only [List.cons_append, eraseAux, List.append_eq, hgd, hne,
              Bool.false_eq_true, if_false, he]
          · simp [nodeValues, ho1, hval1]
          · simp [nodeValues, ho2, hval2]

/-- Claim C10 holds of the code: when erasing a value underflows its
non-root leaf directory and dissolving that leaf underflows the parent
directory, the public `erase` throws the
`"TODO: reduce tree and perform re-insertion."` runtime error after
mutating the tree — the resulting container has lost the erased value
and all orphaned sibling values of the dissolved leaf, which are never
reinserted. -/
theorem claim_C10 (cfg : RCfg) (dpp : List Nat) (t : RNode)
    (bxD : Box) (dk : List RNode) (li vi : Nat) (lbx vb : Box)
    (lk : List RNode) (vv : Nat)
    (hD : nodeAt t dpp = some (.rdir false bxD dk))
    (hL : dk.get? li = some (.rdir true lbx lk))
    (hV : lk.get? vi = some (.rval vb vv))
    (h1 : (lk.eraseIdx vi).length < cfg.minsz)
    (h2 : (dk.eraseIdx li).length < cfg.minsz) :
    ∃ t2 A B, erase cfg t (dpp ++ [li, vi]) = .errTodo t2 ∧
      nodeValues t = A ++ (kidsValues lk ++ B) ∧ nodeValues t2 = A ++ B ∧
      (vb, vv) ∈ kidsValues lk := by
  obtain ⟨t2, A, B, he, hv1, hv2⟩ :=
    eraseAux_todoAt cfg dpp t bxD dk li vi lbx vb lk vv hD hL hV h1 h2
  have hmem := kidsValues_mem_of_get lk vi vb vv hV
  have htf : ∃ bx0 kids0, t = RNode.rdir false bx0 kids0 := by
    cases dpp with
    | nil =>
      obtain rfl : t = .rdir false bxD dk := by simpa [nodeAt] using hD
      exact ⟨_, _, rfl⟩
    | cons i rest =>
      cases t with
      | rval bx v => simp [nodeAt] at hD
      | rdir lf bx kids =>
        cases lf with
        | true => simp [nodeAt] at hD
        | false => exact ⟨_, _, rfl⟩
  obtain ⟨bx0, kids0, rfl⟩ := htf
  refine ⟨t2, A, B, ?_, hv1, hv2, hmem⟩
  cases dpp with
  | nil =>
    simp only [List.nil_append] at he
    simp only [List.nil_append, erase, he]
  | cons i rest =>
    simp only [List.cons_append] at he
    simp only [List.cons_append, erase, he]

/-- Claim C10 witness: the non-atomic erase failure on a concrete tree
of four values with `min_node_size = 2` — erasing value 1 at path
`[0, 0]` discards value 2 as well. -/
theorem claim_C10_witness :
    ∃ t2 A B,
      erase ⟨1, 2, 4, 10⟩
        (.rdir false [(0, 10)]
          [.rdir true [(0, 3)] [.rval [(0, 1)] 1, .rval [(2, 3)] 2],
           .rdir true [(4, 10)] [.rval [(4, 5)] 3, .rval [(6, 10)] 4]])
        [0, 0] = .errTodo t2 ∧
      nodeValues
        (.rdir false [(0, 10)]
          [.rdir true [(0, 3)] [.rval [(0, 1)] 1, .rval [(2, 3)] 2],
           .rdir true [(4, 10)] [.rval [(4, 5)] 3, .rval [(6, 10)] 4]]) =
        A ++ (kidsValues [RNode.rval [(0, 1)] 1, RNode.rval [(2, 3)] 2] ++ B) ∧
      nodeValues t2 = A ++ B ∧
      ([(0, 1)], 1) ∈ kidsValues [RNode.rval [(0, 1)] 1, RNode.rval [(2, 3)] 2] :=
  claim_C10 ⟨1, 2, 4, 10⟩ [] _ [(0, 10)]
    [.rdir true [(0, 3)] [.rval [(0, 1)] 1, .rval [(2, 3)] 2],
     .rdir true [(4, 10)] [.rval [(4, 5)] 3, .rval [(6, 10)] 4]]
    0 0 [(0, 3)] [(0, 1)]
    [.rval [(0, 1)] 1, .rval [(2, 3)] 2] 1
    rfl rfl rfl (by decide) (by decide)

end Rt

set_option linter.unusedVariables false

namespace ST

/-- A stored segment: (begin key, end key, data handle).  Keys are `Int`;
data handles are `Nat`, standing for the `data_type*` pointers the
container stores but never dereferences. -/
abbrev Seg := Int × Int × Nat

/-- Insertion of one key into a sorted list; models the effect of
`std::sort` on the endpoint vector. -/
def insSorted (x : Int) : List Int → List Int
  | [] => [x]
  | y :: ys => if x ≤ y then x :: y :: ys else y :: insSorted x ys

def sortInts : List Int → List Int
  | [] => []
  | x :: xs => insSorted x (sortInts xs)

/-- `std::unique` on a sorted list: drop adjacent duplicates. -/
def dedupInts : List Int → List Int
  | [] => []
  | [x] => [x]
  | x :: y :: rest => if x = y then dedupInts (y :: rest) else x :: dedupInts (y :: rest)

/-- The endpoint keys pushed per segment, in segment order
(`build_leaf_nodes`, segmenttree.hpp lines 412-420). -/
def endpointKeys : List Seg → List Int
  | [] => []
  | (b, e, _) :: rest => b :: e :: endpointKeys rest

/-- The sorted, de-duplicated leaf keys (`build_leaf_nodes`, lines 422-424). -/
def stKeys (segs : List Seg) : List Int :=
  dedupInts (sortInts (endpointKeys segs))

/-- The non-leaf tree over the leaf chain.  Leaves are referenced by their
index in the key chain; each non-leaf stores its `[low, high)` range and
its data-label chain.  `nd1` is a node whose right child pointer is null. -/
inductive TTr where
  | lf (i : Nat)
  | nd1 (lo hi : Int) (labels : List Nat) (l : TTr)
  | nd2 (lo hi : Int) (labels : List Nat) (l : TTr) (r : TTr)
deriving DecidableEq, Repr

/-- The key of the leaf following leaf `i` in the chain, or leaf `i`'s own
key when no such leaf exists. -/
def keyAfter (keys : List Int) (i : Nat) : Int :=
  if i + 1 < keys.length then keys.getD (i + 1) 0 else keys.getD i 0

/-- `low` of a child as read by `fill_nonleaf_value` (segmenttree.hpp
lines 116-124): a leaf contributes its key, a non-leaf its `low`. -/
def lowOf (keys : List Int) : TTr → Int
  | .lf i => keys.getD i 0
  | .nd1 lo _ _ _ => lo
  | .nd2 lo _ _ _ _ => lo

/-- `high` of the left child when the right child pointer is null
(`fill_nonleaf_value`, line 144). -/
def highOf (keys : List Int) : TTr → Int
  | .lf i => keys.getD i 0
  | .nd1 _ hi _ _ => hi
  | .nd2 _ hi _ _ _ => hi

/-- `high` taken from a right child (`fill_nonleaf_value`, lines 125-142):
for a leaf, the key of the next leaf in the chain (or its own key when
none exists); for a non-leaf, its `high`. -/
def highAsRight (keys : List Int) : TTr → Int
  | .lf i => keyAfter keys i
  | .nd1 _ hi _ _ => hi
  | .nd2 _ hi _ _ _ => hi

def mkNode2 (keys : List Int) (l r : TTr) : TTr :=
  .nd2 (lowOf keys l) (highAsRight keys r) [] l r

def mkNode1 (keys : List Int) (l : TTr) : TTr :=
  .nd1 (lowOf keys l) (highOf keys l) [] l

/-- One level of the bottom-up pairing.  Modelled from the spec: the
generic balanced-tree builder (`mdds::build_tree` of node.hpp) is not
among the staged sources; §3 specifies that the tree "is rebuilt from the
leaf chain in O(n) by bottom-up pairing", node ranges being set by
`fill_nonleaf_value`, which is in segmenttree.hpp. -/
def pairUp (keys : List Int) : List TTr → List TTr
  | [] => []
  | [a] => [mkNode1 keys a]
  | a :: b :: rest => mkNode2 keys a b :: pairUp keys rest

/-- Repeat the pairing until a single root remains (fuelled). -/
def buildLevels (keys : List Int) : Nat → List TTr → Option TTr
  | _, [] => none
  | _, [t] => some t
  | 0, _ :: _ :: _ => none
  | fuel + 1, t1 :: t2 :: ts => buildLevels keys fuel (pairUp keys (t1 :: t2 :: ts))

/-- The list of `k` consecutive leaves starting at index `i`. -/
def lfSeq (i : Nat) : Nat → List TTr
  | 0 => []
  | k + 1 => .lf i :: lfSeq (i + 1) k

def leafLevel (n : Nat) : List TTr := lfSeq 0 n

/-- The root of the balanced tree over `keys`; null when fewer than two
keys exist (`create_leaf_node_instances`, lines 432-434). -/
def buildRoot (keys : List Int) : Option TTr :=
  if keys.length < 2 then none
  else buildLevels keys keys.length (leafLevel keys.length)

/-- A node reference as recorded in the tagged-node bookkeeping: either a
leaf (by chain index) or a non-leaf (by its path of child steps from the
root, `false` = left, `true` = right). -/
abbrev NodeRef := Sum Nat (List Bool)

instance : BEq NodeRef := ⟨fun a b => decide (a = b)⟩

instance : LawfulBEq NodeRef :=
  ⟨fun {a b} h => by simpa using h, fun {a} => by simp [BEq.beq]⟩

/-- `descend_tree_and_mark` (segmenttree.hpp lines 350-403) for one
segment `[b, e)` with handle `h`: returns the relabelled tree, the updated
leaf chains and the references of the nodes that received the handle, in
push order.  At a leaf whose key equals `b` the handle goes to that leaf's
chain; at a leaf whose key equals `e` it goes to the previous leaf's chain
unless that leaf's key equals `b`; a non-leaf range fully covered in the
sense `b ≤ low ∧ high < e` is labelled and the descent stops there. -/
def markAux (keys : List Int) (b e : Int) (h : Nat) :
    TTr → List Bool → List (List Nat) → TTr × List (List Nat) × List NodeRef
  | .lf i, _, ch =>
      if keys.getD i 0 = b then
        (.lf i, ch.set i (ch.getD i [] ++ [h]), [.inl i])
      else if keys.getD i 0 = e then
        if i = 0 then (.lf i, ch, [])
        else if keys.getD (i - 1) 0 = b then (.lf i, ch, [])
        else (.lf i, ch.set (i - 1) (ch.getD (i - 1) [] ++ [h]), [.inl (i - 1)])
      else (.lf i, ch, [])
  | .nd1 lo hi labels l, path, ch =>
      if e < lo ∨ hi ≤ b then (.nd1 lo hi labels l, ch, [])
      else if b ≤ lo ∧ hi < e then (.nd1 lo hi (labels ++ [h]) l, ch, [.inr path])
      else
        let res := markAux keys b e h l (path ++ [false]) ch
        (.nd1 lo hi labels res.1, res.2.1, res.2.2)
  | .nd2 lo hi labels l r, path, ch =>
      if e < lo ∨ hi ≤ b then (.nd2 lo hi labels l r, ch, [])
      else if b ≤ lo ∧ hi < e then (.nd2 lo hi (labels ++ [h]) l r, ch, [.inr path])
      else
        let resL := markAux keys b e h l (path ++ [false]) ch
        let resR := markAux keys b e h r (path ++ [true]) resL.2.1
        (.nd2 lo hi labels resL.1 resR.1, resR.2.1, resL.2.2 ++ resR.2.2)

/-- Insert-or-extend in the tagged-node map (the `ptr_map::insert` +
append pattern of `build_tree`, lines 336-344). -/
def tagAdd : List (Nat × List NodeRef) → Nat → List NodeRef → List (Nat × List NodeRef)
  | [], h, ps => [(h, ps)]
  | (g, qs) :: rest, h, ps =>
      if g = h then (g, qs ++ ps) :: rest else (g, qs) :: tagAdd rest h ps

/-- Mark every stored segment from the root, in insertion order
(the loop of `build_tree`, lines 333-344). -/
def markAll (keys : List Int) :
    List Seg → TTr → List (List Nat) → List (Nat × List NodeRef) →
    TTr × List (List Nat) × List (Nat × List NodeRef)
  | [], t, ch, m => (t, ch, m)
  | (b, e, h) :: rest, t, ch, m =>
      let res := markAux keys b e h t [] ch
      markAll keys rest res.1 res.2.1 (tagAdd m h res.2.2)

/-- The container state: the segment buffer, the leaf chain (keys and
per-leaf data chains), the root, the tagged-node map and the valid bit. -/
structure SegTree where
  segs : List Seg
  keys : List Int
  chains : List (List Nat)
  root : Option TTr
  tagged : List (Nat × List NodeRef)
  validTree : Bool
deriving DecidableEq, Repr

def emptySegTree : SegTree := ⟨[], [], [], none, [], false⟩

/-- A container holding `segs` in its segment buffer, before any build. -/
def initST (segs : List Seg) : SegTree := ⟨segs, [], [], none, [], false⟩

/-- `segment_tree::insert` (lines 464-472): `b ≥ e` is a no-op; otherwise
the segment is appended and the tree invalidated. -/
def insertOp (st : SegTree) (b e : Int) (h : Nat) : SegTree :=
  if b < e then { st with segs := st.segs ++ [(b, e, h)], validTree := false } else st

/-- `segment_tree::build_tree` (lines 325-348): rebuild the leaf chain and
the balanced tree, then mark every stored segment; the valid bit is set in
every case, even when fewer than two keys exist and the root stays null. -/
def buildTreeOp (st : SegTree) : SegTree :=
  let keys := stKeys st.segs
  match buildRoot keys with
  | none =>
      { st with
          root := none,
          tagged := st.segs.foldl (fun m s => tagAdd m s.2.2 []) [],
          validTree := true }
  | some t0 =>
      let res := markAll keys st.segs t0 (keys.map fun _ => ([] : List Nat)) []
      { st with
          keys := keys, chains := res.2.1, root := some res.1,
          tagged := res.2.2, validTree := true }

def isLf : TTr → Bool
  | .lf _ => true
  | _ => false

/-- The `value_leaf.key` read off a node assumed to be a leaf
(`descend_tree_for_search` reads the right sibling this way); reading a
non-leaf yields an unspecified value, modelled as 0. -/
def leafKey (keys : List Int) : TTr → Int
  | .lf i => keys.getD i 0
  | _ => 0

/-- The leaf-chain index read off a node assumed to be a leaf; reading a
non-leaf yields an unspecified value, modelled as 0. -/
def leafIdx : TTr → Nat
  | .lf i => i
  | _ => 0

/-- `descend_tree_for_search` (segmenttree.hpp lines 526-579): accumulate
the chains of the visited nodes.  At a non-leaf, return unless
`low ≤ p < high`; append the labels; then follow exactly one child,
dispatching on `pchild->is_leaf`: with leaf children, the right one iff
its key is `≤ p` (a point left of the left leaf's key returns); with
non-leaf children, the right one iff the left child's `high ≤ p`
(descending a null right pointer returns at the null check). -/
def searchDescend (keys : List Int) (chains : List (List Nat)) (p : Int) :
    TTr → List Nat → List Nat
  | .lf i, acc => acc ++ chains.getD i []
  | .nd1 lo hi labels l, acc =>
      if p < lo ∨ hi ≤ p then acc
      else if isLf l then
        if p < leafKey keys l then acc ++ labels
        else (acc ++ labels) ++ chains.getD (leafIdx l) []
      else
        if p < lowOf keys l then acc ++ labels
        else if highOf keys l ≤ p then acc ++ labels
        else searchDescend keys chains p l (acc ++ labels)
  | .nd2 lo hi labels l r, acc =>
      if p < lo ∨ hi ≤ p then acc
      else if isLf l then
        if p < leafKey keys l then acc ++ labels
        else if leafKey keys r ≤ p then searchDescend keys chains p r (acc ++ labels)
        else searchDescend keys chains p l (acc ++ labels)
      else
        if p < lowOf keys l then acc ++ labels
        else if highOf keys l ≤ p then searchDescend keys chains p r (acc ++ labels)
        else searchDescend keys chains p l (acc ++ labels)

/-- `segment_tree::search` (lines 474-489): fails when the valid bit is
clear or the root is null; otherwise returns the accumulated chains. -/
def searchOp (st : SegTree) (p : Int) : Option (List Nat) :=
  if st.validTree = false then none
  else
    match st.root with
    | none => none
    | some t => some (searchDescend st.keys st.chains p t [])

/-- `std::list::remove(pdata)`: delete every occurrence of the handle. -/
def chainFilter (c : List Nat) (h : Nat) : List Nat :=
  c.filter fun x => x ≠ h

/-- The labels stored at the non-leaf reached by `path` from `t` (empty
when the path leads nowhere). -/
def labelsAt : TTr → List Bool → List Nat
  | .nd1 _ _ labels _, [] => labels
  | .nd2 _ _ labels _ _, [] => labels
  | .nd1 _ _ _ l, false :: rest => labelsAt l rest
  | .nd2 _ _ _ l _, false :: rest => labelsAt l rest
  | .nd2 _ _ _ _ r, true :: rest => labelsAt r rest
  | _, _ => []

/-- Delete every occurrence of `h` from the labels of the non-leaf at
`path` (no-op when the path leads nowhere). -/
def removeAt : TTr → List Bool → Nat → TTr
  | .lf i, _, _ => .lf i
  | .nd1 lo hi labels l, [], h => .nd1 lo hi (chainFilter labels h) l
  | .nd2 lo hi labels l r, [], h => .nd2 lo hi (chainFilter labels h) l r
  | .nd1 lo hi labels l, false :: rest, h => .nd1 lo hi labels (removeAt l rest h)
  | .nd1 lo hi labels l, true :: _, _ => .nd1 lo hi labels l
  | .nd2 lo hi labels l r, false :: rest, h => .nd2 lo hi labels (removeAt l rest h) r
  | .nd2 lo hi labels l r, true :: rest, h => .nd2 lo hi labels l (removeAt r rest h)

/-- Lookup in the tagged-node map (`m_tagged_node_map.find`). -/
def findTag : List (Nat × List NodeRef) → Nat → Option (List NodeRef)
  | [], _ => none
  | (g, ps) :: rest, h => if g = h then some ps else findTag rest h

/-- The node list of a handle, empty when the handle is absent. -/
def refsOf (m : List (Nat × List NodeRef)) (h : Nat) : List NodeRef :=
  (findTag m h).getD []

/-- One step of `remove_data_from_nodes` (lines 506-524): delete every
occurrence of the handle from the chain of the referenced node. -/
def removeStep (h : Nat) (st : SegTree) : NodeRef → SegTree
  | .inl i => { st with chains := st.chains.set i (chainFilter (st.chains.getD i []) h) }
  | .inr path => { st with root := st.root.map fun t => removeAt t path h }

/-- `segment_tree::remove` (lines 491-504): look up the handle's node
list; when absent do nothing, otherwise strip the handle from each
recorded node's chain.  The valid bit is untouched. -/
def removeOp (st : SegTree) (h : Nat) : SegTree :=
  match findTag st.tagged h with
  | none => st
  | some refs => refs.foldl (removeStep h) st

end ST

namespace ST

theorem getD_set_mem (ch : List (List Nat)) (i j : Nat) (v : List Nat) (g : Nat)
    (hg : g ∈ (ch.set i v).getD j []) : g ∈ ch.getD j [] ∨ (j = i ∧ g ∈ v) := by
  by_cases hij : i = j
  · subst hij
    by_cases hlen : i < ch.length
    · right
      refine ⟨rfl, ?_⟩
      simpa [List.getD, List.get?_eq_getElem?, List.getElem?_set_self', hlen] using hg
    · left
      rwa [List.set_eq_of_length_le (by omega)] at hg
  · left
    rwa [List.getD, List.get?_eq_getElem?, List.getElem?_set_ne hij,
      ← List.get?_eq_getElem?, ← List.getD] at hg

theorem getD_set_filter (ch : List (List Nat)) (i j : Nat) (h : Nat) :
    (ch.set i (chainFilter (ch.getD i []) h)).getD j [] =
      if j = i then chainFilter (ch.getD j []) h else ch.getD j [] := by
  by_cases hij : j = i
  · subst hij
    simp only [if_pos rfl]
    by_cases hlen : j < ch.length
    · simp [List.getD, List.get?_eq_getElem?, List.getElem?_set_self', hlen]
    · rw [List.set_eq_of_length_le (by omega)]
      have hnone : ch[j]? = none := List.getElem?_eq_none (by omega)
      simp [List.getD, List.get?_eq_getElem?, hnone, chainFilter]
  · rw [if_neg hij, List.getD, List.get?_eq_getElem?,
      List.getElem?_set_ne (fun hh => hij hh.symm), ← List.get?_eq_getElem?, ← List.getD]

theorem chainFilter_idem (c : List Nat) (h : Nat) :
    chainFilter (chainFilter c h) h = chainFilter c h := by
  simp [chainFilter, List.filter_filter]

theorem chainFilter_of_not_mem (c : List Nat) (h : Nat) (hc : h ∉ c) :
    chainFilter c h = c := by
  rw [chainFilter, List.filter_eq_self]
  intro a ha
  have : a ≠ h := by
    intro hh
    subst hh
    exact hc ha
  simp [this]

theorem chainFilter_append (c d : List Nat) (h : Nat) :
    chainFilter (c ++ d) h = chainFilter c h ++ chainFilter d h := by
  simp [chainFilter]

theorem mem_chainFilter (c : List Nat) (h g : Nat) :
    g ∈ chainFilter c h ↔ g ∈ c ∧ g ≠ h := by
  simp [chainFilter]

theorem insSorted_mem (x y : Int) (l : List Int) :
    y ∈ insSorted x l ↔ y = x ∨ y ∈ l := by
  induction l with
  | nil => simp [insSorted]
  | cons a rest ih =>
    by_cases hxa : x ≤ a
    · simp [insSorted, hxa]
    · simp only [insSorted, if_neg hxa, List.mem_cons, ih]
      tauto

theorem insSorted_sorted (x : Int) (l : List Int) (hl : List.Pairwise (· ≤ ·) l) :
    List.Pairwise (· ≤ ·) (insSorted x l) := by
  induction l with
  | nil => simp [insSorted]
  | cons a rest ih =>
    rcases List.pairwise_cons.mp hl with ⟨ha, hrest⟩
    by_cases hxa : x ≤ a
    · rw [insSorted, if_pos hxa]
      refine List.pairwise_cons.mpr ⟨?_, hl⟩
      intro z hz
      rcases List.mem_cons.mp hz with rfl | hz2
      · exact hxa
      · exact le_trans hxa (ha z hz2)
    · rw [insSorted, if_neg hxa]
      refine List.pairwise_cons.mpr ⟨?_, ih hrest⟩
      intro z hz
      rcases (insSorted_mem x z rest).mp hz with rfl | hz2
      · omega
      · exact ha z hz2

theorem sortInts_mem (y : Int) (l : List Int) : y ∈ sortInts l ↔ y ∈ l := by
  induction l with
  | nil => simp [sortInts]
  | cons a rest ih => simp [sortInts, insSorted_mem, ih]

theorem sortInts_sorted (l : List Int) : List.Pairwise (· ≤ ·) (sortInts l) := by
  induction l with
  | nil => simp [sortInts]
  | cons a rest ih => exact insSorted_sorted a (sortInts rest) ih

theorem dedupInts_mem (y : Int) : (l : List Int) → (y ∈ dedupInts l ↔ y ∈ l)
  | [] => by simp [dedupInts]
  | [x] => by simp [dedupInts]
  | x :: z :: rest => by
    by_cases hxz : x = z
    · subst hxz
      rw [dedupInts, if_pos rfl]
      rw [dedupInts_mem y (x :: rest)]
      simp only [List.mem_cons]
      tauto
    · rw [dedupInts, if_neg hxz, List.mem_cons, dedupInts_mem y (z :: rest), List.mem_cons]
      simp

theorem dedupInts_strict : (l : List Int) → List.Pairwise (· ≤ ·) l →
    List.Pairwise (· < ·) (dedupInts l)
  | [], _ => by simp [dedupInts]
  | [x], _ => by simp [dedupInts]
  | x :: z :: rest, hl => by
    by_cases hxz : x = z
    · subst hxz
      rw [dedupInts, if_pos rfl]
      exact dedupInts_strict (x :: rest) (List.pairwise_cons.mp hl).2
    · rw [dedupInts, if_neg hxz]
      rcases List.pairwise_cons.mp hl with ⟨hx, hrest⟩
      refine List.pairwise_cons.mpr ⟨?_, dedupInts_strict (z :: rest) hrest⟩
      intro w hw
      have hw2 : w ∈ z :: rest := (dedupInts_mem w (z :: rest)).mp hw
      have hxw : x ≤ w := hx w hw2
      rcases List.mem_cons.mp hw2 with rfl | hw3
      · exact lt_of_le_of_ne hxw hxz
      · have hzw : z ≤ w := (List.pairwise_cons.mp hrest).1 w hw3
        have hxz2 : x ≤ z := hx z (List.mem_cons_self z rest)
        omega

theorem stKeys_sorted (segs : List Seg) : List.Pairwise (· < ·) (stKeys segs) :=
  dedupInts_strict _ (sortInts_sorted _)

theorem mem_endpointKeys (segs : List Seg) (b e : Int) (h : Nat)
    (hs : (b, e, h) ∈ segs) : b ∈ endpointKeys segs ∧ e ∈ endpointKeys segs := by
  induction segs with
  | nil => cases hs
  | cons s rest ih =>
    rcases List.mem_cons.mp hs with rfl | hs2
    · simp [endpointKeys]
    · obtain ⟨s1, s2, s3⟩ := s
      have := ih hs2
      simp [endpointKeys, this.1, this.2]

theorem mem_stKeys (segs : List Seg) (b e : Int) (h : Nat)
    (hs : (b, e, h) ∈ segs) : b ∈ stKeys segs ∧ e ∈ stKeys segs := by
  have := mem_endpointKeys segs b e h hs
  rw [stKeys]
  rw [dedupInts_mem, sortInts_mem, dedupInts_mem, sortInts_mem]
  exact this

end ST

namespace ST

theorem getD_eq_get (l : List Int) (i : Nat) (hi : i < l.length) :
    l.getD i 0 = l.get ⟨i, hi⟩ := by
  simp [List.getD, List.get?_eq_getElem?, List.getElem?_eq_getElem hi]

theorem sorted_next_le (keys : List Int) (hs : List.Pairwise (· < ·) keys)
    (e : Int) (he : e ∈ keys) (i : Nat) (hi : i < keys.length)
    (hlt : keys.getD i 0 < e) : i + 1 < keys.length ∧ keys.getD (i + 1) 0 ≤ e := by
  obtain ⟨⟨j, hj⟩, hje⟩ := List.mem_iff_get.mp he
  rw [getD_eq_get keys i hi] at hlt
  have hij : i < j := by
    by_contra hc
    push_neg at hc
    rcases Nat.lt_or_ge j i with hji | hji
    · have := List.pairwise_iff_get.mp hs ⟨j, hj⟩ ⟨i, hi⟩ hji
      omega
    · have : j = i := by omega
      subst this
      simp only [hje] at hlt
      omega
  have hlen : i + 1 < keys.length := by omega
  refine ⟨hlen, ?_⟩
  rw [getD_eq_get keys (i + 1) hlen]
  rcases Nat.eq_or_lt_of_le (by omega : i + 1 ≤ j) with heq | hlt2
  · subst heq
    simp [← hje, List.get_eq_getElem]
  · have := List.pairwise_iff_get.mp hs ⟨i + 1, hlen⟩ ⟨j, hj⟩ hlt2
    simp only [hje] at this
    omega

theorem sorted_prev_ge (keys : List Int) (hs : List.Pairwise (· < ·) keys)
    (b : Int) (hb : b ∈ keys) (i : Nat) (hi : i < keys.length)
    (hlt : b < keys.getD i 0) : b ≤ keys.getD (i - 1) 0 := by
  obtain ⟨⟨j, hj⟩, hjb⟩ := List.mem_iff_get.mp hb
  rw [getD_eq_get keys i hi] at hlt
  have hji : j < i := by
    by_contra hc
    push_neg at hc
    rcases Nat.eq_or_lt_of_le hc with heq | hlt2
    · subst heq
      simp only [hjb] at hlt
      omega
    · have := List.pairwise_iff_get.mp hs ⟨i, hi⟩ ⟨j, hj⟩ hlt2
      simp only [hjb] at this
      omega
  have hi1 : i - 1 < keys.length := by omega
  rw [getD_eq_get keys (i - 1) hi1]
  rcases Nat.eq_or_lt_of_le (by omega : j ≤ i - 1) with heq | hlt2
  · subst heq
    simp [← hjb, List.get_eq_getElem]
  · have := List.pairwise_iff_get.mp hs ⟨j, hj⟩ ⟨i - 1, hi1⟩ hlt2
    simp only [hjb] at this
    omega

/-- Claim C8 is false as stated: a freshly built empty container has
`is_tree_valid() = true` (build_tree sets the valid bit unconditionally,
segmenttree.hpp line 347), yet `search` returns false because the root is
null (lines 482-484), so search does not succeed whenever the tree is
valid. -/
theorem claim_C8_counterexample :
    (buildTreeOp emptySegTree).validTree = true ∧
      searchOp (buildTreeOp emptySegTree) 0 = none := by
  constructor
  · rfl
  · rfl

/-- Claim C8, amended: `segment_tree::search` succeeds exactly when the
valid bit is set AND the root node is non-null; validity alone does not
suffice (segmenttree.hpp lines 474-489). -/
theorem claim_C8_amended (st : SegTree) (p : Int) :
    (searchOp st p).isSome = (st.validTree && st.root.isSome) := by
  rw [searchOp]
  cases hv : st.validTree with
  | false => simp
  | true => cases st.root <;> simp

end ST

namespace ST

/-- Index of the leftmost leaf under a node. -/
def firstLeaf : TTr → Nat
  | .lf i => i
  | .nd1 _ _ _ l => firstLeaf l
  | .nd2 _ _ _ l _ => firstLeaf l

/-- Index of the rightmost leaf under a node. -/
def lastLeaf : TTr → Nat
  | .lf i => i
  | .nd1 _ _ _ l => lastLeaf l
  | .nd2 _ _ _ _ r => lastLeaf r

def isNd1 : TTr → Bool
  | .nd1 _ _ _ _ => true
  | _ => false

/-- A node's stored `high` is the key following its rightmost leaf. -/
def HiOK (keys : List Int) (t : TTr) : Prop :=
  highOf keys t = keyAfter keys (lastLeaf t)

/-- Structural well-formedness of a tree produced by the bottom-up build:
stored ranges agree with `fill_nonleaf_value` over the leaf chain, the two
children of a binary node cover consecutive leaf runs and are of the same
kind, and a left child is never a right-null node. -/
def TShape (keys : List Int) : TTr → Prop
  | .lf i => i < keys.length
  | .nd1 lo hi _ l => TShape keys l ∧ lo = lowOf keys l ∧ hi = highOf keys l
  | .nd2 lo hi _ l r =>
      TShape keys l ∧ TShape keys r ∧ lo = lowOf keys l ∧ hi = highAsRight keys r ∧
        lastLeaf l + 1 = firstLeaf r ∧ isLf l = isLf r ∧ isNd1 l = false ∧
        (isLf l = false → highOf keys l = keyAfter keys (lastLeaf l))

/-- Well-formedness of one non-leaf level of the build, starting at leaf
index `j`: consecutive nodes cover consecutive leaf runs, the level ends
exactly at the last leaf, and only the last node may be right-null. -/
def LevelChain (keys : List Int) : List TTr → Nat → Prop
  | [], j => j = keys.length
  | t :: rest, j =>
      firstLeaf t = j ∧ TShape keys t ∧ isLf t = false ∧ HiOK keys t ∧
        (rest = [] ∨ isNd1 t = false) ∧ LevelChain keys rest (lastLeaf t + 1)

theorem shape_last_lt (keys : List Int) : (t : TTr) → TShape keys t →
    lastLeaf t < keys.length
  | .lf i, h => h
  | .nd1 _ _ _ l, h => shape_last_lt keys l h.1
  | .nd2 _ _ _ l r, h => shape_last_lt keys r h.2.1

theorem shape_first_lt (keys : List Int) : (t : TTr) → TShape keys t →
    firstLeaf t < keys.length
  | .lf i, h => h
  | .nd1 _ _ _ l, h => shape_first_lt keys l h.1
  | .nd2 _ _ _ l r, h => shape_first_lt keys l h.1

theorem shape_lowOf (keys : List Int) : (t : TTr) → TShape keys t →
    lowOf keys t = keys.getD (firstLeaf t) 0
  | .lf i, _ => rfl
  | .nd1 lo _ _ l, h => by
    rw [lowOf, h.2.1, shape_lowOf keys l h.1]
    rfl
  | .nd2 lo _ _ l r, h => by
    rw [lowOf, h.2.2.1, shape_lowOf keys l h.1]
    rfl

theorem pairUp_lfSeq (keys : List Int) : (k i : Nat) → 1 ≤ k → i + k = keys.length →
    LevelChain keys (pairUp keys (lfSeq i k)) i
  | 0, i, h1, _ => by omega
  | 1, i, _, h2 => by
    show LevelChain keys [mkNode1 keys (.lf i)] i
    refine ⟨rfl, ⟨by simp [TShape]; omega, rfl, rfl⟩, rfl, ?_, Or.inl rfl, ?_⟩
    · show highOf keys (mkNode1 keys (.lf i)) = keyAfter keys (lastLeaf (mkNode1 keys (.lf i)))
      simp only [mkNode1, highOf, lastLeaf, keyAfter]
      rw [if_neg (by omega)]
    · show lastLeaf (mkNode1 keys (.lf i)) + 1 = keys.length
      simp only [mkNode1, lastLeaf]
      omega
  | k + 2, i, _, h2 => by
    show LevelChain keys
      (mkNode2 keys (.lf i) (.lf (i + 1)) :: pairUp keys (lfSeq (i + 2) k)) i
    have hsh : TShape keys (mkNode2 keys (.lf i) (.lf (i + 1))) := by
      refine ⟨by simp [TShape]; omega, by simp [TShape]; omega, rfl, rfl, ?_, rfl, rfl, ?_⟩
      · simp [lastLeaf, firstLeaf]
      · intro hc
        simp [isLf] at hc
    have hhi : HiOK keys (mkNode2 keys (.lf i) (.lf (i + 1))) := rfl
    have hlast : lastLeaf (mkNode2 keys (.lf i) (.lf (i + 1))) = i + 1 := rfl
    refine ⟨rfl, hsh, rfl, hhi, Or.inr rfl, ?_⟩
    rw [hlast]
    match k with
    | 0 =>
      show LevelChain keys [] (i + 1 + 1)
      show i + 1 + 1 = keys.length
      omega
    | k' + 1 =>
      exact pairUp_lfSeq keys (k' + 1) (i + 2) (by omega) (by omega)

theorem pairUp_level (keys : List Int) : (ts : List TTr) → (j : Nat) →
    LevelChain keys ts j → 1 ≤ ts.length → LevelChain keys (pairUp keys ts) j
  | [], j, h, hl => by simp at hl
  | [a], j, h, _ => by
    obtain ⟨h1, h2, h3, h4, _, h6⟩ := h
    have h6' : lastLeaf a + 1 = keys.length := h6
    show LevelChain keys [mkNode1 keys a] j
    refine ⟨h1, ⟨h2, rfl, rfl⟩, rfl, ?_, Or.inl rfl, ?_⟩
    · exact h4
    · show lastLeaf (mkNode1 keys a) + 1 = keys.length
      exact h6'
  | a :: b :: rest, j, h, _ => by
    obtain ⟨h1, h2, h3, h4, h5, hbr⟩ := h
    obtain ⟨g1, g2, g3, g4, g5, grest⟩ := hbr
    have h5' : isNd1 a = false := by
      rcases h5 with h5 | h5
      · cases h5
      · exact h5
    show LevelChain keys (mkNode2 keys a b :: pairUp keys rest) j
    have hshape : TShape keys (mkNode2 keys a b) :=
      ⟨h2, g2, rfl, rfl, by omega, by rw [h3, g3], h5', fun _ => h4⟩
    have hhi : HiOK keys (mkNode2 keys a b) := by
      show highAsRight keys b = keyAfter keys (lastLeaf b)
      cases b with
      | lf i => simp [isLf] at g3
      | nd1 lo hi lb l => exact g4
      | nd2 lo hi lb l r => exact g4
    have hlast : lastLeaf (mkNode2 keys a b) = lastLeaf b := rfl
    have hfirst : firstLeaf (mkNode2 keys a b) = firstLeaf a := rfl
    match rest, grest with
    | [], grest =>
      have gend : lastLeaf b + 1 = keys.length := grest
      exact ⟨by rw [hfirst, h1], hshape, rfl, hhi, Or.inl rfl, by rw [hlast]; exact gend⟩
    | c :: rest', grest =>
      refine ⟨by rw [hfirst, h1], hshape, rfl, hhi, Or.inr rfl, ?_⟩
      rw [hlast]
      exact pairUp_level keys (c :: rest') (lastLeaf b + 1) grest (by simp)

theorem buildLevels_shape (keys : List Int) : (fuel : Nat) → (ts : List TTr) → (j : Nat) →
    (t : TTr) → LevelChain keys ts j → buildLevels keys fuel ts = some t →
    firstLeaf t = j ∧ lastLeaf t + 1 = keys.length ∧ TShape keys t ∧
      isLf t = false ∧ HiOK keys t
  | _, [], _, _, h, he => by
    rw [buildLevels] at he
    cases he
  | fuel, [a], j, t, h, he => by
    rw [buildLevels] at he
    cases he
    exact ⟨h.1, h.2.2.2.2.2, h.2.1, h.2.2.1, h.2.2.2.1⟩
  | 0, a :: b :: rest, j, t, h, he => by
    rw [buildLevels] at he
    cases he
  | fuel + 1, a :: b :: rest, j, t, h, he => by
    rw [buildLevels] at he
    exact buildLevels_shape keys fuel (pairUp keys (a :: b :: rest)) j t
      (pairUp_level keys (a :: b :: rest) j h (by simp)) he

theorem buildRoot_shape (keys : List Int) (t : TTr) (he : buildRoot keys = some t) :
    2 ≤ keys.length ∧ firstLeaf t = 0 ∧ lastLeaf t + 1 = keys.length ∧
      TShape keys t ∧ isLf t = false ∧ HiOK keys t := by
  rw [buildRoot] at he
  split at he
  · cases he
  · rename_i hlen
    have h2 : 2 ≤ keys.length := by omega
    obtain ⟨n, hn⟩ : ∃ n, keys.length = n + 2 := ⟨keys.length - 2, by omega⟩
    have hlf : leafLevel keys.length = lfSeq 0 keys.length := rfl
    rw [hlf, hn] at he
    have hstep : buildLevels keys (n + 2) (lfSeq 0 (n + 2)) =
        buildLevels keys (n + 1) (pairUp keys (lfSeq 0 (n + 2))) := by
      show buildLevels keys (n + 2) (.lf 0 :: .lf 1 :: lfSeq 2 n) =
        buildLevels keys (n + 1) (pairUp keys (.lf 0 :: .lf 1 :: lfSeq 2 n))
      rw [buildLevels]
    rw [hstep] at he
    have hlc : LevelChain keys (pairUp keys (lfSeq 0 (n + 2))) 0 :=
      pairUp_lfSeq keys (n + 2) 0 (by omega) (by omega)
    have := buildLevels_shape keys (n + 1) _ 0 t hlc he
    exact ⟨h2, this.1, this.2.1, this.2.2.1, this.2.2.2.1, this.2.2.2.2⟩

end ST

namespace ST

/-- Erase every label chain; the structural skeleton of a tree. -/
def stripLabels : TTr → TTr
  | .lf i => .lf i
  | .nd1 lo hi _ l => .nd1 lo hi [] (stripLabels l)
  | .nd2 lo hi _ l r => .nd2 lo hi [] (stripLabels l) (stripLabels r)

theorem firstLeaf_strip : (t : TTr) → firstLeaf (stripLabels t) = firstLeaf t
  | .lf _ => rfl
  | .nd1 _ _ _ l => firstLeaf_strip l
  | .nd2 _ _ _ l _ => firstLeaf_strip l

theorem lastLeaf_strip : (t : TTr) → lastLeaf (stripLabels t) = lastLeaf t
  | .lf _ => rfl
  | .nd1 _ _ _ l => lastLeaf_strip l
  | .nd2 _ _ _ _ r => lastLeaf_strip r

theorem isLf_strip (t : TTr) : isLf (stripLabels t) = isLf t := by
  cases t <;> rfl

theorem isNd1_strip (t : TTr) : isNd1 (stripLabels t) = isNd1 t := by
  cases t <;> rfl

theorem lowOf_strip (keys : List Int) (t : TTr) :
    lowOf keys (stripLabels t) = lowOf keys t := by
  cases t <;> rfl

theorem highOf_strip (keys : List Int) (t : TTr) :
    highOf keys (stripLabels t) = highOf keys t := by
  cases t <;> rfl

theorem highAsRight_strip (keys : List Int) (t : TTr) :
    highAsRight keys (stripLabels t) = highAsRight keys t := by
  cases t <;> rfl

theorem TShape_strip (keys : List Int) : (t : TTr) →
    (TShape keys (stripLabels t) ↔ TShape keys t)
  | .lf i => Iff.rfl
  | .nd1 lo hi lb l => by
    show (TShape keys (stripLabels l) ∧ _ ∧ _) ↔ (TShape keys l ∧ _ ∧ _)
    rw [TShape_strip keys l, lowOf_strip, highOf_strip]
  | .nd2 lo hi lb l r => by
    show (TShape keys (stripLabels l) ∧ TShape keys (stripLabels r) ∧ _) ↔ _
    simp only [TShape_strip keys l, TShape_strip keys r, lowOf_strip, highAsRight_strip,
      lastLeaf_strip, firstLeaf_strip, isLf_strip, isNd1_strip, highOf_strip]
    exact Iff.rfl

theorem shape_of_strip_eq (keys : List Int) (t t' : TTr)
    (hst : stripLabels t' = stripLabels t) (hs : TShape keys t) : TShape keys t' := by
  rw [← TShape_strip] at hs ⊢
  rw [hst]
  exact hs

theorem stripLabels_markAux (keys : List Int) (b e : Int) (h : Nat) :
    (t : TTr) → (path : List Bool) → (ch : List (List Nat)) →
    stripLabels (markAux keys b e h t path ch).1 = stripLabels t
  | .lf i, path, ch => by
    simp only [markAux]
    split
    · rfl
    split
    · split
      · rfl
      split
      · rfl
      · rfl
    · rfl
  | .nd1 lo hi lb l, path, ch => by
    simp only [markAux]
    split
    · rfl
    split
    · rfl
    · show stripLabels (.nd1 lo hi lb (markAux keys b e h l (path ++ [false]) ch).1) = _
      show TTr.nd1 lo hi []
          (stripLabels (markAux keys b e h l (path ++ [false]) ch).1) = _
      rw [stripLabels_markAux keys b e h l (path ++ [false]) ch]
      rfl
  | .nd2 lo hi lb l r, path, ch => by
    simp only [markAux]
    split
    · rfl
    split
    · rfl
    · show TTr.nd2 lo hi []
          (stripLabels (markAux keys b e h l (path ++ [false]) ch).1)
          (stripLabels (markAux keys b e h r (path ++ [true])
            (markAux keys b e h l (path ++ [false]) ch).2.1).1) = _
      rw [stripLabels_markAux keys b e h l (path ++ [false]) ch,
        stripLabels_markAux keys b e h r (path ++ [true]) _]
      rfl

theorem markAux_shape (keys : List Int) (b e : Int) (h : Nat) (t : TTr)
    (path : List Bool) (ch : List (List Nat)) (hs : TShape keys t) :
    TShape keys (markAux keys b e h t path ch).1 :=
  shape_of_strip_eq keys t _ (stripLabels_markAux keys b e h t path ch) hs

/-- A tree carrying no labels anywhere (the state right after the build of
the node layer, before any segment is marked). -/
def cleanT : TTr → Prop
  | .lf _ => True
  | .nd1 _ _ lb l => lb = [] ∧ cleanT l
  | .nd2 _ _ lb l r => lb = [] ∧ cleanT l ∧ cleanT r

theorem lfSeq_clean : (k i : Nat) → ∀ x ∈ lfSeq i k, cleanT x
  | 0, i => by simp [lfSeq]
  | k + 1, i => by
    intro x hx
    rcases List.mem_cons.mp hx with rfl | hx2
    · trivial
    · exact lfSeq_clean k (i + 1) x hx2

theorem pairUp_clean (keys : List Int) : (ts : List TTr) →
    (∀ x ∈ ts, cleanT x) → ∀ y ∈ pairUp keys ts, cleanT y
  | [], _, y, hy => by cases hy
  | [a], h, y, hy => by
    rw [pairUp] at hy
    rcases List.mem_singleton.mp hy with rfl
    exact ⟨rfl, h a (by simp)⟩
  | a :: b :: rest, h, y, hy => by
    rw [pairUp] at hy
    rcases List.mem_cons.mp hy with rfl | hy2
    · exact ⟨rfl, h a (by simp), h b (by simp)⟩
    · exact pairUp_clean keys rest (fun x hx => h x (by simp [hx])) y hy2

theorem buildLevels_clean (keys : List Int) : (fuel : Nat) → (ts : List TTr) → (t : TTr) →
    (∀ x ∈ ts, cleanT x) → buildLevels keys fuel ts = some t → cleanT t
  | _, [], _, _, he => by rw [buildLevels] at he; cases he
  | fuel, [a], t, h, he => by
    rw [buildLevels] at he
    cases he
    exact h a (by simp)
  | 0, a :: b :: rest, t, h, he => by rw [buildLevels] at he; cases he
  | fuel + 1, a :: b :: rest, t, h, he => by
    rw [buildLevels] at he
    exact buildLevels_clean keys fuel _ t (pairUp_clean keys _ h) he

theorem buildRoot_clean (keys : List Int) (t : TTr) (he : buildRoot keys = some t) :
    cleanT t := by
  rw [buildRoot] at he
  split at he
  · cases he
  · exact buildLevels_clean keys keys.length _ t (lfSeq_clean keys.length 0) he

theorem labelsAt_clean : (t : TTr) → cleanT t → ∀ path, labelsAt t path = []
  | .lf _, _, path => by cases path <;> rfl
  | .nd1 lo hi lb l, hc, [] => hc.1
  | .nd1 lo hi lb l, hc, (false :: rest) => labelsAt_clean l hc.2 rest
  | .nd1 lo hi lb l, hc, (true :: rest) => rfl
  | .nd2 lo hi lb l r, hc, [] => hc.1
  | .nd2 lo hi lb l r, hc, (false :: rest) => labelsAt_clean l hc.2.1 rest
  | .nd2 lo hi lb l r, hc, (true :: rest) => labelsAt_clean r hc.2.2 rest

end ST

namespace ST

/-- Soundness of the leaf chains: a handle stored at leaf `i` belongs to a
segment starting at or before `keys[i]` and ending at or after
`keys[i+1]`, which therefore covers the whole stretch `[keys[i], keys[i+1])`. -/
def ChainsOK (segs : List Seg) (keys : List Int) (ch : List (List Nat)) : Prop :=
  ∀ i h, h ∈ ch.getD i [] →
    ∃ b e, (b, e, h) ∈ segs ∧ b ≤ keys.getD i 0 ∧
      i + 1 < keys.length ∧ keys.getD (i + 1) 0 ≤ e

/-- Soundness of the non-leaf labels: a handle labelled on a node with
range `[lo, hi)` belongs to a segment `[b, e)` with `b ≤ lo` and `hi < e`. -/
def LabelsOK (segs : List Seg) : TTr → Prop
  | .lf _ => True
  | .nd1 lo hi labels l =>
      (∀ h ∈ labels, ∃ b e, (b, e, h) ∈ segs ∧ b ≤ lo ∧ hi < e) ∧ LabelsOK segs l
  | .nd2 lo hi labels l r =>
      (∀ h ∈ labels, ∃ b e, (b, e, h) ∈ segs ∧ b ≤ lo ∧ hi < e) ∧
        LabelsOK segs l ∧ LabelsOK segs r

theorem markAux_ok (segs : List Seg) (keys : List Int) (b e : Int) (h : Nat)
    (hmem : (b, e, h) ∈ segs) (hbe : b < e) (hbk : b ∈ keys) (hek : e ∈ keys)
    (hsort : List.Pairwise (· < ·) keys) :
    (t : TTr) → (path : List Bool) → (ch : List (List Nat)) →
    TShape keys t → LabelsOK segs t → ChainsOK segs keys ch →
    LabelsOK segs (markAux keys b e h t path ch).1 ∧
      ChainsOK segs keys (markAux keys b e h t path ch).2.1
  | .lf i, path, ch, hsh, hlb, hch => by
    simp only [markAux]
    by_cases h1 : keys.getD i 0 = b
    · rw [if_pos h1]
      refine ⟨trivial, ?_⟩
      intro i' g hg
      rcases getD_set_mem ch i i' _ g hg with hold | ⟨heq, hnew⟩
      · exact hch i' g hold
      · rw [heq]
        rcases List.mem_append.mp hnew with hold2 | hone
        · exact hch i g hold2
        · rcases List.mem_singleton.mp hone with rfl
          have hi : i < keys.length := hsh
          have hlt : keys.getD i 0 < e := by omega
          obtain ⟨hlen, hle⟩ := sorted_next_le keys hsort e hek i hi hlt
          exact ⟨b, e, hmem, by omega, hlen, hle⟩
    · rw [if_neg h1]
      by_cases h2 : keys.getD i 0 = e
      · rw [if_pos h2]
        by_cases h3 : i = 0
        · rw [if_pos h3]
          exact ⟨trivial, hch⟩
        · rw [if_neg h3]
          by_cases h4 : keys.getD (i - 1) 0 = b
          · rw [if_pos h4]
            exact ⟨trivial, hch⟩
          · rw [if_neg h4]
            refine ⟨trivial, ?_⟩
            intro i' g hg
            rcases getD_set_mem ch (i - 1) i' _ g hg with hold | ⟨heq, hnew⟩
            · exact hch i' g hold
            · rw [heq]
              rcases List.mem_append.mp hnew with hold2 | hone
              · exact hch (i - 1) g hold2
              · rcases List.mem_singleton.mp hone with rfl
                have hi : i < keys.length := hsh
                have hlt : b < keys.getD i 0 := by omega
                have hge := sorted_prev_ge keys hsort b hbk i hi hlt
                have hi1 : i - 1 + 1 = i := by omega
                refine ⟨b, e, hmem, hge, ?_, ?_⟩
                · omega
                · rw [hi1]
                  omega
      · rw [if_neg h2]
        exact ⟨trivial, hch⟩
  | .nd1 lo hi lb l, path, ch, hsh, hlb, hch => by
    simp only [markAux]
    split
    · exact ⟨hlb, hch⟩
    split
    · rename_i hcov
      refine ⟨⟨?_, hlb.2⟩, hch⟩
      intro g hg
      rcases List.mem_append.mp hg with hold | hone
      · exact hlb.1 g hold
      · rcases List.mem_singleton.mp hone with rfl
        exact ⟨b, e, hmem, hcov.1, hcov.2⟩
    · have ih := markAux_ok segs keys b e h hmem hbe hbk hek hsort l
        (path ++ [false]) ch hsh.1 hlb.2 hch
      exact ⟨⟨hlb.1, ih.1⟩, ih.2⟩
  | .nd2 lo hi lb l r, path, ch, hsh, hlb, hch => by
    simp only [markAux]
    split
    · exact ⟨hlb, hch⟩
    split
    · rename_i hcov
      refine ⟨⟨?_, hlb.2.1, hlb.2.2⟩, hch⟩
      intro g hg
      rcases List.mem_append.mp hg with hold | hone
      · exact hlb.1 g hold
      · rcases List.mem_singleton.mp hone with rfl
        exact ⟨b, e, hmem, hcov.1, hcov.2⟩
    · have ihl := markAux_ok segs keys b e h hmem hbe hbk hek hsort l
        (path ++ [false]) ch hsh.1 hlb.2.1 hch
      have ihr := markAux_ok segs keys b e h hmem hbe hbk hek hsort r
        (path ++ [true]) (markAux keys b e h l (path ++ [false]) ch).2.1
        hsh.2.1 hlb.2.2 ihl.2
      exact ⟨⟨hlb.1, ihl.1, ihr.1⟩, ihr.2⟩

theorem stripLabels_markAll (keys : List Int) :
    (rest : List Seg) → (t : TTr) → (ch : List (List Nat)) →
    (m : List (Nat × List NodeRef)) →
    stripLabels (markAll keys rest t ch m).1 = stripLabels t
  | [], t, ch, m => rfl
  | (b, e, h) :: rest, t, ch, m => by
    rw [markAll]
    rw [stripLabels_markAll keys rest _ _ _]
    exact stripLabels_markAux keys b e h t [] ch

theorem markAll_ok (segs : List Seg) (keys : List Int)
    (hsort : List.Pairwise (· < ·) keys)
    (hwf : ∀ s ∈ segs, s.1 < s.2.1)
    (hkeys : ∀ s ∈ segs, s.1 ∈ keys ∧ s.2.1 ∈ keys) :
    (rest : List Seg) → (t : TTr) → (ch : List (List Nat)) →
    (m : List (Nat × List NodeRef)) →
    (∀ s ∈ rest, s ∈ segs) → TShape keys t → LabelsOK segs t → ChainsOK segs keys ch →
    TShape keys (markAll keys rest t ch m).1 ∧
      LabelsOK segs (markAll keys rest t ch m).1 ∧
      ChainsOK segs keys (markAll keys rest t ch m).2.1
  | [], t, ch, m, _, hsh, hlb, hch => ⟨hsh, hlb, hch⟩
  | (b, e, h) :: rest, t, ch, m, hsub, hsh, hlb, hch => by
    rw [markAll]
    have hm : (b, e, h) ∈ segs := hsub _ (by simp)
    have hw : b < e := hwf _ hm
    have hk := hkeys _ hm
    have hstep := markAux_ok segs keys b e h hm hw hk.1 hk.2 hsort t [] ch hsh hlb hch
    exact markAll_ok segs keys hsort hwf hkeys rest _ _ _
      (fun s hs => hsub s (by simp [hs])) (markAux_shape keys b e h t [] ch hsh)
      hstep.1 hstep.2

end ST

namespace ST

theorem stSearchSound (segs : List Seg) (keys : List Int) (ch : List (List Nat))
    (hsort : List.Pairwise (· < ·) keys) (hch : ChainsOK segs keys ch) :
    (t : TTr) → TShape keys t → LabelsOK segs t → isLf t = false →
    ∀ p acc hh, hh ∈ searchDescend keys ch p t acc →
      hh ∈ acc ∨ ∃ b e, (b, e, hh) ∈ segs ∧ b ≤ p ∧ p < e
  | .lf i, _, _, hlf => by simp [isLf] at hlf
  | .nd1 lo hi lb l, hsh, hlb, _ => by
    intro p acc hh hmem
    cases l with
    | lf i =>
      rw [searchDescend] at hmem
      split at hmem
      · exact Or.inl hmem
      rename_i hrange
      rw [not_or, not_lt, not_le] at hrange
      have hlo : lo = keys.getD i 0 := hsh.2.1
      have hhi : hi = keys.getD i 0 := hsh.2.2
      omega
    | nd1 lo2 hi2 lb2 l2 =>
      rw [searchDescend] at hmem
      split at hmem
      · exact Or.inl hmem
      rename_i hrange
      rw [not_or, not_lt, not_le] at hrange
      have hlabels : ∀ g ∈ lb, ∃ b e, (b, e, g) ∈ segs ∧ b ≤ p ∧ p < e := by
        intro g hg
        obtain ⟨b, e, hm, hb, he⟩ := hlb.1 g hg
        exact ⟨b, e, hm, by omega, by omega⟩
      split at hmem
      · rename_i hisl
        simp [isLf] at hisl
      split at hmem
      · rcases List.mem_append.mp hmem with h1 | h2
        · exact Or.inl h1
        · exact Or.inr (hlabels hh h2)
      split at hmem
      · rcases List.mem_append.mp hmem with h1 | h2
        · exact Or.inl h1
        · exact Or.inr (hlabels hh h2)
      · rcases stSearchSound segs keys ch hsort hch _ hsh.1 hlb.2 rfl p _ hh hmem with
          hacc | hs
        · rcases List.mem_append.mp hacc with h1 | h2
          · exact Or.inl h1
          · exact Or.inr (hlabels hh h2)
        · exact Or.inr hs
    | nd2 lo2 hi2 lb2 l2 r2 =>
      rw [searchDescend] at hmem
      split at hmem
      · exact Or.inl hmem
      rename_i hrange
      rw [not_or, not_lt, not_le] at hrange
      have hlabels : ∀ g ∈ lb, ∃ b e, (b, e, g) ∈ segs ∧ b ≤ p ∧ p < e := by
        intro g hg
        obtain ⟨b, e, hm, hb, he⟩ := hlb.1 g hg
        exact ⟨b, e, hm, by omega, by omega⟩
      split at hmem
      · rename_i hisl
        simp [isLf] at hisl
      split at hmem
      · rcases List.mem_append.mp hmem with h1 | h2
        · exact Or.inl h1
        · exact Or.inr (hlabels hh h2)
      split at hmem
      · rcases List.mem_append.mp hmem with h1 | h2
        · exact Or.inl h1
        · exact Or.inr (hlabels hh h2)
      · rcases stSearchSound segs keys ch hsort hch _ hsh.1 hlb.2 rfl p _ hh hmem with
          hacc | hs
        · rcases List.mem_append.mp hacc with h1 | h2
          · exact Or.inl h1
          · exact Or.inr (hlabels hh h2)
        · exact Or.inr hs
  | .nd2 lo hi lb l r, hsh, hlb, _ => by
    intro p acc hh hmem
    cases l with
    | lf i =>
      obtain ⟨hshl, hshr, hloeq, hhieq, hcont, hkind, hnd1, hhiok⟩ := hsh
      have hi_len : i < keys.length := hshl
      obtain ⟨j, rfl⟩ : ∃ j, r = .lf j := by
        cases r with
        | lf j => exact ⟨j, rfl⟩
        | nd1 a b c d => simp [isLf] at hkind
        | nd2 a b c d e => simp [isLf] at hkind
      have hj : j = i + 1 := by
        simp only [lastLeaf, firstLeaf] at hcont
        omega
      subst hj
      rw [searchDescend] at hmem
      split at hmem
      · exact Or.inl hmem
      rename_i hrange
      rw [not_or, not_lt, not_le] at hrange
      have hlabels : ∀ g ∈ lb, ∃ b e, (b, e, g) ∈ segs ∧ b ≤ p ∧ p < e := by
        intro g hg
        obtain ⟨b, e, hm, hb, he⟩ := hlb.1 g hg
        exact ⟨b, e, hm, by omega, by omega⟩
      have hhiv : hi = keyAfter keys (i + 1) := hhieq
      split at hmem
      swap
      · rename_i hisl
        simp [isLf] at hisl
      split at hmem
      · rcases List.mem_append.mp hmem with h1 | h2
        · exact Or.inl h1
        · exact Or.inr (hlabels hh h2)
      rename_i hple
      rw [not_lt] at hple
      have hple2 : keys.getD i 0 ≤ p := by simpa [leafKey] using hple
      split at hmem
      · rename_i hrk
        have hrk2 : keys.getD (i + 1) 0 ≤ p := by simpa [leafKey] using hrk
        rw [searchDescend] at hmem
        rcases List.mem_append.mp hmem with hacc | hcj
        · rcases List.mem_append.mp hacc with h1 | h2
          · exact Or.inl h1
          · exact Or.inr (hlabels hh h2)
        · obtain ⟨b, e, hm, hb, hlen, hle⟩ := hch (i + 1) hh hcj
          refine Or.inr ⟨b, e, hm, by omega, ?_⟩
          rw [hhiv, keyAfter, if_pos hlen] at hrange
          omega
      · rename_i hrk
        have hrk2 : p < keys.getD (i + 1) 0 := by
          rw [not_le] at hrk
          simpa [leafKey] using hrk
        rcases List.mem_append.mp hmem with hacc | hci
        · rcases List.mem_append.mp hacc with h1 | h2
          · exact Or.inl h1
          · exact Or.inr (hlabels hh h2)
        · obtain ⟨b, e, hm, hb, hlen, hle⟩ := hch i hh hci
          exact Or.inr ⟨b, e, hm, by omega, by omega⟩
    | nd1 lo2 hi2 lb2 l2 =>
      obtain ⟨hshl, hshr, hloeq, hhieq, hcont, hkind, hnd1, hhiok⟩ := hsh
      simp [isNd1] at hnd1
    | nd2 lo2 hi2 lb2 l2 r2 =>
      obtain ⟨hshl, hshr, hloeq, hhieq, hcont, hkind, hnd1, hhiok⟩ := hsh
      have hkr : isLf r = false := by
        rw [← hkind]
        rfl
      rw [searchDescend] at hmem
      split at hmem
      · exact Or.inl hmem
      rename_i hrange
      rw [not_or, not_lt, not_le] at hrange
      have hlabels : ∀ g ∈ lb, ∃ b e, (b, e, g) ∈ segs ∧ b ≤ p ∧ p < e := by
        intro g hg
        obtain ⟨b, e, hm, hb, he⟩ := hlb.1 g hg
        exact ⟨b, e, hm, by omega, by omega⟩
      split at hmem
      · rename_i hisl
        simp [isLf] at hisl
      split at hmem
      · rcases List.mem_append.mp hmem with h1 | h2
        · exact Or.inl h1
        · exact Or.inr (hlabels hh h2)
      split at hmem
      · rcases stSearchSound segs keys ch hsort hch r hshr hlb.2.2 hkr p _ hh hmem with
          hacc | hs
        · rcases List.mem_append.mp hacc with h1 | h2
          · exact Or.inl h1
          · exact Or.inr (hlabels hh h2)
        · exact Or.inr hs
      · rcases stSearchSound segs keys ch hsort hch _ hshl hlb.2.1 rfl p _ hh hmem with
          hacc | hs
        · rcases List.mem_append.mp hacc with h1 | h2
          · exact Or.inl h1
          · exact Or.inr (hlabels hh h2)
        · exact Or.inr hs

end ST

namespace ST

theorem getD_map_nil : (keys : List Int) → (i : Nat) →
    (keys.map fun _ => ([] : List Nat)).getD i [] = []
  | [], 0 => rfl
  | [], _ + 1 => rfl
  | _ :: rest, 0 => rfl
  | _ :: rest, i + 1 => getD_map_nil rest i

theorem LabelsOK_of_clean (segs : List Seg) : (t : TTr) → cleanT t → LabelsOK segs t
  | .lf _, _ => trivial
  | .nd1 lo hi lb l, hc => by
    refine ⟨?_, LabelsOK_of_clean segs l hc.2⟩
    rw [hc.1]
    intro g hg
    cases hg
  | .nd2 lo hi lb l r, hc => by
    refine ⟨?_, LabelsOK_of_clean segs l hc.2.1, LabelsOK_of_clean segs r hc.2.2⟩
    rw [hc.1]
    intro g hg
    cases hg

/-- Claim C1 is false as stated: with the segments (1,4)↦0, (0,2)↦1,
(3,4)↦2 inserted and the tree built, the point 2 lies in segment [1, 4)
of handle 0, yet search(2) returns the empty list.  The covered-node rule
of `descend_tree_and_mark` (segmenttree.hpp line 391) requires
`high < end` strictly, so segment [1, 4) is never labelled on the node
[2, 4) whose high is 4, and point 2's leaf chain never receives handle 0. -/
theorem claim_C1_counterexample :
    (1, 4, 0) ∈ (buildTreeOp (insertOp (insertOp (insertOp
        emptySegTree 1 4 0) 0 2 1) 3 4 2)).segs ∧
      ((1 : Int) ≤ 2 ∧ (2 : Int) < 4) ∧
      searchOp (buildTreeOp (insertOp (insertOp (insertOp
        emptySegTree 1 4 0) 0 2 1) 3 4 2)) 2 = some [] := by
  refine ⟨by decide, by decide, by decide⟩

/-- Claim C1, amended to soundness: every handle returned by a successful
search over a built tree belongs to some inserted segment `[b, e)` that
contains the query point.  (The converse — completeness — fails, see the
counterexample.) -/
theorem claim_C1_amended (segs : List Seg) (p : Int) (res : List Nat) (hh : Nat)
    (hwf : ∀ s ∈ segs, s.1 < s.2.1)
    (hs : searchOp (buildTreeOp (initST segs)) p = some res)
    (hres : hh ∈ res) :
    ∃ b e, (b, e, hh) ∈ segs ∧ b ≤ p ∧ p < e := by
  rw [buildTreeOp] at hs
  cases heq : buildRoot (stKeys (initST segs).segs) with
  | none =>
    rw [heq] at hs
    simp [searchOp] at hs
  | some t0 =>
    rw [heq] at hs
    simp only [searchOp, initST] at hs
    rw [if_neg (by simp)] at hs
    simp only [Option.some.injEq] at hs
    have hkeys0 : (initST segs).segs = segs := rfl
    rw [hkeys0] at heq
    obtain ⟨h2len, hfirst, hlast, hshape0, hlf0, hhiok0⟩ := buildRoot_shape _ t0 heq
    have hclean := buildRoot_clean _ t0 heq
    have hsort := stKeys_sorted segs
    have hch0 : ChainsOK segs (stKeys segs)
        ((stKeys segs).map fun _ => ([] : List Nat)) := by
      intro i g hg
      rw [getD_map_nil] at hg
      cases hg
    have hkmem : ∀ s ∈ segs, s.1 ∈ stKeys segs ∧ s.2.1 ∈ stKeys segs := by
      intro s hs2
      exact mem_stKeys segs s.1 s.2.1 s.2.2 hs2
    have hall := markAll_ok segs (stKeys segs) hsort hwf hkmem segs t0
      ((stKeys segs).map fun _ => ([] : List Nat)) [] (fun s hs2 => hs2)
      hshape0 (LabelsOK_of_clean segs t0 hclean) hch0
    have hlfF : isLf (markAll (stKeys segs) segs t0
        ((stKeys segs).map fun _ => ([] : List Nat)) []).1 = false := by
      rw [← isLf_strip, stripLabels_markAll, isLf_strip]
      exact hlf0
    have hsound := stSearchSound segs (stKeys segs) _ hsort hall.2.2 _
      hall.1 hall.2.1 hlfF p [] hh
    rw [← hs] at hres
    rcases hsound hres with habs | hgood
    · cases habs
    · exact hgood

/-- Witness for the amended claim C1 at a concrete input. -/
theorem claim_C1_amended_witness :
    ∃ b e, (b, e, 5) ∈ [((0 : Int), (2 : Int), 5)] ∧ b ≤ 1 ∧ 1 < e :=
  claim_C1_amended [(0, 2, 5)] 1 [5] 5 (by decide) (by decide) (by decide)

end ST

namespace ST

theorem leafKey_strip (keys : List Int) (t : TTr) :
    leafKey keys (stripLabels t) = leafKey keys t := by
  cases t <;> rfl

theorem leafIdx_strip (t : TTr) : leafIdx (stripLabels t) = leafIdx t := by
  cases t <;> rfl

theorem strip_removeAt : (t : TTr) → (q : List Bool) → (h : Nat) →
    stripLabels (removeAt t q h) = stripLabels t
  | .lf i, q, h => by cases q <;> rfl
  | .nd1 lo hi lb l, [], h => rfl
  | .nd1 lo hi lb l, false :: rest, h => by
    show TTr.nd1 lo hi [] (stripLabels (removeAt l rest h)) = _
    rw [strip_removeAt l rest h]
    rfl
  | .nd1 lo hi lb l, true :: rest, h => rfl
  | .nd2 lo hi lb l r, [], h => rfl
  | .nd2 lo hi lb l r, false :: rest, h => by
    show TTr.nd2 lo hi [] (stripLabels (removeAt l rest h)) (stripLabels r) = _
    rw [strip_removeAt l rest h]
    rfl
  | .nd2 lo hi lb l r, true :: rest, h => by
    show TTr.nd2 lo hi [] (stripLabels l) (stripLabels (removeAt r rest h)) = _
    rw [strip_removeAt r rest h]
    rfl

theorem labelsAt_removeAt : (t : TTr) → (q path : List Bool) → (h : Nat) →
    labelsAt (removeAt t q h) path =
      if path = q then chainFilter (labelsAt t path) h else labelsAt t path
  | .lf i, q, path, h => by
    have h1 : removeAt (.lf i) q h = .lf i := by cases q <;> rfl
    have h2 : ∀ pp, labelsAt (.lf i) pp = [] := by
      intro pp
      cases pp with
      | nil => rfl
      | cons b rest => cases b <;> rfl
    rw [h1, h2]
    split <;> rfl
  | .nd1 lo hi lb l, [], path, h => by
    cases path with
    | nil => rfl
    | cons b rest =>
      have hne : (b :: rest) ≠ ([] : List Bool) := by simp
      rw [if_neg hne]
      cases b <;> rfl
  | .nd1 lo hi lb l, false :: qrest, path, h => by
    cases path with
    | nil =>
      rw [if_neg (by simp)]
      rfl
    | cons b rest =>
      cases b with
      | false =>
        show labelsAt (removeAt l qrest h) rest = _
        rw [labelsAt_removeAt l qrest rest h]
        by_cases hr : rest = qrest
        · rw [if_pos hr, if_pos (by rw [hr])]
          rfl
        · rw [if_neg hr, if_neg (by simp [hr])]
          rfl
      | true =>
        rw [if_neg (by simp)]
        rfl
  | .nd1 lo hi lb l, true :: qrest, path, h => by
    have h1 : removeAt (.nd1 lo hi lb l) (true :: qrest) h = .nd1 lo hi lb l := rfl
    rw [h1]
    by_cases hp : path = true :: qrest
    · rw [if_pos hp, hp]
      rfl
    · rw [if_neg hp]
  | .nd2 lo hi lb l r, [], path, h => by
    cases path with
    | nil => rfl
    | cons b rest =>
      rw [if_neg (by simp)]
      cases b <;> rfl
  | .nd2 lo hi lb l r, false :: qrest, path, h => by
    cases path with
    | nil =>
      rw [if_neg (by simp)]
      rfl
    | cons b rest =>
      cases b with
      | false =>
        show labelsAt (removeAt l qrest h) rest = _
        rw [labelsAt_removeAt l qrest rest h]
        by_cases hr : rest = qrest
        · rw [if_pos hr, if_pos (by rw [hr])]
          rfl
        · rw [if_neg hr, if_neg (by simp [hr])]
          rfl
      | true =>
        rw [if_neg (by simp)]
        rfl
  | .nd2 lo hi lb l r, true :: qrest, path, h => by
    cases path with
    | nil =>
      rw [if_neg (by simp)]
      rfl
    | cons b rest =>
      cases b with
      | false =>
        rw [if_neg (by simp)]
        rfl
      | true =>
        show labelsAt (removeAt r qrest h) rest = _
        rw [labelsAt_removeAt r qrest rest h]
        by_cases hr : rest = qrest
        · rw [if_pos hr, if_pos (by rw [hr])]
          rfl
        · rw [if_neg hr, if_neg (by simp [hr])]
          rfl

end ST

namespace ST

theorem removeStep_const (h : Nat) (st : SegTree) (ref : NodeRef) :
    (removeStep h st ref).segs = st.segs ∧ (removeStep h st ref).keys = st.keys ∧
      (removeStep h st ref).tagged = st.tagged ∧
      (removeStep h st ref).validTree = st.validTree := by
  cases ref <;> exact ⟨rfl, rfl, rfl, rfl⟩

theorem foldl_removeStep_const (h : Nat) : (refs : List NodeRef) → (st : SegTree) →
    ((refs.foldl (removeStep h) st).segs = st.segs ∧
      (refs.foldl (removeStep h) st).keys = st.keys ∧
      (refs.foldl (removeStep h) st).tagged = st.tagged ∧
      (refs.foldl (removeStep h) st).validTree = st.validTree)
  | [], st => ⟨rfl, rfl, rfl, rfl⟩
  | ref :: rest, st => by
    rw [List.foldl_cons]
    have h1 := foldl_removeStep_const h rest (removeStep h st ref)
    have h2 := removeStep_const h st ref
    exact ⟨h1.1.trans h2.1, h1.2.1.trans h2.2.1, h1.2.2.1.trans h2.2.2.1,
      h1.2.2.2.trans h2.2.2.2⟩

theorem foldl_removeStep_chains (h : Nat) : (refs : List NodeRef) → (st : SegTree) →
    (i : Nat) →
    (refs.foldl (removeStep h) st).chains.getD i [] =
      if (Sum.inl i : NodeRef) ∈ refs then chainFilter (st.chains.getD i []) h
      else st.chains.getD i []
  | [], st, i => by simp
  | ref :: rest, st, i => by
    rw [List.foldl_cons, foldl_removeStep_chains h rest (removeStep h st ref) i]
    cases ref with
    | inl j =>
      have hstep : (removeStep h st (.inl j)).chains.getD i [] =
          if i = j then chainFilter (st.chains.getD i []) h else st.chains.getD i [] := by
        show (st.chains.set j (chainFilter (st.chains.getD j []) h)).getD i [] = _
        exact getD_set_filter st.chains j i h
      rw [hstep]
      by_cases hij : i = j
      · subst hij
        by_cases hmem : (Sum.inl i : NodeRef) ∈ rest
        · simp [hmem, chainFilter_idem]
        · simp [hmem, List.mem_cons]
      · by_cases hmem : (Sum.inl i : NodeRef) ∈ rest
        · simp [hmem, hij, List.mem_cons]
        · have hne : (Sum.inl i : NodeRef) ≠ .inl j := by simp [hij]
          simp [hmem, hij, List.mem_cons, hne]
    | inr q =>
      have hstep : (removeStep h st (.inr q)).chains = st.chains := rfl
      rw [hstep]
      have hne : (Sum.inl i : NodeRef) ≠ .inr q := by simp
      by_cases hmem : (Sum.inl i : NodeRef) ∈ rest <;>
        simp [hmem, List.mem_cons, hne]

theorem foldl_removeStep_root_none (h : Nat) : (refs : List NodeRef) → (st : SegTree) →
    st.root = none → (refs.foldl (removeStep h) st).root = none
  | [], st, hr => hr
  | ref :: rest, st, hr => by
    rw [List.foldl_cons]
    refine foldl_removeStep_root_none h rest _ ?_
    cases ref with
    | inl j => exact hr
    | inr q =>
      show (st.root.map fun t => removeAt t q h) = none
      rw [hr]
      rfl

theorem foldl_removeStep_root (h : Nat) : (refs : List NodeRef) → (st : SegTree) →
    (t : TTr) → st.root = some t →
    ∃ t', (refs.foldl (removeStep h) st).root = some t' ∧
      stripLabels t' = stripLabels t ∧
      ∀ path, labelsAt t' path =
        if (Sum.inr path : NodeRef) ∈ refs then chainFilter (labelsAt t path) h
        else labelsAt t path
  | [], st, t, hr => ⟨t, hr, rfl, by simp⟩
  | ref :: rest, st, t, hr => by
    rw [List.foldl_cons]
    cases ref with
    | inl j =>
      have hroot : (removeStep h st (.inl j)).root = some t := hr
      obtain ⟨t', h1, h2, h3⟩ := foldl_removeStep_root h rest _ t hroot
      refine ⟨t', h1, h2, ?_⟩
      intro path
      rw [h3 path]
      have hne : (Sum.inr path : NodeRef) ≠ .inl j := by simp
      by_cases hmem : (Sum.inr path : NodeRef) ∈ rest <;>
        simp [hmem, List.mem_cons, hne]
    | inr q =>
      have hroot : (removeStep h st (.inr q)).root = some (removeAt t q h) := by
        show (st.root.map fun t => removeAt t q h) = _
        rw [hr]
        rfl
      obtain ⟨t', h1, h2, h3⟩ := foldl_removeStep_root h rest _ _ hroot
      refine ⟨t', h1, h2.trans (strip_removeAt t q h), ?_⟩
      intro path
      rw [h3 path, labelsAt_removeAt t q path h]
      by_cases hpq : path = q
      · subst hpq
        by_cases hmem : (Sum.inr path : NodeRef) ∈ rest
        · simp [hmem, chainFilter_idem, List.mem_cons]
        · simp [hmem, List.mem_cons, chainFilter_idem]
      · have hne : (Sum.inr path : NodeRef) ≠ .inr q := by simp [hpq]
        by_cases hmem : (Sum.inr path : NodeRef) ∈ rest <;>
          simp [hmem, List.mem_cons, hne, hpq]

end ST

namespace ST

theorem labelsAt_lf (i : Nat) (path : List Bool) : labelsAt (.lf i) path = [] := by
  cases path with
  | nil => rfl
  | cons b rest => cases b <;> rfl

theorem markAux_mem (keys : List Int) (b e : Int) (h : Nat) :
    (t : TTr) → (q : List Bool) → (ch : List (List Nat)) →
    (∀ i g, g ∈ (markAux keys b e h t q ch).2.1.getD i [] →
      g ∈ ch.getD i [] ∨
        (g = h ∧ (Sum.inl i : NodeRef) ∈ (markAux keys b e h t q ch).2.2)) ∧
    (∀ path g, g ∈ labelsAt (markAux keys b e h t q ch).1 path →
      g ∈ labelsAt t path ∨
        (g = h ∧ (Sum.inr (q ++ path) : NodeRef) ∈ (markAux keys b e h t q ch).2.2))
  | .lf i, q, ch => by
    simp only [markAux]
    by_cases h1 : keys.getD i 0 = b
    · rw [if_pos h1]
      constructor
      · intro i' g hg
        rcases getD_set_mem ch i i' _ g hg with hold | ⟨heq, hnew⟩
        · exact Or.inl hold
        · rcases List.mem_append.mp hnew with hold2 | hone
          · rw [heq]
            exact Or.inl hold2
          · rcases List.mem_singleton.mp hone with rfl
            exact Or.inr ⟨rfl, by simp [heq]⟩
      · intro path g hg
        rw [labelsAt_lf] at hg
        cases hg
    · rw [if_neg h1]
      by_cases h2 : keys.getD i 0 = e
      · rw [if_pos h2]
        by_cases h3 : i = 0
        · rw [if_pos h3]
          exact ⟨fun i' g hg => Or.inl hg, fun path g hg => Or.inl hg⟩
        · rw [if_neg h3]
          by_cases h4 : keys.getD (i - 1) 0 = b
          · rw [if_pos h4]
            exact ⟨fun i' g hg => Or.inl hg, fun path g hg => Or.inl hg⟩
          · rw [if_neg h4]
            constructor
            · intro i' g hg
              rcases getD_set_mem ch (i - 1) i' _ g hg with hold | ⟨heq, hnew⟩
              · exact Or.inl hold
              · rcases List.mem_append.mp hnew with hold2 | hone
                · rw [heq]
                  exact Or.inl hold2
                · rcases List.mem_singleton.mp hone with rfl
                  exact Or.inr ⟨rfl, by simp [heq]⟩
            · intro path g hg
              rw [labelsAt_lf] at hg
              cases hg
      · rw [if_neg h2]
        exact ⟨fun i' g hg => Or.inl hg, fun path g hg => Or.inl hg⟩
  | .nd1 lo hi lb l, q, ch => by
    simp only [markAux]
    split
    · exact ⟨fun i' g hg => Or.inl hg, fun path g hg => Or.inl hg⟩
    split
    · constructor
      · exact fun i' g hg => Or.inl hg
      · intro path g hg
        cases path with
        | nil =>
          rcases List.mem_append.mp hg with hold | hone
          · exact Or.inl hold
          · rcases List.mem_singleton.mp hone with rfl
            exact Or.inr ⟨rfl, by simp⟩
        | cons bb rest =>
          cases bb with
          | false => exact Or.inl hg
          | true => exact Or.inl hg
    · have ih := markAux_mem keys b e h l (q ++ [false]) ch
      constructor
      · exact ih.1
      · intro path g hg
        cases path with
        | nil => exact Or.inl hg
        | cons bb rest =>
          cases bb with
          | false =>
            rcases ih.2 rest g hg with hold | ⟨rfl, hin⟩
            · exact Or.inl hold
            · refine Or.inr ⟨rfl, ?_⟩
              have : q ++ [false] ++ rest = q ++ (false :: rest) := by simp
              rw [← this]
              exact hin
          | true => exact Or.inl hg
  | .nd2 lo hi lb l r, q, ch => by
    simp only [markAux]
    split
    · exact ⟨fun i' g hg => Or.inl hg, fun path g hg => Or.inl hg⟩
    split
    · constructor
      · exact fun i' g hg => Or.inl hg
      · intro path g hg
        cases path with
        | nil =>
          rcases List.mem_append.mp hg with hold | hone
          · exact Or.inl hold
          · rcases List.mem_singleton.mp hone with rfl
            exact Or.inr ⟨rfl, by simp⟩
        | cons bb rest =>
          cases bb with
          | false => exact Or.inl hg
          | true => exact Or.inl hg
    · have ihl := markAux_mem keys b e h l (q ++ [false]) ch
      have ihr := markAux_mem keys b e h r (q ++ [true])
        (markAux keys b e h l (q ++ [false]) ch).2.1
      constructor
      · intro i' g hg
        rcases ihr.1 i' g hg with hmid | ⟨rfl, hin⟩
        · rcases ihl.1 i' g hmid with hold | ⟨rfl, hin⟩
          · exact Or.inl hold
          · exact Or.inr ⟨rfl, List.mem_append_left _ hin⟩
        · exact Or.inr ⟨rfl, List.mem_append_right _ hin⟩
      · intro path g hg
        cases path with
        | nil => exact Or.inl hg
        | cons bb rest =>
          cases bb with
          | false =>
            rcases ihl.2 rest g hg with hold | ⟨rfl, hin⟩
            · exact Or.inl hold
            · refine Or.inr ⟨rfl, List.mem_append_left _ ?_⟩
              have : q ++ [false] ++ rest = q ++ (false :: rest) := by simp
              rw [← this]
              exact hin
          | true =>
            rcases ihr.2 rest g hg with hold | ⟨rfl, hin⟩
            · exact Or.inl hold
            · refine Or.inr ⟨rfl, List.mem_append_right _ ?_⟩
              have : q ++ [true] ++ rest = q ++ (true :: rest) := by simp
              rw [← this]
              exact hin

theorem refsOf_tagAdd : (m : List (Nat × List NodeRef)) → (g : Nat) →
    (ps : List NodeRef) → (h : Nat) →
    refsOf (tagAdd m g ps) h = if g = h then refsOf m h ++ ps else refsOf m h
  | [], g, ps, h => by
    by_cases hg : g = h <;> simp [tagAdd, refsOf, findTag, hg]
  | (k, qs) :: rest, g, ps, h => by
    by_cases hkg : k = g
    · subst hkg
      rw [tagAdd, if_pos rfl]
      by_cases hkh : k = h
      · subst hkh
        simp [refsOf, findTag]
      · simp [refsOf, findTag, hkh]
    · rw [tagAdd, if_neg hkg]
      by_cases hkh : k = h
      · subst hkh
        have hgk : ¬g = k := fun hh => hkg hh.symm
        simp [refsOf, findTag, hgk]
      · simp only [refsOf, findTag, if_neg hkh]
        exact refsOf_tagAdd rest g ps h

theorem refsOf_tagAdd_mono (m : List (Nat × List NodeRef)) (g h : Nat)
    (ps : List NodeRef) (x : NodeRef) (hx : x ∈ refsOf m h) :
    x ∈ refsOf (tagAdd m g ps) h := by
  rw [refsOf_tagAdd]
  split
  · exact List.mem_append_left _ hx
  · exact hx

theorem markAll_covers (keys : List Int) : (rest : List Seg) → (t : TTr) →
    (ch : List (List Nat)) → (m : List (Nat × List NodeRef)) →
    (∀ g i, g ∈ ch.getD i [] → (Sum.inl i : NodeRef) ∈ refsOf m g) →
    (∀ g path, g ∈ labelsAt t path → (Sum.inr path : NodeRef) ∈ refsOf m g) →
    (∀ g i, g ∈ (markAll keys rest t ch m).2.1.getD i [] →
      (Sum.inl i : NodeRef) ∈ refsOf (markAll keys rest t ch m).2.2 g) ∧
    (∀ g path, g ∈ labelsAt (markAll keys rest t ch m).1 path →
      (Sum.inr path : NodeRef) ∈ refsOf (markAll keys rest t ch m).2.2 g)
  | [], t, ch, m, hch, hlb => ⟨hch, hlb⟩
  | (b, e, h) :: rest, t, ch, m, hch, hlb => by
    rw [markAll]
    have hmm := markAux_mem keys b e h t [] ch
    refine markAll_covers keys rest _ _ _ ?_ ?_
    · intro g i hg
      rcases hmm.1 i g hg with hold | ⟨rfl, hin⟩
      · exact refsOf_tagAdd_mono m h g _ _ (hch g i hold)
      · rw [refsOf_tagAdd, if_pos rfl]
        exact List.mem_append_right _ hin
    · intro g path hg
      rcases hmm.2 path g hg with hold | ⟨rfl, hin⟩
      · exact refsOf_tagAdd_mono m h g _ _ (hlb g path hold)
      · rw [refsOf_tagAdd, if_pos rfl]
        refine List.mem_append_right _ ?_
        simpa using hin

end ST

namespace ST

theorem searchDescend_not_mem (keys : List Int) (ch : List (List Nat)) (h : Nat)
    (hch : ∀ i, h ∉ ch.getD i []) :
    (t : TTr) → (∀ path, h ∉ labelsAt t path) → ∀ p acc, h ∉ acc →
    h ∉ searchDescend keys ch p t acc
  | .lf i, hlb, p, acc, hacc => by
    rw [searchDescend]
    intro hmem
    rcases List.mem_append.mp hmem with h1 | h2
    · exact hacc h1
    · exact hch i h2
  | .nd1 lo hi lb l, hlb, p, acc, hacc => by
    rw [searchDescend]
    have hacc2 : h ∉ acc ++ lb := by
      intro hx
      rcases List.mem_append.mp hx with h1 | h2
      · exact hacc h1
      · exact hlb [] h2
    split
    · exact hacc
    split
    · split
      · exact hacc2
      · intro hx
        rcases List.mem_append.mp hx with h1 | h2
        · exact hacc2 h1
        · exact hch _ h2
    · split
      · exact hacc2
      split
      · exact hacc2
      · exact searchDescend_not_mem keys ch h hch l
          (fun path => hlb (false :: path)) p _ hacc2
  | .nd2 lo hi lb l r, hlb, p, acc, hacc => by
    rw [searchDescend]
    have hacc2 : h ∉ acc ++ lb := by
      intro hx
      rcases List.mem_append.mp hx with h1 | h2
      · exact hacc h1
      · exact hlb [] h2
    split
    · exact hacc
    split
    · split
      · exact hacc2
      split
      · exact searchDescend_not_mem keys ch h hch r
          (fun path => hlb (true :: path)) p _ hacc2
      · exact searchDescend_not_mem keys ch h hch l
          (fun path => hlb (false :: path)) p _ hacc2
    · split
      · exact hacc2
      split
      · exact searchDescend_not_mem keys ch h hch r
          (fun path => hlb (true :: path)) p _ hacc2
      · exact searchDescend_not_mem keys ch h hch l
          (fun path => hlb (false :: path)) p _ hacc2

theorem searchDescend_filter (keys : List Int) (h : Nat) :
    (t t' : TTr) → (ch ch' : List (List Nat)) →
    (∀ i, ch'.getD i [] = chainFilter (ch.getD i []) h) →
    stripLabels t' = stripLabels t →
    (∀ path, labelsAt t' path = chainFilter (labelsAt t path) h) →
    ∀ p acc, searchDescend keys ch' p t' (chainFilter acc h) =
      chainFilter (searchDescend keys ch p t acc) h
  | .lf i, t', ch, ch', hch, hstrip, hlab, p, acc => by
    obtain rfl : t' = .lf i := by
      cases t' with
      | lf j => simpa [stripLabels] using hstrip
      | nd1 a bb c d => simp [stripLabels] at hstrip
      | nd2 a bb c d ee => simp [stripLabels] at hstrip
    rw [searchDescend, searchDescend, hch i, ← chainFilter_append]
  | .nd1 lo hi lb l, t', ch, ch', hch, hstrip, hlab, p, acc => by
    obtain ⟨lb2, l2, rfl, hl2⟩ : ∃ lb2 l2, t' = .nd1 lo hi lb2 l2 ∧
        stripLabels l2 = stripLabels l := by
      cases t' with
      | lf j => simp [stripLabels] at hstrip
      | nd1 a bb c d =>
        simp only [stripLabels, TTr.nd1.injEq] at hstrip
        exact ⟨c, d, by rw [hstrip.1, hstrip.2.1], hstrip.2.2.2⟩
      | nd2 a bb c d ee => simp [stripLabels] at hstrip
    have hlb2 : lb2 = chainFilter lb h := hlab []
    have hlabl : ∀ path, labelsAt l2 path = chainFilter (labelsAt l path) h :=
      fun path => hlab (false :: path)
    have hkind : isLf l2 = isLf l := by rw [← isLf_strip l2, hl2, isLf_strip]
    have hlow : lowOf keys l2 = lowOf keys l := by
      rw [← lowOf_strip keys l2, hl2, lowOf_strip]
    have hhigh : highOf keys l2 = highOf keys l := by
      rw [← highOf_strip keys l2, hl2, highOf_strip]
    have hlk : leafKey keys l2 = leafKey keys l := by
      rw [← leafKey_strip keys l2, hl2, leafKey_strip]
    have hli : leafIdx l2 = leafIdx l := by
      rw [← leafIdx_strip l2, hl2, leafIdx_strip]
    rw [searchDescend, searchDescend, hlb2, hkind, hlow, hhigh, hlk, hli]
    by_cases hc1 : p < lo ∨ hi ≤ p
    · rw [if_pos hc1, if_pos hc1]
    rw [if_neg hc1, if_neg hc1]
    by_cases hc2 : isLf l
    · rw [if_pos hc2, if_pos hc2]
      by_cases hc3 : p < leafKey keys l
      · rw [if_pos hc3, if_pos hc3, ← chainFilter_append]
      · rw [if_neg hc3, if_neg hc3, hch (leafIdx l), ← chainFilter_append,
          ← chainFilter_append]
    · rw [if_neg hc2, if_neg hc2]
      by_cases hc3 : p < lowOf keys l
      · rw [if_pos hc3, if_pos hc3, ← chainFilter_append]
      rw [if_neg hc3, if_neg hc3]
      by_cases hc4 : highOf keys l ≤ p
      · rw [if_pos hc4, if_pos hc4, ← chainFilter_append]
      · rw [if_neg hc4, if_neg hc4, ← chainFilter_append]
        exact searchDescend_filter keys h l l2 ch ch' hch hl2 hlabl p (acc ++ lb)
  | .nd2 lo hi lb l r, t', ch, ch', hch, hstrip, hlab, p, acc => by
    obtain ⟨lb2, l2, r2, rfl, hl2, hr2⟩ : ∃ lb2 l2 r2, t' = .nd2 lo hi lb2 l2 r2 ∧
        stripLabels l2 = stripLabels l ∧ stripLabels r2 = stripLabels r := by
      cases t' with
      | lf j => simp [stripLabels] at hstrip
      | nd1 a bb c d => simp [stripLabels] at hstrip
      | nd2 a bb c d ee =>
        simp only [stripLabels, TTr.nd2.injEq] at hstrip
        exact ⟨c, d, ee, by rw [hstrip.1, hstrip.2.1], hstrip.2.2.2.1, hstrip.2.2.2.2⟩
    have hlb2 : lb2 = chainFilter lb h := hlab []
    have hlabl : ∀ path, labelsAt l2 path = chainFilter (labelsAt l path) h :=
      fun path => hlab (false :: path)
    have hlabr : ∀ path, labelsAt r2 path = chainFilter (labelsAt r path) h :=
      fun path => hlab (true :: path)
    have hkind : isLf l2 = isLf l := by rw [← isLf_strip l2, hl2, isLf_strip]
    have hlow : lowOf keys l2 = lowOf keys l := by
      rw [← lowOf_strip keys l2, hl2, lowOf_strip]
    have hhigh : highOf keys l2 = highOf keys l := by
      rw [← highOf_strip keys l2, hl2, highOf_strip]
    have hlk : leafKey keys l2 = leafKey keys l := by
      rw [← leafKey_strip keys l2, hl2, leafKey_strip]
    have hlkr : leafKey keys r2 = leafKey keys r := by
      rw [← leafKey_strip keys r2, hr2, leafKey_strip]
    rw [searchDescend, searchDescend, hlb2, hkind, hlow, hhigh, hlk, hlkr]
    by_cases hc1 : p < lo ∨ hi ≤ p
    · rw [if_pos hc1, if_pos hc1]
    rw [if_neg hc1, if_neg hc1]
    by_cases hc2 : isLf l
    · rw [if_pos hc2, if_pos hc2]
      by_cases hc3 : p < leafKey keys l
      · rw [if_pos hc3, if_pos hc3, ← chainFilter_append]
      rw [if_neg hc3, if_neg hc3]
      by_cases hc4 : leafKey keys r ≤ p
      · rw [if_pos hc4, if_pos hc4, ← chainFilter_append]
        exact searchDescend_filter keys h r r2 ch ch' hch hr2 hlabr p (acc ++ lb)
      · rw [if_neg hc4, if_neg hc4, ← chainFilter_append]
        exact searchDescend_filter keys h l l2 ch ch' hch hl2 hlabl p (acc ++ lb)
    · rw [if_neg hc2, if_neg hc2]
      by_cases hc3 : p < lowOf keys l
      · rw [if_pos hc3, if_pos hc3, ← chainFilter_append]
      rw [if_neg hc3, if_neg hc3]
      by_cases hc4 : highOf keys l ≤ p
      · rw [if_pos hc4, if_pos hc4, ← chainFilter_append]
        exact searchDescend_filter keys h r r2 ch ch' hch hr2 hlabr p (acc ++ lb)
      · rw [if_neg hc4, if_neg hc4, ← chainFilter_append]
        exact searchDescend_filter keys h l l2 ch ch' hch hl2 hlabl p (acc ++ lb)

end ST

namespace ST

theorem removeOp_search (st : SegTree)
    (hco1 : ∀ g i, g ∈ st.chains.getD i [] → (Sum.inl i : NodeRef) ∈ refsOf st.tagged g)
    (hco2 : ∀ g path t, st.root = some t → g ∈ labelsAt t path →
      (Sum.inr path : NodeRef) ∈ refsOf st.tagged g)
    (h : Nat) (p : Int) :
    (removeOp st h).validTree = st.validTree ∧
    searchOp (removeOp st h) p = (searchOp st p).map (fun res => chainFilter res h) := by
  rw [removeOp]
  cases hft : findTag st.tagged h with
  | none =>
    have hrefs : refsOf st.tagged h = [] := by rw [refsOf, hft]; rfl
    refine ⟨rfl, ?_⟩
    show searchOp st p = (searchOp st p).map fun res => chainFilter res h
    rw [searchOp]
    cases hv : st.validTree with
    | false => simp
    | true =>
      cases hr : st.root with
      | none => simp
      | some t =>
        simp only [Bool.true_eq_false, if_false, Option.map_some']
        have hnm : h ∉ searchDescend st.keys st.chains p t [] := by
          refine searchDescend_not_mem st.keys st.chains h ?_ t ?_ p [] (by simp)
          · intro i hmem
            have := hco1 h i hmem
            rw [hrefs] at this
            cases this
          · intro path hmem
            have := hco2 h path t hr hmem
            rw [hrefs] at this
            cases this
        rw [chainFilter_of_not_mem _ _ hnm]
  | some refs =>
    have hrefs : refsOf st.tagged h = refs := by rw [refsOf, hft]; rfl
    have hconst := foldl_removeStep_const h refs st
    refine ⟨hconst.2.2.2, ?_⟩
    rw [searchOp, searchOp, hconst.2.2.2, hconst.2.1]
    cases hv : st.validTree with
    | false => simp
    | true =>
      cases hr : st.root with
      | none =>
        rw [foldl_removeStep_root_none h refs st hr]
        simp
      | some t =>
        obtain ⟨t2, h1, h2, h3⟩ := foldl_removeStep_root h refs st t hr
        rw [h1]
        simp only [Bool.true_eq_false, if_false, Option.map_some', Option.some.injEq]
        have hch' : ∀ i, (refs.foldl (removeStep h) st).chains.getD i [] =
            chainFilter (st.chains.getD i []) h := by
          intro i
          rw [foldl_removeStep_chains h refs st i]
          split
          · rfl
          · rename_i hnm
            rw [chainFilter_of_not_mem]
            intro hmem
            have := hco1 h i hmem
            rw [hrefs] at this
            exact hnm this
        have hlab' : ∀ path, labelsAt t2 path = chainFilter (labelsAt t path) h := by
          intro path
          rw [h3 path]
          split
          · rfl
          · rename_i hnm
            rw [chainFilter_of_not_mem]
            intro hmem
            have := hco2 h path t hr hmem
            rw [hrefs] at this
            exact hnm this
        have := searchDescend_filter st.keys h t t2 st.chains
          (refs.foldl (removeStep h) st).chains hch' h2 hlab' p []
        exact this

end ST

namespace ST

theorem buildTreeOp_valid (st : SegTree) : (buildTreeOp st).validTree = true := by
  rw [buildTreeOp]
  cases buildRoot (stKeys st.segs) <;> rfl

/-- Claim C7 holds of the code: removing a handle from a built tree keeps
the valid bit set (no rebuild needed), and every subsequent search returns
exactly the previous result with every occurrence of the removed handle
deleted — so the handle is never returned and all other handles'
results are unchanged. -/
theorem claim_C7 (segs : List Seg) (h : Nat) (p : Int) :
    (removeOp (buildTreeOp (initST segs)) h).validTree = true ∧
    searchOp (removeOp (buildTreeOp (initST segs)) h) p
      = (searchOp (buildTreeOp (initST segs)) p).map (fun res => chainFilter res h) := by
  have hco1 : ∀ g i, g ∈ (buildTreeOp (initST segs)).chains.getD i [] →
      (Sum.inl i : NodeRef) ∈ refsOf (buildTreeOp (initST segs)).tagged g := by
    rw [buildTreeOp]
    cases heq : buildRoot (stKeys (initST segs).segs) with
    | none =>
      intro g i hg
      have hg2 : g ∈ ([] : List (List Nat)).getD i [] := hg
      have hnil : ([] : List (List Nat)).getD i [] = [] := by cases i <;> rfl
      rw [hnil] at hg2
      cases hg2
    | some t0 =>
      intro g i hg
      have hcov := markAll_covers (stKeys (initST segs).segs) (initST segs).segs t0
        ((stKeys (initST segs).segs).map fun _ => ([] : List Nat)) []
        (fun g i hgi => by rw [getD_map_nil] at hgi; cases hgi)
        (fun g path hgp => by
          rw [labelsAt_clean t0 (buildRoot_clean _ t0 heq) path] at hgp
          cases hgp)
      exact hcov.1 g i hg
  have hco2 : ∀ g path t, (buildTreeOp (initST segs)).root = some t →
      g ∈ labelsAt t path →
      (Sum.inr path : NodeRef) ∈ refsOf (buildTreeOp (initST segs)).tagged g := by
    rw [buildTreeOp]
    cases heq : buildRoot (stKeys (initST segs).segs) with
    | none =>
      intro g path t ht hg
      exact absurd ht (by simp)
    | some t0 =>
      intro g path t ht hg
      have hcov := markAll_covers (stKeys (initST segs).segs) (initST segs).segs t0
        ((stKeys (initST segs).segs).map fun _ => ([] : List Nat)) []
        (fun g i hgi => by rw [getD_map_nil] at hgi; cases hgi)
        (fun g path hgp => by
          rw [labelsAt_clean t0 (buildRoot_clean _ t0 heq) path] at hgp
          cases hgp)
      have ht2 : (markAll (stKeys (initST segs).segs) (initST segs).segs t0
          ((stKeys (initST segs).segs).map fun _ => ([] : List Nat)) []).1 = t := by
        exact Option.some.inj ht
      rw [← ht2] at hg
      exact hcov.2 g path hg
  have hmain := removeOp_search (buildTreeOp (initST segs)) hco1 hco2 h p
  exact ⟨hmain.1.trans (buildTreeOp_valid _), hmain.2⟩

end ST

namespace FST

open ST

/-- The leaf chain of a flat segment tree: (key, value) pairs, sorted by
key; between two adjacent keys the function takes the left leaf's value.
Modelled from the spec: flat_segment_tree.hpp is not among the staged
sources; §4.1 of the spec defines the representation, the two search
paths, the overlay algorithm and the builder (shared with the segment
tree), and src/example/flat_segment_tree.cpp exercises them. -/
abbrev Leaves := List (Int × Int)

def fstKeys (leaves : Leaves) : List Int := leaves.map Prod.fst

def fstVals (leaves : Leaves) : List Int := leaves.map Prod.snd

/-- The value in effect at point `q`: the value of the last leaf whose key
is `≤ q`, with `dflt` when every key exceeds `q`. -/
def valueAt : Leaves → Int → Int → Int
  | [], _, dflt => dflt
  | (k, v) :: rest, q, dflt => if q < k then dflt else valueAt rest q v

/-- The linear `search(p)` (§4.1): walk from the left leaf and return the
value and the leaf segment containing `p`; out-of-range points fail. -/
def searchLinear : Leaves → Int → Option (Int × Int × Int)
  | (k1, v1) :: (k2, v2) :: rest, p =>
      if p < k1 then none
      else if p < k2 then some (v1, k1, k2)
      else searchLinear ((k2, v2) :: rest) p
  | _, _ => none

/-- Boundary coalescing: a leaf whose value equals its left neighbour's
value is removed; the first leaf and the terminal `hi` leaf are retained. -/
def coalesce : Leaves → Leaves
  | [] => []
  | [x] => [x]
  | [x, y] => [x, y]
  | x :: y :: z :: rest =>
      if y.2 = x.2 then coalesce (x :: z :: rest) else x :: coalesce (y :: z :: rest)
termination_by l => l.length

/-- The overlay of value `v` on `[b, e)` clipped to `[lo, hi)` (§4.1):
remember the value in effect after the clipped end, drop the interior
leaves, insert boundary leaves at both clipped ends, coalesce.
`insert_front` and `insert_back` differ only in tie-breaking at coincident
boundaries, which the value-map model does not distinguish. -/
def overlay (lo hi : Int) (leaves : Leaves) (b e v : Int) : Leaves :=
  let b2 := max b lo
  let e2 := min e hi
  if e2 ≤ b2 then leaves
  else
    let tv := valueAt leaves e2 0
    let pre := leaves.filter fun kv => kv.1 < b2
    let post := leaves.filter fun kv => e2 < kv.1
    coalesce (pre ++ (b2, v) :: (e2, tv) :: post)

/-- States reachable from `new(lo, hi, v0)` by overlays (§4.1). -/
inductive FstReach (lo hi v0 : Int) : Leaves → Prop
  | init : lo < hi → FstReach lo hi v0 [(lo, v0), (hi, v0)]
  | step (leaves : Leaves) (b e v : Int) : FstReach lo hi v0 leaves →
      FstReach lo hi v0 (overlay lo hi leaves b e v)

/-- The leaf-chain invariant: strictly sorted keys, the first key is `lo`,
the last key is `hi`, and at least the two sentinel leaves exist. -/
def FstInv (lo hi : Int) (leaves : Leaves) : Prop :=
  List.Pairwise (· < ·) (fstKeys leaves) ∧ 2 ≤ leaves.length ∧
    (fstKeys leaves).head? = some lo ∧ (fstKeys leaves).getLast? = some hi

theorem coalesce_ne_nil : (l : Leaves) → l ≠ [] → coalesce l ≠ []
  | [], hl => absurd rfl hl
  | [x], _ => by rw [coalesce]; simp
  | [x, y], _ => by rw [coalesce]; simp
  | x :: y :: z :: rest, _ => by
    rw [coalesce]
    split
    · exact coalesce_ne_nil (x :: z :: rest) (by simp)
    · simp
termination_by l => l.length

theorem coalesce_head : (l : Leaves) → (coalesce l).head? = l.head?
  | [] => by rw [coalesce]
  | [x] => by rw [coalesce]
  | [x, y] => by rw [coalesce]
  | x :: y :: z :: rest => by
    rw [coalesce]
    split
    · rw [coalesce_head (x :: z :: rest)]
      rfl
    · rfl
termination_by l => l.length

theorem coalesce_last : (l : Leaves) → (coalesce l).getLast? = l.getLast?
  | [] => by rw [coalesce]
  | [x] => by rw [coalesce]
  | [x, y] => by rw [coalesce]
  | x :: y :: z :: rest => by
    rw [coalesce]
    split
    · rw [coalesce_last (x :: z :: rest), List.getLast?_cons_cons]
      conv_rhs => rw [List.getLast?_cons_cons, List.getLast?_cons_cons]
    · have hne : coalesce (y :: z :: rest) ≠ [] := coalesce_ne_nil _ (by simp)
      obtain ⟨c, cs, hc⟩ : ∃ c cs, coalesce (y :: z :: rest) = c :: cs := by
        cases hcc : coalesce (y :: z :: rest) with
        | nil => exact absurd hcc hne
        | cons c cs => exact ⟨c, cs, rfl⟩
      rw [hc, List.getLast?_cons_cons, ← hc, coalesce_last (y :: z :: rest)]
      conv_rhs => rw [List.getLast?_cons_cons]
termination_by l => l.length

theorem coalesce_sublist : (l : Leaves) → (coalesce l).Sublist l
  | [] => by rw [coalesce]
  | [x] => by rw [coalesce]
  | [x, y] => by rw [coalesce]
  | x :: y :: z :: rest => by
    rw [coalesce]
    split
    · exact ((coalesce_sublist (x :: z :: rest)).trans
        ((List.sublist_cons_self y (z :: rest)).cons₂ x))
    · exact (coalesce_sublist (y :: z :: rest)).cons₂ x
termination_by l => l.length

theorem coalesce_len2 : (l : Leaves) → 2 ≤ l.length → 2 ≤ (coalesce l).length
  | [], h => by simp at h
  | [x], h => by simp at h
  | [x, y], _ => by rw [coalesce]; simp
  | x :: y :: z :: rest, _ => by
    rw [coalesce]
    split
    · exact coalesce_len2 (x :: z :: rest) (by simp)
    · have := coalesce_ne_nil (y :: z :: rest) (by simp)
      have hlen : 1 ≤ (coalesce (y :: z :: rest)).length := by
        cases hc : coalesce (y :: z :: rest) with
        | nil => exact absurd hc this
        | cons a as => simp
      simp only [List.length_cons]
      omega
termination_by l => l.length

end FST

namespace FST

theorem fstInv_overlay (lo hi : Int) (leaves : Leaves) (b e v : Int)
    (hinv : FstInv lo hi leaves) : FstInv lo hi (overlay lo hi leaves b e v) := by
  obtain ⟨hkeys, hlen, hhead, hlast⟩ := hinv
  rw [overlay]
  by_cases hbe : min e hi ≤ max b lo
  · rw [if_pos hbe]
    exact ⟨hkeys, hlen, hhead, hlast⟩
  rw [if_neg hbe]
  have hb2e2 : max b lo < min e hi := by omega
  have hsl : List.Pairwise (fun a c : Int × Int => a.1 < c.1) leaves :=
    List.pairwise_map.mp hkeys
  obtain ⟨v0, rest, hleq⟩ : ∃ v0 rest, leaves = (lo, v0) :: rest := by
    cases leaves with
    | nil => simp [fstKeys] at hhead
    | cons q qs =>
      obtain ⟨k0, w0⟩ := q
      simp only [fstKeys, List.map_cons, List.head?_cons, Option.some.injEq] at hhead
      exact ⟨w0, qs, by rw [hhead]⟩
  obtain ⟨init, vl, hleq2⟩ : ∃ init vl, leaves = init ++ [(hi, vl)] := by
    have hne : leaves ≠ [] := by rw [hleq]; simp
    have h1 : leaves.getLast? = some (leaves.getLast hne) := List.getLast?_eq_getLast _ hne
    have h2 : (fstKeys leaves).getLast? = some (leaves.getLast hne).1 := by
      rw [fstKeys, List.getLast?_map, h1]
      rfl
    rw [h2] at hlast
    have h3 : (leaves.getLast hne).1 = hi := by simpa using hlast
    refine ⟨leaves.dropLast, (leaves.getLast hne).2, ?_⟩
    conv_lhs => rw [← List.dropLast_append_getLast hne]
    rw [show leaves.getLast hne = (hi, (leaves.getLast hne).2) from Prod.ext h3 rfl]
  have h_rest_gt : ∀ x ∈ rest, lo < x.1 := by
    have := hsl
    rw [hleq, List.pairwise_cons] at this
    exact fun x hx => this.1 x hx
  have h_init_lt : ∀ x ∈ init, x.1 < hi := by
    have := hsl
    rw [hleq2, List.pairwise_append] at this
    exact fun x hx => this.2.2 x hx (hi, vl) (by simp)
  have h_all_le : ∀ x ∈ leaves, x.1 ≤ hi := by
    intro x hx
    rw [hleq2] at hx
    rcases List.mem_append.mp hx with hx1 | hx2
    · exact le_of_lt (h_init_lt x hx1)
    · rcases List.mem_singleton.mp hx2 with rfl
      rfl
  have h_all_ge : ∀ x ∈ leaves, lo ≤ x.1 := by
    intro x hx
    rw [hleq] at hx
    rcases List.mem_cons.mp hx with rfl | hx2
    · rfl
    · exact le_of_lt (h_rest_gt x hx2)
  have hsortA : List.Pairwise (fun a c : Int × Int => a.1 < c.1)
      ((leaves.filter fun kv => kv.1 < max b lo) ++
        (max b lo, v) :: (min e hi, valueAt leaves (min e hi) 0) ::
        (leaves.filter fun kv => min e hi < kv.1)) := by
    rw [List.pairwise_append]
    refine ⟨hsl.filter _, ?_, ?_⟩
    · rw [List.pairwise_cons]
      constructor
      · intro y hy
        rcases List.mem_cons.mp hy with rfl | hy2
        · exact hb2e2
        · have hgt : min e hi < y.1 := by
            simpa using (List.mem_filter.mp hy2).2
          omega
      rw [List.pairwise_cons]
      refine ⟨?_, hsl.filter _⟩
      intro y hy
      simpa using (List.mem_filter.mp hy).2
    · intro x hx y hy
      have hxb : x.1 < max b lo := by simpa using (List.mem_filter.mp hx).2
      rcases List.mem_cons.mp hy with rfl | hy2
      · exact hxb
      rcases List.mem_cons.mp hy2 with rfl | hy3
      · omega
      · have : min e hi < y.1 := by simpa using (List.mem_filter.mp hy3).2
        omega
  refine ⟨?_, ?_, ?_, ?_⟩
  · rw [fstKeys, List.pairwise_map]
    exact hsortA.sublist (coalesce_sublist _)
  · refine coalesce_len2 _ ?_
    simp only [List.length_append, List.length_cons]
    omega
  · rw [fstKeys, List.head?_map _ _, coalesce_head]
    cases hpre : leaves.filter fun kv => kv.1 < max b lo with
    | nil =>
      have hble : ¬ lo < max b lo := by
        intro hlt
        have hmem : (lo, v0) ∈ leaves.filter fun kv => kv.1 < max b lo := by
          rw [List.mem_filter]
          exact ⟨by rw [hleq]; simp, by simpa using hlt⟩
        rw [hpre] at hmem
        cases hmem
      have hb2lo : max b lo = lo := by omega
      simp [hb2lo]
    | cons q qs =>
      have hfl : leaves.filter (fun kv => kv.1 < max b lo) =
          (lo, v0) :: (rest.filter fun kv => kv.1 < max b lo) := by
        by_cases hlt : lo < max b lo
        · rw [hleq, List.filter_cons]
          simp [hlt]
        · exfalso
          have hnil : leaves.filter (fun kv => kv.1 < max b lo) = [] := by
            rw [List.filter_eq_nil_iff]
            intro x hx
            have := h_all_ge x hx
            simp only [decide_eq_true_eq]
            omega
          rw [hnil] at hpre
          cases hpre
      have hq : q = (lo, v0) := by
        have h9 := hpre.symm.trans hfl
        injection h9
      simp [hq]
  · rw [fstKeys, List.getLast?_map, coalesce_last]
    cases hpost : leaves.filter fun kv => min e hi < kv.1 with
    | nil =>
      have hhie : ¬ min e hi < hi := by
        intro hlt
        have hmem : (hi, vl) ∈ leaves.filter fun kv => min e hi < kv.1 := by
          rw [List.mem_filter]
          exact ⟨by rw [hleq2]; simp, by simpa using hlt⟩
        rw [hpost] at hmem
        cases hmem
      have he2hi : min e hi = hi := by omega
      rw [List.getLast?_append_of_ne_nil _ (by simp)]
      simp [he2hi]
    | cons q qs =>
      have he2hi : min e hi < hi := by
        by_contra hc
        have hnil : leaves.filter (fun kv => min e hi < kv.1) = [] := by
          rw [List.filter_eq_nil_iff]
          intro x hx
          have := h_all_le x hx
          simp only [decide_eq_true_eq]
          omega
        rw [hnil] at hpost
        cases hpost
      have hfl : leaves.filter (fun kv => min e hi < kv.1) =
          (init.filter fun kv => min e hi < kv.1) ++ [(hi, vl)] := by
        rw [hleq2, List.filter_append]
        congr 1
        rw [List.filter_cons]
        simp [he2hi]
      rw [List.getLast?_append_of_ne_nil _ (by simp),
        List.getLast?_cons_cons, List.getLast?_cons_cons, ← hpost, hfl,
        List.getLast?_concat]
      rfl

end FST

namespace FST

theorem fstInv_init (lo hi v0 : Int) (h : lo < hi) :
    FstInv lo hi [(lo, v0), (hi, v0)] := by
  refine ⟨?_, by simp, rfl, rfl⟩
  simp [fstKeys, h]

theorem fstInv_of_reach (lo hi v0 : Int) (leaves : Leaves)
    (hr : FstReach lo hi v0 leaves) : FstInv lo hi leaves := by
  induction hr with
  | init h => exact fstInv_init lo hi v0 h
  | step leaves b e v _ ih => exact fstInv_overlay lo hi leaves b e v ih

/-- The tree-path `search_tree(p)` descent (§4.1): at a non-leaf follow
the child whose `[low, high)` contains `p`; at the leaf layer return the
leaf with the largest key `≤ p`.  Returns the leaf index. -/
def treeFind (keys : List Int) (p : Int) : ST.TTr → Option Nat
  | .lf i => some i
  | .nd1 _ _ _ l =>
      if ST.isLf l then
        if ST.leafKey keys l ≤ p then some (ST.leafIdx l) else none
      else if ST.lowOf keys l ≤ p ∧ p < ST.highOf keys l then treeFind keys p l
      else none
  | .nd2 _ _ _ l r =>
      if ST.isLf l then
        if ST.leafKey keys r ≤ p then some (ST.leafIdx r)
        else if ST.leafKey keys l ≤ p then some (ST.leafIdx l)
        else none
      else if ST.lowOf keys l ≤ p ∧ p < ST.highOf keys l then treeFind keys p l
      else if ST.lowOf keys r ≤ p ∧ p < ST.highOf keys r then treeFind keys p r
      else none

/-- The tree search path: build the balanced tree over the leaf keys
(the builder shared with the segment tree), locate the leaf, and return
its value together with its segment. -/
def searchTree (leaves : Leaves) (p : Int) : Option (Int × Int × Int) :=
  match ST.buildRoot (fstKeys leaves) with
  | none => none
  | some t =>
      match treeFind (fstKeys leaves) p t with
      | none => none
      | some i =>
          if i + 1 < leaves.length then
            some ((fstVals leaves).getD i 0, (fstKeys leaves).getD i 0,
              (fstKeys leaves).getD (i + 1) 0)
          else none

end FST

namespace ST

theorem sorted_head_le (l : List Int) (hs : List.Pairwise (· < ·) l) (j : Nat)
    (hj : j < l.length) : l.getD 0 0 ≤ l.getD j 0 := by
  have h0 : 0 < l.length := by omega
  rw [getD_eq_get l 0 h0, getD_eq_get l j hj]
  rcases Nat.eq_zero_or_pos j with rfl | hpos
  · exact le_refl _
  · exact le_of_lt (List.pairwise_iff_get.mp hs ⟨0, h0⟩ ⟨j, hj⟩ hpos)

theorem pairUp_length_le (keys : List Int) : (ts : List TTr) →
    2 * (pairUp keys ts).length ≤ ts.length + 1
  | [] => by simp [pairUp]
  | [a] => by simp [pairUp]
  | a :: b :: rest => by
    rw [pairUp]
    have := pairUp_length_le keys rest
    simp only [List.length_cons]
    omega

theorem pairUp_length_pos (keys : List Int) : (ts : List TTr) →
    1 ≤ ts.length → 1 ≤ (pairUp keys ts).length
  | [], h => by simp at h
  | [a], _ => by simp [pairUp]
  | a :: b :: rest, _ => by
    rw [pairUp]
    simp

theorem buildLevels_isSome (keys : List Int) : (fuel : Nat) → (ts : List TTr) →
    1 ≤ ts.length → ts.length ≤ fuel + 1 → (buildLevels keys fuel ts).isSome = true
  | _, [], h1, _ => by simp at h1
  | fuel, [t], _, _ => by rw [buildLevels]; rfl
  | 0, a :: b :: rest, _, h2 => by simp at h2
  | fuel + 1, a :: b :: rest, h1, h2 => by
    rw [buildLevels]
    refine buildLevels_isSome keys fuel _ ?_ ?_
    · exact pairUp_length_pos keys _ (by simp)
    · have := pairUp_length_le keys (a :: b :: rest)
      simp only [List.length_cons] at this h2 ⊢
      omega

theorem buildRoot_isSome (keys : List Int) (h : 2 ≤ keys.length) :
    (buildRoot keys).isSome = true := by
  rw [buildRoot, if_neg (by omega)]
  have hlen : (leafLevel keys.length).length = keys.length := by
    have haux : ∀ k i, (lfSeq i k).length = k := by
      intro k
      induction k with
      | zero => intro i; rfl
      | succ k ih =>
        intro i
        rw [lfSeq]
        simp [ih (i + 1)]
    exact haux keys.length 0
  exact buildLevels_isSome keys keys.length _ (by omega) (by omega)

theorem getD_zero_of_head (l : List Int) (x : Int) (h : l.head? = some x) :
    l.getD 0 0 = x := by
  cases l with
  | nil => cases h
  | cons a rest =>
    simp only [List.head?_cons, Option.some.injEq] at h
    rw [← h]
    rfl

theorem getD_last_of_getLast (l : List Int) (x : Int) (h : l.getLast? = some x) :
    l.getD (l.length - 1) 0 = x := by
  have hne : l ≠ [] := by
    intro hnil
    rw [hnil] at h
    cases h
  have h1 : l.getLast? = some (l.getLast hne) := List.getLast?_eq_getLast _ hne
  rw [h1] at h
  have h2 := Option.some.inj h
  have h3 : 0 < l.length := List.length_pos.mpr hne
  rw [getD_eq_get l (l.length - 1) (by omega), ← h2, List.getLast_eq_getElem]
  rfl

end ST

namespace FST

open ST

theorem treeFind_correct (keys : List Int) (hsort : List.Pairwise (· < ·) keys) :
    (t : ST.TTr) → ST.TShape keys t → ST.isLf t = false →
    ∀ p, keys.getD (ST.firstLeaf t) 0 ≤ p → p < ST.highOf keys t →
    ∃ i, treeFind keys p t = some i ∧ keys.getD i 0 ≤ p ∧ i + 1 < keys.length ∧
      p < keys.getD (i + 1) 0
  | .lf i, _, hlf => by simp [ST.isLf] at hlf
  | .nd1 lo hi lb l, hsh, _ => by
    intro p hp1 hp2
    obtain ⟨hsl, hloeq, hhieq⟩ := hsh
    rw [treeFind]
    cases l with
    | lf i =>
      exfalso
      have he1 : keys.getD (ST.firstLeaf (ST.TTr.nd1 lo hi lb (.lf i))) 0 =
          keys.getD i 0 := rfl
      have he2 : ST.highOf keys (ST.TTr.nd1 lo hi lb (.lf i)) = hi := rfl
      rw [he1] at hp1
      rw [he2, hhieq] at hp2
      have : ST.highOf keys (ST.TTr.lf i) = keys.getD i 0 := rfl
      rw [this] at hp2
      omega
    | nd1 lo2 hi2 lb2 l2 =>
      rw [if_neg (by simp [ST.isLf])]
      have hc1 : ST.lowOf keys (ST.TTr.nd1 lo2 hi2 lb2 l2) ≤ p ∧
          p < ST.highOf keys (ST.TTr.nd1 lo2 hi2 lb2 l2) := by
        constructor
        · rw [shape_lowOf keys _ hsl]
          exact hp1
        · have : ST.highOf keys (ST.TTr.nd1 lo hi lb (.nd1 lo2 hi2 lb2 l2)) = hi := rfl
          rw [this, hhieq] at hp2
          exact hp2
      rw [if_pos hc1]
      refine treeFind_correct keys hsort _ hsl rfl p ?_ hc1.2
      rw [shape_lowOf keys _ hsl] at hc1
      exact hc1.1
    | nd2 lo2 hi2 lb2 l2 r2 =>
      rw [if_neg (by simp [ST.isLf])]
      have hc1 : ST.lowOf keys (ST.TTr.nd2 lo2 hi2 lb2 l2 r2) ≤ p ∧
          p < ST.highOf keys (ST.TTr.nd2 lo2 hi2 lb2 l2 r2) := by
        constructor
        · rw [shape_lowOf keys _ hsl]
          exact hp1
        · have : ST.highOf keys (ST.TTr.nd1 lo hi lb (.nd2 lo2 hi2 lb2 l2 r2)) = hi := rfl
          rw [this, hhieq] at hp2
          exact hp2
      rw [if_pos hc1]
      refine treeFind_correct keys hsort _ hsl rfl p ?_ hc1.2
      rw [shape_lowOf keys _ hsl] at hc1
      exact hc1.1
  | .nd2 lo hi lb l r, hsh, _ => by
    intro p hp1 hp2
    obtain ⟨hshl, hshr, hloeq, hhieq, hcont, hkind, hnd1, hhiok⟩ := hsh
    have hp2' : p < ST.highAsRight keys r := by
      have : ST.highOf keys (ST.TTr.nd2 lo hi lb l r) = hi := rfl
      rw [this, hhieq] at hp2
      exact hp2
    rw [treeFind]
    cases l with
    | lf i =>
      obtain ⟨j, rfl⟩ : ∃ j, r = .lf j := by
        cases r with
        | lf j => exact ⟨j, rfl⟩
        | nd1 a b c d => simp [ST.isLf] at hkind
        | nd2 a b c d e => simp [ST.isLf] at hkind
      have hj : j = i + 1 := by
        simp only [ST.lastLeaf, ST.firstLeaf] at hcont
        omega
      subst hj
      have hjlen : i + 1 < keys.length := hshr
      rw [if_pos (by simp [ST.isLf])]
      have hp1' : keys.getD i 0 ≤ p := hp1
      have hkA : ST.leafKey keys (ST.TTr.lf (i + 1)) = keys.getD (i + 1) 0 := rfl
      have hkB : ST.leafKey keys (ST.TTr.lf i) = keys.getD i 0 := rfl
      by_cases hc : keys.getD (i + 1) 0 ≤ p
      · rw [hkA, if_pos hc]
        have hka : ST.highAsRight keys (ST.TTr.lf (i + 1)) = keyAfter keys (i + 1) := rfl
        rw [hka, keyAfter] at hp2'
        by_cases hlen2 : i + 1 + 1 < keys.length
        · rw [if_pos hlen2] at hp2'
          exact ⟨i + 1, rfl, hc, hlen2, hp2'⟩
        · rw [if_neg hlen2] at hp2'
          omega
      · rw [hkA, if_neg hc, hkB, if_pos hp1']
        push_neg at hc
        exact ⟨i, rfl, hp1', hjlen, hc⟩
    | nd1 lo2 hi2 lb2 l2 =>
      exfalso
      simp [ST.isNd1] at hnd1
    | nd2 lo2 hi2 lb2 l2 r2 =>
      have hkr : ST.isLf r = false := by
        rw [← hkind]
        rfl
      rw [if_neg (by simp [ST.isLf])]
      by_cases hc1 : ST.lowOf keys (ST.TTr.nd2 lo2 hi2 lb2 l2 r2) ≤ p ∧
          p < ST.highOf keys (ST.TTr.nd2 lo2 hi2 lb2 l2 r2)
      · rw [if_pos hc1]
        refine treeFind_correct keys hsort _ hshl rfl p ?_ hc1.2
        rw [shape_lowOf keys _ hshl] at hc1
        exact hc1.1
      · rw [if_neg hc1]
        have hlow : ST.lowOf keys (ST.TTr.nd2 lo2 hi2 lb2 l2 r2) ≤ p := by
          rw [shape_lowOf keys _ hshl]
          have : ST.firstLeaf (ST.TTr.nd2 lo hi lb (.nd2 lo2 hi2 lb2 l2 r2) r) =
              ST.firstLeaf (ST.TTr.nd2 lo2 hi2 lb2 l2 r2) := rfl
          rw [this] at hp1
          exact hp1
        have hhigh : ST.highOf keys (ST.TTr.nd2 lo2 hi2 lb2 l2 r2) ≤ p := by
          by_contra hcon
          push_neg at hcon
          exact hc1 ⟨hlow, hcon⟩
        have hkey : ST.highOf keys (ST.TTr.nd2 lo2 hi2 lb2 l2 r2) =
            keyAfter keys (ST.lastLeaf (ST.TTr.nd2 lo2 hi2 lb2 l2 r2)) :=
          hhiok rfl
        have hfr : ST.lastLeaf (ST.TTr.nd2 lo2 hi2 lb2 l2 r2) + 1 = ST.firstLeaf r :=
          hcont
        have hfrlen : ST.firstLeaf r < keys.length := shape_first_lt keys r hshr
        have hlor : ST.lowOf keys r ≤ p := by
          rw [shape_lowOf keys r hshr]
          rw [hkey, keyAfter, if_pos (by omega), hfr] at hhigh
          exact hhigh
        have hhir : p < ST.highOf keys r := by
          have : ST.highAsRight keys r = ST.highOf keys r := by
            cases r with
            | lf j => simp [ST.isLf] at hkr
            | nd1 a b c d => rfl
            | nd2 a b c d e => rfl
          rw [this] at hp2'
          exact hp2'
        rw [if_pos ⟨hlor, hhir⟩]
        refine treeFind_correct keys hsort r hshr hkr p ?_ hhir
        rw [shape_lowOf keys r hshr] at hlor
        exact hlor

end FST

namespace FST

theorem searchLinear_spec :
    (leaves : Leaves) → List.Pairwise (· < ·) (fstKeys leaves) →
    ∀ i p, (fstKeys leaves).getD i 0 ≤ p → p < (fstKeys leaves).getD (i + 1) 0 →
    i + 1 < leaves.length →
    searchLinear leaves p = some ((fstVals leaves).getD i 0,
      (fstKeys leaves).getD i 0, (fstKeys leaves).getD (i + 1) 0)
  | [], _, i, p, _, _, hlen => by simp at hlen
  | [x], _, i, p, _, _, hlen => by simp at hlen
  | (k1, v1) :: (k2, v2) :: rest, hsort, i, p, hp1, hp2, hlen => by
    cases i with
    | zero =>
      have hk1 : (fstKeys ((k1, v1) :: (k2, v2) :: rest)).getD 0 0 = k1 := rfl
      have hk2 : (fstKeys ((k1, v1) :: (k2, v2) :: rest)).getD 1 0 = k2 := rfl
      rw [hk1] at hp1
      rw [hk2] at hp2
      rw [searchLinear, if_neg (by omega), if_pos hp2]
      rfl
    | succ i' =>
      have htail : ∀ j, (fstKeys ((k1, v1) :: (k2, v2) :: rest)).getD (j + 1) 0 =
          (fstKeys ((k2, v2) :: rest)).getD j 0 := fun j => rfl
      have hvtail : ∀ j, (fstVals ((k1, v1) :: (k2, v2) :: rest)).getD (j + 1) 0 =
          (fstVals ((k2, v2) :: rest)).getD j 0 := fun j => rfl
      have hsort2 : List.Pairwise (· < ·) (fstKeys ((k2, v2) :: rest)) :=
        (List.pairwise_cons.mp hsort).2
      have hi'len : i' + 1 < ((k2, v2) :: rest).length := by
        simp only [List.length_cons] at hlen ⊢
        omega
      have hk2le : k2 ≤ (fstKeys ((k2, v2) :: rest)).getD i' 0 := by
        have h0 : (fstKeys ((k2, v2) :: rest)).getD 0 0 = k2 := rfl
        rw [← h0]
        refine ST.sorted_head_le _ hsort2 i' ?_
        simp only [fstKeys, List.length_map, List.length_cons]
        simp only [List.length_cons] at hi'len
        omega
      rw [htail] at hp1 hp2
      have hk1lt : k1 < k2 := (List.pairwise_cons.mp hsort).1 k2 (by simp [fstKeys])
      rw [searchLinear, if_neg (by omega), if_neg (by omega)]
      rw [htail, htail, hvtail]
      exact searchLinear_spec ((k2, v2) :: rest) hsort2 i' p hp1 hp2 hi'len

/-- Claim C2 holds of the model: over every state reachable by overlays
from `new(lo, hi, v0)`, and every point `p ∈ [lo, hi)`, the tree search
and the linear search return the identical `(value, [b, e))` triple, the
segment contains `p`, and the represented function is constant on it. -/
theorem claim_C2 (lo hi v0 : Int) (leaves : Leaves) (p : Int)
    (hr : FstReach lo hi v0 leaves) (hplo : lo ≤ p) (hphi : p < hi) :
    searchTree leaves p = searchLinear leaves p ∧
    ∃ v b e, searchLinear leaves p = some (v, b, e) ∧ b ≤ p ∧ p < e ∧
      ∀ q, b ≤ q → q < e → searchLinear leaves q = some (v, b, e) := by
  obtain ⟨hkeys, hlen, hhead, hlast⟩ := fstInv_of_reach lo hi v0 leaves hr
  have hklen : (fstKeys leaves).length = leaves.length := by
    simp [fstKeys]
  have hklen2 : 2 ≤ (fstKeys leaves).length := by omega
  obtain ⟨t, ht⟩ : ∃ t, ST.buildRoot (fstKeys leaves) = some t := by
    have := ST.buildRoot_isSome (fstKeys leaves) hklen2
    cases hbr : ST.buildRoot (fstKeys leaves) with
    | none => rw [hbr] at this; cases this
    | some t => exact ⟨t, rfl⟩
  obtain ⟨_, hfirst, hlast1, hshape, hlf, hhiok⟩ := ST.buildRoot_shape _ t ht
  have hp0 : (fstKeys leaves).getD (ST.firstLeaf t) 0 ≤ p := by
    rw [hfirst, ST.getD_zero_of_head _ lo hhead]
    exact hplo
  have hphi2 : p < ST.highOf (fstKeys leaves) t := by
    rw [hhiok, ST.keyAfter, if_neg (by omega)]
    have hlast3 : ST.lastLeaf t = (fstKeys leaves).length - 1 := by omega
    rw [hlast3, ST.getD_last_of_getLast _ hi hlast]
    exact hphi
  obtain ⟨i, hfind, hi1, hi2, hi3⟩ :=
    treeFind_correct (fstKeys leaves) hkeys t hshape hlf p hp0 hphi2
  have hilen : i + 1 < leaves.length := by omega
  have hst : searchTree leaves p = some ((fstVals leaves).getD i 0,
      (fstKeys leaves).getD i 0, (fstKeys leaves).getD (i + 1) 0) := by
    simp only [searchTree, ht, hfind, if_pos hilen]
  have hsl := searchLinear_spec leaves hkeys i p hi1 hi3 hilen
  refine ⟨by rw [hst, hsl], ?_⟩
  refine ⟨(fstVals leaves).getD i 0, (fstKeys leaves).getD i 0,
    (fstKeys leaves).getD (i + 1) 0, hsl, hi1, hi3, ?_⟩
  intro q hq1 hq2
  exact searchLinear_spec leaves hkeys i q hq1 hq2 hilen

/-- Witness for claim C2 on the example driver's data
(src/example/flat_segment_tree.cpp): `fst_type db(0, 500, 0)` with the
overlays (10,20)↦10, (50,70)↦15, (60,65)↦5, queried at 62. -/
theorem claim_C2_witness :
    searchTree (overlay 0 500 (overlay 0 500 (overlay 0 500
        [(0, 0), (500, 0)] 10 20 10) 50 70 15) 60 65 5) 62
      = searchLinear (overlay 0 500 (overlay 0 500 (overlay 0 500
        [(0, 0), (500, 0)] 10 20 10) 50 70 15) 60 65 5) 62 ∧
    ∃ v b e, searchLinear (overlay 0 500 (overlay 0 500 (overlay 0 500
        [(0, 0), (500, 0)] 10 20 10) 50 70 15) 60 65 5) 62 = some (v, b, e) ∧
      b ≤ 62 ∧ 62 < e ∧
      ∀ q, b ≤ q → q < e → searchLinear (overlay 0 500 (overlay 0 500 (overlay 0 500
        [(0, 0), (500, 0)] 10 20 10) 50 70 15) 60 65 5) q = some (v, b, e) :=
  claim_C2 0 500 0 _ 62
    (FstReach.step _ 60 65 5 (FstReach.step _ 50 70 15 (FstReach.step _ 10 20 10
      (FstReach.init (by decide))))) (by decide) (by decide)

end FST

namespace MTV

/-- Category tag of an element block.  `none` models a null
`element_block_type*` (the empty-category block); `some c` models a typed
block of element category `c`.  In the structure-of-arrays layout
(src/include/mdds/multi_type_vector/soa/main.hpp, `struct blocks_type`,
lines 89-121) the category is carried by the pointed-to element block, so
`element_blocks[i]` is null exactly when block `i` has the empty
category. -/
abbrev Cat := Option Nat

/-- Parallel vectors of `struct blocks_type` (main.hpp lines 89-121):
`positions`, `sizes` and `element_blocks`, kept index-aligned. -/
structure blocks_type where
  positions : List Nat
  sizes : List Nat
  element_blocks : List Cat
deriving DecidableEq, Repr

structure multi_type_vector where
  m_cur_size : Nat
  m_blocks : blocks_type
deriving DecidableEq, Repr

/-- Prefix sums: position of each block from the position and size of the
previous block (`calc_block_position`, main.hpp line 120). -/
def prefixSums : List Nat → Nat → List Nat
  | [], _ => []
  | s :: rest, acc => acc :: prefixSums rest (acc + s)

/-- The logical block list: (size, category) pairs. -/
def blocksOf (m : multi_type_vector) : List (Nat × Cat) :=
  m.m_blocks.sizes.zip m.m_blocks.element_blocks

/-- Rebuild the parallel vectors from a logical block list, recomputing
`positions` as the prefix sums of `sizes`. -/
def mkBlocks (n : Nat) (bs : List (Nat × Cat)) : multi_type_vector :=
  { m_cur_size := n
    m_blocks :=
      { positions := prefixSums (bs.map Prod.fst) 0
        sizes := bs.map Prod.fst
        element_blocks := bs.map Prod.snd } }

/-- Split the block containing logical position `p` and set that one
element to category `c` (the generic single-element `set` path,
spec-modelled: the bodies live in the absent main_def.inl). -/
def splitSet : List (Nat × Cat) → Nat → Nat → List (Nat × Cat)
  | [], _, _ => []
  | (sz, cat) :: rest, p, c =>
      if p < sz then
        (p, cat) :: (1, some c) :: (sz - p - 1, cat) :: rest
      else
        (sz, cat) :: splitSet rest (p - sz) c

/-- Drop zero-sized blocks produced by splitting at a block boundary. -/
def dropZero (bs : List (Nat × Cat)) : List (Nat × Cat) :=
  bs.filter (fun b => decide (0 < b.1))

/-- Merge runs of adjacent blocks sharing a category into one block. -/
def mergeAdj : List (Nat × Cat) → List (Nat × Cat)
  | [] => []
  | [b] => [b]
  | b1 :: b2 :: rest =>
      if b1.2 = b2.2 then mergeAdj ((b1.1 + b2.1, b1.2) :: rest)
      else b1 :: mergeAdj (b2 :: rest)
termination_by bs => bs.length

/-- Normalisation pass after a mutation: drop empty slices and merge
category-equal neighbours. -/
def normAdj (bs : List (Nat × Cat)) : List (Nat × Cat) :=
  mergeAdj (dropZero bs)

/-- One public mutation: set the element at position `p` to a value of
category `c`. -/
def setOne (m : multi_type_vector) (p c : Nat) : multi_type_vector :=
  mkBlocks m.m_cur_size (normAdj (splitSet (blocksOf m) p c))

/-- The constructor `multi_type_vector(init_size)`: when the size is
greater than 0 the container is one empty-category block (main.hpp lines
137-144). -/
def initMV (n : Nat) : multi_type_vector :=
  if n = 0 then mkBlocks 0 [] else mkBlocks n [(n, none)]

/-- No two adjacent blocks share a category (in particular no two
adjacent empty-category blocks, `none` beside `none`). -/
def adjDistinct : List Cat → Bool
  | [] => true
  | [_] => true
  | c1 :: c2 :: rest => decide (c1 ≠ c2) && adjDistinct (c2 :: rest)

/-- The block-structure invariant of claim C9: the block sizes sum to the
container size, `positions` is the prefix-sum of `sizes`, the parallel
vectors are index-aligned, every block is non-empty, and no two adjacent
blocks share a category. -/
def mtvInv (m : multi_type_vector) : Bool :=
  decide (m.m_blocks.sizes.sum = m.m_cur_size) &&
  decide (m.m_blocks.positions = prefixSums m.m_blocks.sizes 0) &&
  decide (m.m_blocks.element_blocks.length = m.m_blocks.sizes.length) &&
  m.m_blocks.sizes.all (fun s => decide (0 < s)) &&
  adjDistinct m.m_blocks.element_blocks

/-- The flat element view of a logical block list: one category tag per
stored element, in order. -/
def flatOf : List (Nat × Cat) → List Cat
  | [] => []
  | (sz, c) :: rest => List.replicate sz c ++ flatOf rest

/-- Helper for re-blocking a flat element list: `c` is the category of
the run currently being collected and `n` its length so far. -/
def toBlocksAux (c : Cat) (n : Nat) : List Cat → List (Nat × Cat)
  | [] => [(n, c)]
  | c2 :: rest =>
      if c2 = c then toBlocksAux c (n + 1) rest
      else (n, c) :: toBlocksAux c2 1 rest

/-- Re-block a flat element list into its maximal single-category runs —
the normal form the container maintains after every mutation. -/
def toBlocks : List Cat → List (Nat × Cat)
  | [] => []
  | c :: rest => toBlocksAux c 1 rest

/-- Rebuild the container from a flat element list: the size is the
element count, the blocks are the maximal category runs, and `positions`
is recomputed as the prefix sums (`calc_block_position`). -/
def mkBlocksFlat (l : List Cat) : multi_type_vector :=
  mkBlocks l.length (toBlocks l)

/-- Overwrite the categories of `len` elements starting at position `p`
with `c`, leaving the element count unchanged: the ranged `set` (with
`c = some cat`) and `set_empty` (with `c = none`); the latter is also
the source half of `transfer`, which empties the moved-out range
(spec-modelled; the bodies live in the absent main_def.inl). -/
def setCats : List Cat → Nat → Nat → Cat → List Cat
  | [], _, _, _ => []
  | x :: rest, p, len, c =>
      if p = 0 then
        if len = 0 then x :: rest
        else c :: setCats rest 0 (len - 1) c
      else x :: setCats rest (p - 1) len c

def setRangeOp (m : multi_type_vector) (p len : Nat) (c : Cat) : multi_type_vector :=
  mkBlocksFlat (setCats (flatOf (blocksOf m)) p len c)

/-- Splice a run of categories in at position `p`, growing the
container: `insert_empty(pos, len)` with `cs = replicate len none`, and
the insertion form of receiving transferred elements with typed `cs`. -/
def insCats (l : List Cat) (p : Nat) (cs : List Cat) : List Cat :=
  l.take p ++ cs ++ l.drop p

def insRunOp (m : multi_type_vector) (p : Nat) (cs : List Cat) : multi_type_vector :=
  mkBlocksFlat (insCats (flatOf (blocksOf m)) p cs)

/-- Remove `k` elements starting at position `p`, shrinking the
container: `erase(pos, len)`. -/
def eraseCats (l : List Cat) (p k : Nat) : List Cat :=
  l.take p ++ l.drop (p + k)

def eraseRunOp (m : multi_type_vector) (p k : Nat) : multi_type_vector :=
  mkBlocksFlat (eraseCats (flatOf (blocksOf m)) p k)

/-- `resize(n)`: truncate to `n` elements, or append empty elements up
to `n`. -/
def resizeCats (l : List Cat) (n : Nat) : List Cat :=
  if n ≤ l.length then l.take n
  else l ++ List.replicate (n - l.length) none

def resizeOp (m : multi_type_vector) (n : Nat) : multi_type_vector :=
  mkBlocksFlat (resizeCats (flatOf (blocksOf m)) n)

/-- Overwrite the range starting at `p` with the category run `cs`,
keeping the element count when the range is in bounds: the destination
half of `transfer(start, end, dest, dest_pos)` and either half of the
ranged `swap`, whose written categories come from the peer container's
range (hence `cs` is arbitrary here). -/
def overwriteCats (l : List Cat) (p : Nat) (cs : List Cat) : List Cat :=
  l.take p ++ cs ++ l.drop (p + cs.length)

def overwriteOp (m : multi_type_vector) (p : Nat) (cs : List Cat) : multi_type_vector :=
  mkBlocksFlat (overwriteCats (flatOf (blocksOf m)) p cs)

/-- Container states reachable over a whole lifetime: the sized
constructor followed by any sequence of the mutating operations —
single-cell set, ranged set and `set_empty`, insertion of a category run
(`insert_empty`, and receiving transferred elements), ranged `erase`,
`resize`, and range overwrite (the destination half of `transfer` and
the ranged `swap`; the source halves are a ranged set-to-empty and an
overwrite).  The run contents `cs` are universally quantified, so every
category sequence a peer container could supply is covered.  The
whole-container `swap` exchanges the two complete states unchanged, so
it cannot leave either container outside this set. -/
inductive MTVReach : multi_type_vector → Prop
  | init (n : Nat) : MTVReach (initMV n)
  | set_cell (m : multi_type_vector) (p c : Nat) :
      MTVReach m → MTVReach (setOne m p c)
  | set_range (m : multi_type_vector) (p len : Nat) (c : Cat) :
      MTVReach m → MTVReach (setRangeOp m p len c)
  | ins_run (m : multi_type_vector) (p : Nat) (cs : List Cat) :
      MTVReach m → MTVReach (insRunOp m p cs)
  | erase_run (m : multi_type_vector) (p k : Nat) :
      MTVReach m → MTVReach (eraseRunOp m p k)
  | resize (m : multi_type_vector) (n : Nat) :
      MTVReach m → MTVReach (resizeOp m n)
  | overwrite_run (m : multi_type_vector) (p : Nat) (cs : List Cat) :
      MTVReach m → MTVReach (overwriteOp m p cs)

theorem splitSet_sum : (bs : List (Nat × Cat)) → ∀ p c,
    ((splitSet bs p c).map Prod.fst).sum = (bs.map Prod.fst).sum
  | [] => fun _ _ => rfl
  | (sz, cat) :: rest => by
      intro p c
      simp only [splitSet]
      split
      · rename_i h
        simp only [List.map_cons, List.sum_cons]
        omega
      · simp only [List.map_cons, List.sum_cons, splitSet_sum rest]

theorem dropZero_sum : (bs : List (Nat × Cat)) →
    ((dropZero bs).map Prod.fst).sum = (bs.map Prod.fst).sum
  | [] => rfl
  | b :: rest => by
      simp only [dropZero, List.filter_cons]
      split
      · simp only [List.map_cons, List.sum_cons]
        have := dropZero_sum rest
        simp only [dropZero] at this
        omega
      · rename_i h
        have hb : b.1 = 0 := by
          by_contra hb0
          exact h (by simpa using Nat.pos_of_ne_zero hb0)
        have := dropZero_sum rest
        simp only [dropZero] at this
        simp only [List.map_cons, List.sum_cons, this, hb, Nat.zero_add]

theorem dropZero_pos (bs : List (Nat × Cat)) : ∀ b ∈ dropZero bs, 0 < b.1 := by
  intro b hb
  have := List.of_mem_filter hb
  simpa using this

theorem mergeAdj_sum : (bs : List (Nat × Cat)) →
    ((mergeAdj bs).map Prod.fst).sum = (bs.map Prod.fst).sum
  | [] => by rw [mergeAdj]
  | [b] => by rw [mergeAdj]
  | b1 :: b2 :: rest => by
      rw [mergeAdj]
      by_cases h : b1.2 = b2.2
      · rw [if_pos h, mergeAdj_sum ((b1.1 + b2.1, b1.2) :: rest)]
        simp only [List.map_cons, List.sum_cons]
        omega
      · rw [if_neg h]
        simp only [List.map_cons, List.sum_cons, mergeAdj_sum (b2 :: rest)]
termination_by bs => bs.length

theorem mergeAdj_pos : (bs : List (Nat × Cat)) → (∀ b ∈ bs, 0 < b.1) →
    ∀ b ∈ mergeAdj bs, 0 < b.1
  | [] => by intro _ b hb; rw [mergeAdj] at hb; cases hb
  | [b0] => by
      intro hp b hb
      rw [mergeAdj] at hb
      cases hb with
      | head => exact hp b0 (by simp)
      | tail _ h2 => cases h2
  | b1 :: b2 :: rest => by
      intro hp b hb
      rw [mergeAdj] at hb
      by_cases h : b1.2 = b2.2
      · rw [if_pos h] at hb
        refine mergeAdj_pos ((b1.1 + b2.1, b1.2) :: rest) ?_ b hb
        intro x hx
        cases hx with
        | head =>
            have h1 := hp b1 (by simp)
            omega
        | tail _ h2 =>
            exact hp x (List.mem_cons_of_mem _ (List.mem_cons_of_mem _ h2))
      · rw [if_neg h] at hb
        cases hb with
        | head => exact hp b1 (by simp)
        | tail _ h2 =>
            refine mergeAdj_pos (b2 :: rest) ?_ b h2
            intro x hx
            exact hp x (List.mem_cons_of_mem _ hx)
termination_by bs => bs.length

theorem mergeAdj_head : (b : Nat × Cat) → (l : List (Nat × Cat)) →
    ∃ sz rest2, mergeAdj (b :: l) = (sz, b.2) :: rest2
  | b, [] => ⟨b.1, [], by rw [mergeAdj]⟩
  | b, b2 :: rest => by
      by_cases h : b.2 = b2.2
      · obtain ⟨sz, r2, hr⟩ := mergeAdj_head (b.1 + b2.1, b.2) rest
        exact ⟨sz, r2, by rw [mergeAdj, if_pos h]; exact hr⟩
      · exact ⟨b.1, mergeAdj (b2 :: rest), by rw [mergeAdj, if_neg h]⟩
termination_by b l => l.length

theorem mergeAdj_adj : (bs : List (Nat × Cat)) →
    adjDistinct ((mergeAdj bs).map Prod.snd) = true
  | [] => by rw [mergeAdj]; rfl
  | [b] => by rw [mergeAdj]; rfl
  | b1 :: b2 :: rest => by
      rw [mergeAdj]
      by_cases h : b1.2 = b2.2
      · rw [if_pos h]
        exact mergeAdj_adj ((b1.1 + b2.1, b1.2) :: rest)
      · rw [if_neg h]
        obtain ⟨sz, r2, hr⟩ := mergeAdj_head b2 rest
        have h2 := mergeAdj_adj (b2 :: rest)
        rw [hr] at h2
        rw [hr]
        simp only [List.map_cons, adjDistinct, Bool.and_eq_true,
          decide_eq_true_eq] at h2 ⊢
        exact ⟨h, h2⟩
termination_by bs => bs.length

theorem mtvInv_init (n : Nat) : mtvInv (initMV n) = true := by
  by_cases h : n = 0
  · subst h
    rfl
  · rw [initMV, if_neg h]
    simp [mtvInv, mkBlocks, prefixSums, adjDistinct, Nat.pos_of_ne_zero h]

theorem mtvInv_setOne (m : multi_type_vector) (p c : Nat)
    (hm : mtvInv m = true) : mtvInv (setOne m p c) = true := by
  simp only [mtvInv, Bool.and_eq_true, decide_eq_true_eq] at hm
  obtain ⟨⟨⟨⟨hsum, _⟩, hlen⟩, _⟩, _⟩ := hm
  have h1 : ((mergeAdj (dropZero (splitSet (blocksOf m) p c))).map Prod.fst).sum
      = m.m_cur_size := by
    rw [mergeAdj_sum, dropZero_sum, splitSet_sum, blocksOf,
      List.map_fst_zip _ _ (le_of_eq hlen.symm)]
    exact hsum
  have h2 : ∀ b ∈ mergeAdj (dropZero (splitSet (blocksOf m) p c)), 0 < b.1 :=
    mergeAdj_pos _ (dropZero_pos _)
  have h3 := mergeAdj_adj (dropZero (splitSet (blocksOf m) p c))
  simp only [setOne, normAdj, mkBlocks, mtvInv, Bool.and_eq_true,
    decide_eq_true_eq, List.length_map, List.all_eq_true]
  refine ⟨⟨⟨⟨h1, trivial⟩, trivial⟩, ?_⟩, h3⟩
  intro s hs
  obtain ⟨b, hb, hbs⟩ := List.mem_map.mp hs
  subst hbs
  exact h2 b hb

theorem toBlocksAux_sum : (l : List Cat) → ∀ c n,
    ((toBlocksAux c n l).map Prod.fst).sum = n + l.length
  | [] => by intro c n; simp [toBlocksAux]
  | c2 :: rest => by
      intro c n
      simp only [toBlocksAux]
      split
      · rw [toBlocksAux_sum rest c (n + 1)]
        simp only [List.length_cons]
        omega
      · simp only [List.map_cons, List.sum_cons, toBlocksAux_sum rest c2 1,
          List.length_cons]
        omega

theorem toBlocksAux_pos : (l : List Cat) → ∀ c n, 0 < n →
    ∀ b ∈ toBlocksAux c n l, 0 < b.1
  | [] => by
      intro c n hn b hb
      simp only [toBlocksAux, List.mem_singleton] at hb
      rw [hb]
      exact hn
  | c2 :: rest => by
      intro c n hn b hb
      simp only [toBlocksAux] at hb
      split at hb
      · exact toBlocksAux_pos rest c (n + 1) (by omega) b hb
      · cases hb with
        | head => exact hn
        | tail _ h2 => exact toBlocksAux_pos rest c2 1 (by omega) b h2

theorem toBlocksAux_head : (l : List Cat) → ∀ c n,
    ∃ sz bs, toBlocksAux c n l = (sz, c) :: bs
  | [] => fun c n => ⟨n, [], rfl⟩
  | c2 :: rest => by
      intro c n
      simp only [toBlocksAux]
      split
      · exact toBlocksAux_head rest c (n + 1)
      · exact ⟨n, toBlocksAux c2 1 rest, rfl⟩

theorem toBlocksAux_adj : (l : List Cat) → ∀ c n,
    adjDistinct ((toBlocksAux c n l).map Prod.snd) = true
  | [] => fun c n => rfl
  | c2 :: rest => by
      intro c n
      simp only [toBlocksAux]
      split
      · exact toBlocksAux_adj rest c (n + 1)
      · rename_i h
        obtain ⟨sz, bs, hb⟩ := toBlocksAux_head rest c2 1
        have ih := toBlocksAux_adj rest c2 1
        rw [hb] at ih
        rw [hb]
        simp only [List.map_cons] at ih ⊢
        simp only [adjDistinct, Bool.and_eq_true, decide_eq_true_eq]
        exact ⟨fun he => h he.symm, ih⟩

/-- Rebuilding from any flat element list yields a container satisfying
the block-structure invariant. -/
theorem mtvInv_mkFlat (l : List Cat) : mtvInv (mkBlocksFlat l) = true := by
  cases l with
  | nil => rfl
  | cons c rest =>
      have h1 : ((toBlocks (c :: rest)).map Prod.fst).sum = (c :: rest).length := by
        simp only [toBlocks, toBlocksAux_sum rest c 1, List.length_cons]
        omega
      have h2 : ∀ b ∈ toBlocks (c :: rest), 0 < b.1 :=
        toBlocksAux_pos rest c 1 (by omega)
      have h3 : adjDistinct ((toBlocks (c :: rest)).map Prod.snd) = true :=
        toBlocksAux_adj rest c 1
      simp only [mkBlocksFlat, mkBlocks, mtvInv, Bool.and_eq_true,
        decide_eq_true_eq, List.length_map, List.all_eq_true]
      refine ⟨⟨⟨⟨h1, trivial⟩, trivial⟩, ?_⟩, h3⟩
      intro s hs
      obtain ⟨b, hb, hbs⟩ := List.mem_map.mp hs
      subst hbs
      exact h2 b hb

/-- Claim C9: at every point of a container lifetime — the sized
constructor followed by any sequence of single-cell sets, ranged sets
and `set_empty`, insertions of element runs, ranged erases, resizes, and
range overwrites (the transfer and ranged-swap halves) — `size()` equals
the sum of the block sizes, `positions` is the prefix-sum of `sizes`,
the three parallel vectors of `blocks_type` are index-aligned, every
block is non-empty, and no two adjacent blocks share a category — in
particular no two adjacent empty-category (null `element_blocks`
pointer) blocks. -/
theorem claim_C9 (m : multi_type_vector) (hr : MTVReach m) : mtvInv m = true := by
  induction hr with
  | init n => exact mtvInv_init n
  | set_cell m p c _ ih => exact mtvInv_setOne m p c ih
  | set_range m p len c _ _ => exact mtvInv_mkFlat _
  | ins_run m p cs _ _ => exact mtvInv_mkFlat _
  | erase_run m p k _ _ => exact mtvInv_mkFlat _
  | resize m n _ _ => exact mtvInv_mkFlat _
  | overwrite_run m p cs _ _ => exact mtvInv_mkFlat _

/-- Witness for claim C9: a container of size 10 after a single-cell
set, a ranged set, an insertion of a typed-and-empty run, a growing
resize, a range overwrite and a ranged erase. -/
theorem claim_C9_witness :
    mtvInv (eraseRunOp (overwriteOp (resizeOp (insRunOp (setRangeOp
        (setOne (initMV 10) 3 7) 5 3 (some 2)) 2 [some 1, none]) 14)
      6 [some 4, some 4, none]) 1 5) = true :=
  claim_C9 _ (MTVReach.erase_run _ 1 5 (MTVReach.overwrite_run _ 6
    [some 4, some 4, none] (MTVReach.resize _ 14 (MTVReach.ins_run _ 2
      [some 1, none] (MTVReach.set_range _ 5 3 (some 2)
        (MTVReach.set_cell _ 3 7 (MTVReach.init 10)))))))

end MTV
